import Mathlib

/-!
# Conversation-history compaction (summarization/summary.go)

A shallow embedding of `summaryMiddleware.BeforeModel` and of the helpers it
uses.  Slices of message pointers become lists of optional messages (`none` is
the nil pointer), the `int64` token arithmetic wraps modulo `2^64`, and the
two external collaborators (token counter, summarizer) are function
parameters whose calls are recorded in the outcome.
-/

namespace schema

/-- The type `schema.RoleType` is a string type. -/
abbrev RoleType := String

def System : RoleType := "system"
def User : RoleType := "user"
def Assistant : RoleType := "assistant"
def Tool : RoleType := "tool"

/-- The type `schema.ChatMessagePartType` is a string type. -/
abbrev ChatMessagePartType := String

def ChatMessagePartTypeText : ChatMessagePartType := "text"

/-- A value stored in the `Extra` map of a message (`any` in the source). -/
inductive AnyVal where
  | bool (b : Bool)
  | str (s : String)
  | int (i : Int)
  deriving DecidableEq, Repr

structure FunctionCall where
  Name : String := ""
  Arguments : String := ""
  deriving DecidableEq, Repr

structure ToolCall where
  ID : String := ""
  Function : FunctionCall := {}
  deriving DecidableEq, Repr

/-- The fields of `schema.MessageInputPart` that the code reads (`Type_` is the field `Type`). -/
structure MessageInputPart where
  Type_ : ChatMessagePartType := ""
  Text : String := ""
  deriving DecidableEq, Repr

/-- The fields of `schema.MessageOutputPart` that the code reads (`Type_` is the field `Type`). -/
structure MessageOutputPart where
  Type_ : ChatMessagePartType := ""
  Text : String := ""
  deriving DecidableEq, Repr

/-- The fields of `schema.Message` that the code reads or writes.  `Extra` is a
Go map, kept as an association list. -/
structure Message where
  Role : RoleType := ""
  Content : String := ""
  UserInputMultiContent : List MessageInputPart := []
  AssistantGenMultiContent : List MessageOutputPart := []
  Name : String := ""
  ToolCalls : List ToolCall := []
  ToolCallID : String := ""
  ToolName : String := ""
  Extra : List (String × AnyVal) := []
  deriving DecidableEq, Repr

/-- The constructor `schema.AssistantMessage(content, toolCalls)`. -/
def AssistantMessage (content : String) (toolCalls : List ToolCall) : Message :=
  { Role := Assistant, Content := content, ToolCalls := toolCalls }

end schema

namespace Summarization

open schema

/-- A message pointer: `none` is nil. -/
abbrev Msg := Option Message

/-- Reinterpret an integer as an `int64` (two's complement wrap-around). -/
def wrapInt64 (x : Int) : Int :=
  (x + 9223372036854775808) % 18446744073709551616 - 9223372036854775808

/-- Addition of two `int64` values as Go performs it. -/
def add64 (a b : Int) : Int := wrapInt64 (a + b)

def summaryMessageFlag : String := "_agent_middleware_summary_message"

/-- The lookup `_, ok := m.Extra[key]`. -/
def hasKey (extra : List (String × AnyVal)) (key : String) : Bool :=
  extra.any (fun kv => kv.1 == key)

/-- The local type `block` of `BeforeModel`. -/
structure block where
  msgs : List Msg := []
  tokens : Int := 0
  deriving DecidableEq, Repr

/-- The errors `BeforeModel` can return, one constructor per `fmt.Errorf`. -/
inductive Error where
  | countFailed (cause : String)
  | countMismatch (msgNum tokenCountNum : Nat)
  | summarizeFailed (cause : String)
  deriving DecidableEq, Repr

/-- The state type `adk.ChatModelAgentState`. -/
structure ChatModelAgentState where
  Messages : List Msg
  deriving DecidableEq, Repr

/-- The map handed to the summarizer, as a list of key and value pairs. -/
abbrev SummarizerInput := List (String × String)

/-- The receiver of `BeforeModel`.  `maxBefore` and `maxRecent` are Go `int`
values, converted to `int64` without change on a 64-bit platform.  A successful
summarizer call returns a non-nil message. -/
structure summaryMiddleware where
  counter : List Msg → Except String (List Int)
  maxBefore : Int
  maxRecent : Int
  summarizer : SummarizerInput → Except String Message

/-- The loop over `m.ToolCalls` of `renderMsg`. -/
def renderToolCalls : List ToolCall → String
  | [] => ""
  | tc :: rest =>
    (if tc.Function.Name ≠ "" then "tool_call: " ++ tc.Function.Name ++ "\n" else "")
      ++ (if tc.Function.Arguments ≠ "" then "args: " ++ tc.Function.Arguments ++ "\n" else "")
      ++ renderToolCalls rest

/-- The loop over `m.UserInputMultiContent` of `renderMsg`. -/
def renderInputParts : List MessageInputPart → String
  | [] => ""
  | p :: rest =>
    (if p.Type_ = ChatMessagePartTypeText ∧ p.Text ≠ "" then p.Text ++ "\n" else "")
      ++ renderInputParts rest

/-- The loop over `m.AssistantGenMultiContent` of `renderMsg`. -/
def renderOutputParts : List MessageOutputPart → String
  | [] => ""
  | p :: rest =>
    (if p.Type_ = ChatMessagePartTypeText ∧ p.Text ≠ "" then p.Text ++ "\n" else "")
      ++ renderOutputParts rest

/-- Render messages into strings (`renderMsg`). -/
def renderMsg : Msg → String
  | none => ""
  | some m =>
    (if m.Role = Tool then
        (if m.ToolName ≠ "" then "[tool:" ++ m.ToolName ++ "]\n" else "[tool]\n")
      else "[" ++ m.Role ++ "]\n")
      ++ (if m.Content ≠ "" then m.Content ++ "\n" else "")
      ++ (if m.Role = Assistant ∧ m.ToolCalls.length > 0 then renderToolCalls m.ToolCalls else "")
      ++ renderInputParts m.UserInputMultiContent
      ++ renderOutputParts m.AssistantGenMultiContent

/-- The inner loop of `joinBlocks` over the messages of one block. -/
def joinMsgs : List Msg → String
  | [] => ""
  | m :: rest => renderMsg m ++ "\n" ++ joinMsgs rest

/-- The closure `joinBlocks` of `BeforeModel`. -/
def joinBlocks : List block → String
  | [] => ""
  | b :: rest => joinMsgs b.msgs ++ joinBlocks rest

/-- Lines 146-154: the leading System message, if any.  Returns the block and
the messages from `idx` on. -/
def takeSystem (l : List (Msg × Int)) : block × List (Msg × Int) :=
  match l with
  | (some m, t) :: rest =>
    if m.Role = System then ({ msgs := [some m], tokens := add64 0 t }, rest)
    else ({}, l)
  | _ => ({}, l)

/-- Lines 155-168: the run of User messages; nil entries are skipped. -/
def takeUser : block → List (Msg × Int) → block × List (Msg × Int)
  | b, [] => (b, [])
  | b, (none, _) :: rest => takeUser b rest
  | b, (some m, t) :: rest =>
    if m.Role ≠ User then (b, (some m, t) :: rest)
    else takeUser { msgs := b.msgs ++ [some m], tokens := add64 b.tokens t } rest

/-- Lines 169-179: an Assistant message carrying the summary flag. -/
def takeSummary (l : List (Msg × Int)) : block × List (Msg × Int) :=
  match l with
  | (some m, t) :: rest =>
    if m.Role = Assistant ∧ hasKey m.Extra summaryMessageFlag = true then
      ({ msgs := [some m], tokens := add64 0 t }, rest)
    else ({}, l)
  | _ => ({}, l)

/-- Lines 195-213: the inner loop over `j`, collecting the Tool messages that
follow an Assistant message with tool calls. -/
def collectTools (callIDs : List String) : block → List (Msg × Int) → block × List (Msg × Int)
  | b, [] => (b, [])
  | b, (none, t) :: rest => (b, (none, t) :: rest)
  | b, (some nm, t) :: rest =>
    if nm.Role ≠ Tool then (b, (some nm, t) :: rest)
    else if nm.ToolCallID = "" then
      collectTools callIDs { msgs := b.msgs ++ [some nm], tokens := add64 b.tokens t } rest
    else if nm.ToolCallID ∉ callIDs then (b, (some nm, t) :: rest)
    else collectTools callIDs { msgs := b.msgs ++ [some nm], tokens := add64 b.tokens t } rest

/-- Lines 181-219: the loop over `i` building `toolBlocks`.  The first argument
bounds the number of iterations; the length of the list is always enough. -/
def buildBlocks : Nat → List (Msg × Int) → List block
  | 0, _ => []
  | _ + 1, [] => []
  | fuel + 1, (none, _) :: rest => buildBlocks fuel rest
  | fuel + 1, (some m, t) :: rest =>
    if m.Role = Assistant ∧ m.ToolCalls.length > 0 then
      let r := collectTools (m.ToolCalls.map (fun tc => tc.ID)) { msgs := [some m], tokens := t } rest
      r.1 :: buildBlocks fuel r.2
    else
      { msgs := [some m], tokens := t } :: buildBlocks fuel rest

/-- The variables `recentBlocks`, `olderBlocks`, `recentTokens` of the split loop. -/
structure SplitState where
  recentBlocks : List block := []
  olderBlocks : List block := []
  recentTokens : Int := 0
  deriving DecidableEq, Repr

/-- One iteration of the loop of lines 225-233. -/
def splitStep (maxRecent : Int) (b : block) (st : SplitState) : SplitState :=
  if add64 st.recentTokens b.tokens > maxRecent then
    { st with olderBlocks := b :: st.olderBlocks }
  else
    { st with recentBlocks := b :: st.recentBlocks, recentTokens := add64 st.recentTokens b.tokens }

/-- Lines 221-233: the loop runs from the last block to the first. -/
def splitBlocks (maxRecent : Int) (toolBlocks : List block) : SplitState :=
  toolBlocks.foldr (splitStep maxRecent) {}

/-- Everything `BeforeModel` derives from the history before it calls the summarizer. -/
structure Blocks where
  systemBlock : block
  userBlock : block
  summaryBlock : block
  toolBlocks : List block
  recentBlocks : List block
  olderBlocks : List block
  recentTokens : Int
  deriving DecidableEq, Repr

/-- Lines 139-233, on messages paired with their token counts. -/
def mkBlocks (maxRecent : Int) (l : List (Msg × Int)) : Blocks :=
  let r1 := takeSystem l
  let r2 := takeUser {} r1.2
  let r3 := takeSummary r2.2
  let toolBlocks := buildBlocks r3.2.length r3.2
  let sp := splitBlocks maxRecent toolBlocks
  { systemBlock := r1.1, userBlock := r2.1, summaryBlock := r3.1, toolBlocks := toolBlocks,
    recentBlocks := sp.recentBlocks, olderBlocks := sp.olderBlocks, recentTokens := sp.recentTokens }

/-- Lines 249-255: the argument of `summarizer.Invoke`. -/
def summarizerInput (p : Blocks) : SummarizerInput :=
  [("system_prompt", joinBlocks [p.systemBlock]),
   ("user_messages", joinBlocks [p.userBlock]),
   ("previous_summary", joinBlocks [p.summaryBlock]),
   ("older_messages", joinBlocks p.olderBlocks),
   ("recent_messages", joinBlocks p.recentBlocks)]

/-- Lines 260-264: the new summary message. -/
def mkSummaryMsg (content : String) : Message :=
  { AssistantMessage content [] with Extra := [(summaryMessageFlag, AnyVal.bool true)] }

/-- The messages of a list of blocks, block after block. -/
def blocksMsgs : List block → List Msg
  | [] => []
  | b :: rest => b.msgs ++ blocksMsgs rest

/-- Lines 266-273: the new message list. -/
def newMessages (p : Blocks) (summaryMsg : Message) : List Msg :=
  p.systemBlock.msgs ++ p.userBlock.msgs ++ [some summaryMsg] ++ blocksMsgs p.recentBlocks

/-- Lines 130-133: the total of the token counts. -/
def sumTokens (msgsToken : List Int) : Int :=
  msgsToken.foldl add64 0

/-- What a call of `BeforeModel` leaves behind: the returned error, the state
after the call, and the calls made to the two collaborators. -/
structure Outcome where
  err : Option Error
  state : Option ChatModelAgentState
  counterCalls : List (List Msg)
  summarizerCalls : List SummarizerInput

/-- The method `summaryMiddleware.BeforeModel`. -/
def BeforeModel (s : summaryMiddleware) (state : Option ChatModelAgentState) : Outcome :=
  match state with
  | none => { err := none, state := none, counterCalls := [], summarizerCalls := [] }
  | some st =>
    if st.Messages.length = 0 then
      { err := none, state := some st, counterCalls := [], summarizerCalls := [] }
    else
      let messages := st.Messages
      match s.counter messages with
      | .error e =>
        { err := some (.countFailed e), state := some st,
          counterCalls := [messages], summarizerCalls := [] }
      | .ok msgsToken =>
        if messages.length ≠ msgsToken.length then
          { err := some (.countMismatch messages.length msgsToken.length), state := some st,
            counterCalls := [messages], summarizerCalls := [] }
        else if sumTokens msgsToken ≤ s.maxBefore then
          { err := none, state := some st, counterCalls := [messages], summarizerCalls := [] }
        else
          let p := mkBlocks s.maxRecent (messages.zip msgsToken)
          let input := summarizerInput p
          match s.summarizer input with
          | .error e =>
            { err := some (.summarizeFailed e), state := some st,
              counterCalls := [messages], summarizerCalls := [input] }
          | .ok msg =>
            { err := none,
              state := some { st with Messages := newMessages p (mkSummaryMsg msg.Content) },
              counterCalls := [messages], summarizerCalls := [input] }

/-- Whether a history with the given counts reaches the compaction branch. -/
def triggers (s : summaryMiddleware) (messages : List Msg) (msgsToken : List Int) : Prop :=
  messages ≠ [] ∧ s.counter messages = .ok msgsToken ∧ messages.length = msgsToken.length ∧
    s.maxBefore < sumTokens msgsToken

/-- Whether an entry can join the block opened by an Assistant message with the
call ids `callIDs`: a Tool message whose `ToolCallID` is empty or one of the ids. -/
def pairsWith (callIDs : List String) (x : Msg × Int) : Bool :=
  match x.1 with
  | none => false
  | some nm => decide (nm.Role = Tool ∧ (nm.ToolCallID = "" ∨ nm.ToolCallID ∈ callIDs))

/-- The call ids of an Assistant message (the keys of the map `callIDs`). -/
def callIDsOf (m : Message) : List String := m.ToolCalls.map (fun tc => tc.ID)

/-- Whether an entry of a history is an Assistant message carrying the summary flag. -/
def carriesSummaryFlag (x : Msg) : Bool :=
  match x with
  | none => false
  | some m => decide (m.Role = Assistant) && hasKey m.Extra summaryMessageFlag

/-! ## Concrete histories and middlewares used as test inputs -/

/-- A counter that gives every message the same count. -/
def constCounter (c : Int) : List Msg → Except String (List Int) :=
  fun ms => .ok (ms.map (fun _ => c))

/-- A counter that returns a fixed array whatever the messages are. -/
def fixedCounter (toks : List Int) : List Msg → Except String (List Int) :=
  fun _ => .ok toks

/-- A summarizer that always answers with the given content. -/
def okSummarizer (content : String) : SummarizerInput → Except String Message :=
  fun _ => .ok (AssistantMessage content [])

/-- A summarizer that always fails. -/
def failingSummarizer (cause : String) : SummarizerInput → Except String Message :=
  fun _ => .error cause

def sysMsg : Message := { Role := System, Content := "be brief" }
def userMsg : Message := { Role := User, Content := "hi" }
def textMsg : Message := { Role := Assistant, Content := "hello" }
def oldSummary : Message :=
  { Role := Assistant, Content := "earlier", Extra := [(summaryMessageFlag, AnyVal.bool true)] }
def callMsg : Message :=
  { Role := Assistant, ToolCalls := [{ ID := "a", Function := { Name := "f", Arguments := "1" } },
                                     { ID := "b", Function := { Name := "g", Arguments := "2" } }] }
def toolA : Message := { Role := Tool, Content := "ra", ToolCallID := "a" }
def toolB : Message := { Role := Tool, Content := "rb", ToolCallID := "b" }
def toolX : Message := { Role := Tool, Content := "rx", ToolCallID := "x" }
def toolAnon : Message := { Role := Tool, Content := "r" }


/-- A middleware with `maxBefore = 20`, `maxRecent = 25` and 10 tokens per message. -/
def demoMw (summarizer : SummarizerInput → Except String Message) : summaryMiddleware :=
  { counter := constCounter 10, maxBefore := 20, maxRecent := 25, summarizer := summarizer }

def msgOne : Message := { Role := Assistant, Content := "one" }
def msgTwo : Message := { Role := Assistant, Content := "two" }
def msgThree : Message := { Role := Assistant, Content := "three" }

/-- A middleware with `maxBefore = 30`, `maxRecent = 25` whose counter answers 5, 20, 10. -/
def unevenMw : summaryMiddleware :=
  { counter := fixedCounter [5, 20, 10], maxBefore := 30, maxRecent := 25,
    summarizer := okSummarizer "S" }

def blkOne : block := { msgs := [some msgOne], tokens := 5 }
def blkTwo : block := { msgs := [some msgTwo], tokens := 20 }
def blkThree : block := { msgs := [some msgThree], tokens := 10 }

/-- A counter that always fails. -/
def failingCounter (cause : String) : List Msg → Except String (List Int) :=
  fun _ => .error cause

def userMsg2 : Message := { Role := User, Content := "and then?" }
def textMsg2 : Message := { Role := Assistant, Content := "done" }

/-- The history of the end-to-end scenario: System, User, Assistant with calls a and b,
Tool(a), Tool(b), Assistant(text), User, Assistant(text). -/
def scenarioHistory : List Msg :=
  [some sysMsg, some userMsg, some callMsg, some toolA, some toolB, some textMsg,
   some userMsg2, some textMsg2]

/-- The middleware of the end-to-end scenario: 10 tokens per message,
`maxBefore = 60`, `maxRecent = 25`. -/
def scenarioMw (summarizer : SummarizerInput → Except String Message) : summaryMiddleware :=
  { counter := constCounter 10, maxBefore := 60, maxRecent := 25, summarizer := summarizer }

/-- A block with one message and the given cost. -/
def costBlock (name : String) (cost : Int) : block :=
  { msgs := [some { Role := Assistant, Content := name }], tokens := cost }

/-- A middleware with `maxBefore = 0` and `maxRecent = 2^63 - 1`, the largest `int64`,
whose counter answers the given counts. -/
def wideMw (toks : List Int) : summaryMiddleware :=
  { counter := fixedCounter toks, maxBefore := 0, maxRecent := 9223372036854775807,
    summarizer := okSummarizer "S" }

/-- The rendering of a list of messages in the words of the specification: `renderMsg`
of each message followed by a newline, concatenated in the order of the list. -/
def renderAll (msgs : List Msg) : String :=
  String.join (msgs.map (fun m => renderMsg m ++ "\n"))

/-- The blocks of `bs` whose entry in `keep` equals `flag`, in their order. -/
def pickBlocks (flag : Bool) (bs : List block) (keep : List Bool) : List block :=
  ((bs.zip keep).filter (fun p => p.2 == flag)).map Prod.fst

/-- The role tag line of the canonical rendering. -/
def roleTagLine (m : Message) : String :=
  if m.Role = Tool then
    (if m.ToolName ≠ "" then "[tool:" ++ m.ToolName ++ "]\n" else "[tool]\n")
  else "[" ++ m.Role ++ "]\n"

/-- The content line of the canonical rendering: nothing for an empty content. -/
def contentLine (m : Message) : String :=
  if m.Content ≠ "" then m.Content ++ "\n" else ""

/-- The text-part lines of the canonical rendering: each non-empty text part of the
user-input parts, then of the assistant-output parts, followed by a newline. -/
def textPartLines (m : Message) : String :=
  String.join (((m.UserInputMultiContent.filter
      (fun p => decide (p.Type_ = ChatMessagePartTypeText ∧ p.Text ≠ ""))).map
        (fun p => p.Text ++ "\n")))
    ++ String.join (((m.AssistantGenMultiContent.filter
      (fun p => decide (p.Type_ = ChatMessagePartTypeText ∧ p.Text ≠ ""))).map
        (fun p => p.Text ++ "\n")))

/-- The rendering as the claim words it: for an Assistant message, one `tool_call:` line
and one `args:` line per tool call, whatever the name and the arguments are. -/
def renderClaimed (m : Message) : String :=
  roleTagLine m ++ contentLine m
    ++ (if m.Role = Assistant then
          String.join (m.ToolCalls.map (fun tc =>
            "tool_call: " ++ tc.Function.Name ++ "\n" ++ "args: " ++ tc.Function.Arguments ++ "\n"))
        else "")
    ++ textPartLines m

/-- The rendering with the two lines of a tool call each written only when its text is
not empty. -/
def renderCanonical (m : Message) : String :=
  roleTagLine m ++ contentLine m
    ++ (if m.Role = Assistant then
          String.join (m.ToolCalls.map (fun tc =>
            (if tc.Function.Name ≠ "" then "tool_call: " ++ tc.Function.Name ++ "\n" else "")
              ++ (if tc.Function.Arguments ≠ "" then "args: " ++ tc.Function.Arguments ++ "\n"
                  else "")))
        else "")
    ++ textPartLines m

/-- An Assistant message with one tool call that has a name and no arguments. -/
def bareCallMsg : Message :=
  { Role := Assistant, ToolCalls := [{ ID := "a", Function := { Name := "f", Arguments := "" } }] }

end Summarization

/-!
# Go strings

Go strings are byte strings.  The model uses lists of characters; for valid
UTF-8 text this agrees with the byte-level functions used by the code, because
every byte that is searched for or compared is ASCII.
-/

namespace strings

/-- The predicate `unicode.IsSpace`, which `strings.TrimSpace` uses. -/
def isSpace (c : Char) : Bool :=
  c.toNat = 9 || c.toNat = 10 || c.toNat = 11 || c.toNat = 12 || c.toNat = 13 ||
  c.toNat = 32 || c.toNat = 0x85 || c.toNat = 0xA0 || c.toNat = 0x1680 ||
  (decide (0x2000 ≤ c.toNat) && decide (c.toNat ≤ 0x200A)) ||
  c.toNat = 0x2028 || c.toNat = 0x2029 || c.toNat = 0x202F || c.toNat = 0x205F ||
  c.toNat = 0x3000

/-- The function `strings.TrimSpace`: leading and trailing white space removed. -/
def TrimSpace (s : List Char) : List Char :=
  ((s.dropWhile isSpace).reverse.dropWhile isSpace).reverse

/-- The function `strings.HasPrefix`. -/
def HasPrefix (s p : List Char) : Bool := p.isPrefixOf s

/-- The function `strings.HasSuffix`. -/
def HasSuffix (s p : List Char) : Bool := p.isSuffixOf s

/-- The function `strings.TrimPrefix`. -/
def TrimPrefix (s p : List Char) : List Char :=
  if HasPrefix s p then s.drop p.length else s

/-- The function `strings.TrimSuffix`. -/
def TrimSuffix (s p : List Char) : List Char :=
  if HasSuffix s p then s.take (s.length - p.length) else s

/-- The function `strings.IndexByte`: the first index of `c`, or -1. -/
def IndexByte (s : List Char) (c : Char) : Int :=
  if c ∈ s then (s.indexOf c : Nat) else -1

/-- The function `strings.LastIndexByte`: the last index of `c`, or -1. -/
def LastIndexByte (s : List Char) (c : Char) : Int :=
  if c ∈ s then ((s.length - 1 - s.reverse.indexOf c : Nat) : Int) else -1

/-- The slice expression `s[i:j]` for `0 <= i <= j <= len(s)`. -/
def slice {α : Type} (s : List α) (i j : Int) : List α :=
  (s.drop i.toNat).take (j.toNat - i.toNat)

/-- The functions `strings.Split(s, sep)` and `bytes.Split(s, sep)` for a separator of
one element: the pieces between the separators, at least one piece. -/
def Split {α : Type} [DecidableEq α] (sep : α) : List α → List (List α)
  | [] => [[]]
  | c :: cs =>
    if c = sep then [] :: Split sep cs
    else
      match Split sep cs with
      | [] => [[c]]
      | piece :: pieces => (c :: piece) :: pieces

end strings

/-!
# The JSON grammar

`json.Valid` belongs to the Go standard library.  The functions that call it
take the validity check as a parameter; `json.Valid` below is a model of it
after RFC 8259, used where a concrete check is needed.
-/

namespace json

/-- JSON white space: space, tab, line feed, carriage return. -/
def isWs (c : Char) : Bool := c = ' ' || c = '\t' || c = '\n' || c = '\r'

def isDigit (c : Char) : Bool := decide ('0' ≤ c) && decide (c ≤ '9')

def isHex (c : Char) : Bool :=
  isDigit c || (decide ('a' ≤ c) && decide (c ≤ 'f')) || (decide ('A' ≤ c) && decide (c ≤ 'F'))

/-- The rest of the input after a string body and its closing quote. -/
def scanString : List Char → Option (List Char)
  | [] => none
  | '"' :: rest => some rest
  | '\\' :: 'u' :: a :: b :: c :: d :: rest =>
    if isHex a && isHex b && isHex c && isHex d then scanString rest else none
  | '\\' :: e :: rest =>
    if e = '"' || e = '\\' || e = '/' || e = 'b' || e = 'f' || e = 'n' || e = 'r' || e = 't'
    then scanString rest else none
  | c :: rest => if c.toNat < 32 then none else scanString rest

/-- The rest of the input after a run of digits, which must not be empty. -/
def scanDigits (s : List Char) : Option (List Char) :=
  match s with
  | c :: _ => if isDigit c then some (s.dropWhile isDigit) else none
  | [] => none

/-- The rest of the input after a number. -/
def scanNumber (s : List Char) : Option (List Char) :=
  let s1 := match s with
    | '-' :: r => r
    | _ => s
  let afterInt : Option (List Char) :=
    match s1 with
    | '0' :: r => some r
    | _ => scanDigits s1
  match afterInt with
  | none => none
  | some s2 =>
    let afterFrac : Option (List Char) :=
      match s2 with
      | '.' :: r => scanDigits r
      | _ => some s2
    match afterFrac with
    | none => none
    | some s3 =>
      match s3 with
      | 'e' :: '+' :: r => scanDigits r
      | 'e' :: '-' :: r => scanDigits r
      | 'e' :: r => scanDigits r
      | 'E' :: '+' :: r => scanDigits r
      | 'E' :: '-' :: r => scanDigits r
      | 'E' :: r => scanDigits r
      | _ => some s3

/-- What the scanner expects next. -/
inductive Goal where
  | value
  | members
  | moreMembers
  | elements
  | moreElements
  deriving DecidableEq, Repr

/-- The rest of the input after the item named by the goal: a value; the members of an
object up to its closing brace (after the opening brace, or after a member); the elements
of an array up to its closing bracket.  The first argument bounds the recursion. -/
def scan : Nat → Goal → List Char → Option (List Char)
  | 0, _, _ => none
  | fuel + 1, Goal.value, s =>
    match s.dropWhile isWs with
    | '\x7b' :: r => scan fuel Goal.members r
    | '[' :: r => scan fuel Goal.elements r
    | '"' :: r => scanString r
    | 't' :: 'r' :: 'u' :: 'e' :: r => some r
    | 'f' :: 'a' :: 'l' :: 's' :: 'e' :: r => some r
    | 'n' :: 'u' :: 'l' :: 'l' :: r => some r
    | r => scanNumber r
  | fuel + 1, Goal.members, s =>
    match s.dropWhile isWs with
    | '\x7d' :: r => some r
    | '"' :: r =>
      match scanString r with
      | none => none
      | some r1 =>
        match r1.dropWhile isWs with
        | ':' :: r2 =>
          match scan fuel Goal.value r2 with
          | none => none
          | some r3 => scan fuel Goal.moreMembers r3
        | _ => none
    | _ => none
  | fuel + 1, Goal.moreMembers, s =>
    match s.dropWhile isWs with
    | '\x7d' :: r => some r
    | ',' :: r =>
      match r.dropWhile isWs with
      | '"' :: r0 =>
        match scanString r0 with
        | none => none
        | some r1 =>
          match r1.dropWhile isWs with
          | ':' :: r2 =>
            match scan fuel Goal.value r2 with
            | none => none
            | some r3 => scan fuel Goal.moreMembers r3
          | _ => none
      | _ => none
    | _ => none
  | fuel + 1, Goal.elements, s =>
    match s.dropWhile isWs with
    | ']' :: r => some r
    | r =>
      match scan fuel Goal.value r with
      | none => none
      | some r1 => scan fuel Goal.moreElements r1
  | fuel + 1, Goal.moreElements, s =>
    match s.dropWhile isWs with
    | ']' :: r => some r
    | ',' :: r =>
      match scan fuel Goal.value r with
      | none => none
      | some r1 => scan fuel Goal.moreElements r1
    | _ => none

/-- A model of `json.Valid`: one JSON value with optional white space around it. -/
def Valid (s : List Char) : Bool :=
  match scan (2 * s.length + 2) Goal.value s with
  | none => false
  | some r => (r.dropWhile isWs).isEmpty

end json

/-!
# The jsonfix middleware (jsonfix/json_fix_middleware.go)

`json.Valid` and `jsonrepair.JSONRepair` are library functions; `repair` takes
both as parameters.
-/

namespace jsonfix

open strings

/-- Lines 78-112 of `repair`, on the string already trimmed by `strings.TrimSpace`. -/
def repairTrimmed (valid : List Char → Bool)
    (JSONRepair : List Char → Except String (List Char)) (s : List Char) : List Char :=
  -- Fast-path: valid JSON as-is
  if HasPrefix s "\x7b".toList && HasSuffix s "\x7d".toList && valid s then s
  else
    -- Isolate JSON object region if present
    let i := IndexByte s '\x7b'
    let j := LastIndexByte s '\x7d'
    if i ≥ 0 ∧ j ≥ i ∧ valid (slice s i (j + 1)) = true then slice s i (j + 1)
    else
      let s1 := if i ≥ 0 ∧ j ≥ i then slice s i (j + 1) else s
      -- Remove common LLM artifacts
      let s2 := TrimPrefix s1 "<|FunctionCallBegin|>".toList
      let s3 := TrimSuffix s2 "<|FunctionCallEnd|>".toList
      let s4 := TrimPrefix s3 "<think>".toList
      if valid s4 then s4
      else
        -- Heuristic: add missing leading/trailing brace if one side exists
        let s5 :=
          if !HasPrefix s4 "\x7b".toList && HasSuffix s4 "\x7d".toList then
            "\x7b".toList ++ s4
          else if HasPrefix s4 "\x7b".toList && !HasSuffix s4 "\x7d".toList then
            s4 ++ "\x7d".toList
          else s4
        match JSONRepair s5 with
        | .error _ => s5
        | .ok out => out

/-- The function `repair`. -/
def repair (valid : List Char → Bool) (JSONRepair : List Char → Except String (List Char))
    (input : List Char) : List Char :=
  repairTrimmed valid JSONRepair (TrimSpace input)

/-- The fields of `compose.ToolInput` that the tests set. -/
structure ToolInput where
  Name : List Char
  Arguments : List Char
  CallID : List Char
  deriving DecidableEq, Repr

/-- The wrapper `Invokable`: the arguments are repaired, then the next endpoint runs. -/
def Invokable {β : Type} (valid : List Char → Bool)
    (JSONRepair : List Char → Except String (List Char)) (next : ToolInput → β) :
    ToolInput → β :=
  fun i => next { i with Arguments := repair valid JSONRepair i.Arguments }

/-- The wrapper `Streamable`: the arguments are repaired, then the next endpoint runs. -/
def Streamable {β : Type} (valid : List Char → Bool)
    (JSONRepair : List Char → Except String (List Char)) (next : ToolInput → β) :
    ToolInput → β :=
  fun i => next { i with Arguments := repair valid JSONRepair i.Arguments }

/-- A stand-in for `jsonrepair.JSONRepair` that always reports an error. -/
def noRepair : List Char → Except String (List Char) := fun _ => .error "unrepaired"

/-- The endpoint `echoEndpoint` of the tests: it returns the arguments it receives. -/
def echoEndpoint : ToolInput → List Char := fun i => i.Arguments

end jsonfix

/-!
# The Mermaid converter (tools/mermaid_renderer.go)
-/

namespace tools

open strings

/-- The loop variables `result`, `inMermaidBlock` and `mermaidCode` of
`ConvertMermaidToImageURL`. -/
structure ConvertState where
  result : List Char := []
  inMermaidBlock : Bool := false
  mermaidCode : List Char := []
  deriving DecidableEq, Repr

/-- Lines 165-173: the image URL built when a block is closed, with the text
transformations (`ReplaceAll`, base64, `QueryEscape`) as one parameter.  The
code assigns it to the local variable `imageURL` and writes nothing to `result`. -/
def closingImageURL (encode : List Char → List Char) (mermaidCode : List Char) :
    Option (List Char) :=
  let code := TrimSpace mermaidCode
  if code ≠ [] then some ("https://mermaid.ink/img/".toList ++ encode code) else none

/-- Lines 162-190: what one iteration does with `line` when neither of the two
opening forms matched.  Each of these branches ends with `i++`. -/
def stepLine (line : List Char) (st : ConvertState) : ConvertState :=
  if st.inMermaidBlock && HasPrefix line "```".toList then
    { st with inMermaidBlock := false }
  else if st.inMermaidBlock then
    let trimmedLine := TrimSpace line
    if trimmedLine ≠ [] then
      { st with mermaidCode := st.mermaidCode ++ trimmedLine ++ "\n".toList }
    else st
  else
    { st with result := st.result ++ line ++ "\n".toList }

/-- Lines 143-191: the loop over `lines`, from the current index on. -/
def convertLines : List (List Char) → ConvertState → ConvertState
  | [], st => st
  | [line], st =>
    if HasPrefix line "```mermaid".toList then
      { st with inMermaidBlock := true, mermaidCode := [] }
    else stepLine line st
  | line :: next :: rest, st =>
    if HasPrefix line "```mermaid".toList then
      convertLines (next :: rest) { st with inMermaidBlock := true, mermaidCode := [] }
    else if TrimSpace line = "```".toList ∧ TrimSpace next = "mermaid".toList then
      convertLines rest { st with inMermaidBlock := true, mermaidCode := [] }
    else
      convertLines (next :: rest) (stepLine line st)

/-- The function `ConvertMermaidToImageURL`. -/
def ConvertMermaidToImageURL (markdown : List Char) : List Char :=
  (convertLines (Split '\n' markdown) {}).result

/-- The lines of a text put back together, each followed by a newline. -/
def joinLines : List (List Char) → List Char
  | [] => []
  | l :: ls => l ++ '\n' :: joinLines ls

end tools

/-!
# The stream logger (httptransport/curlrt.go)

Bytes are natural numbers below 256; the newline byte is 10.
-/

namespace httptransport

open strings

/-- The fields of `loggingReadCloser` that `Read` uses.  `hasCtxLogger` says whether
`cl` is non-nil, `summary` is `none` for the nil buffer, and `chunkLog` records the
lines handed to the context logger. -/
structure loggingReadCloser where
  hasCtxLogger : Bool
  cap : Int
  total : Int := 0
  summary : Option (List Nat) := none
  chunkLog : List (List Nat) := []
  deriving DecidableEq, Repr

/-- The constructor `newLoggingReadCloser`, from the two fields of `CurlRT` it reads. -/
def newLoggingReadCloser (hasCtxLogger : Bool) (maxStreamLogBytes : Int) : loggingReadCloser :=
  { hasCtxLogger := hasCtxLogger,
    cap := if maxStreamLogBytes ≤ 0 then 8192 else maxStreamLogBytes,
    summary := if hasCtxLogger then none else some [] }

/-- Lines 266-279: what `Read` does with one line that passed the test of line 265. -/
def logLine (line : List Nat) (lrc : loggingReadCloser) : loggingReadCloser :=
  if lrc.hasCtxLogger then
    { lrc with chunkLog := lrc.chunkLog ++ [line] }
  else
    let remaining := lrc.cap - lrc.total
    if remaining > 0 then
      let toWrite := if (line.length : Int) > remaining then line.take remaining.toNat else line
      { lrc with
        summary := lrc.summary.map (fun buf => buf ++ toWrite ++ [10]),
        total := lrc.total + toWrite.length }
    else lrc

/-- Lines 264-281: the loop over the lines of a chunk; the last line is skipped when it
is empty. -/
def logLines : List (List Nat) → loggingReadCloser → loggingReadCloser
  | [], lrc => lrc
  | [line], lrc => if line.length > 0 then logLine line lrc else lrc
  | line :: next :: rest, lrc => logLines (next :: rest) (logLine line lrc)

/-- The method `Read`, given the bytes `p[:n]` that the wrapped reader delivered. -/
def Read (lrc : loggingReadCloser) (chunk : List Nat) : loggingReadCloser :=
  if chunk.length > 0 then logLines (Split 10 chunk) lrc else lrc

/-- A sequence of `Read` calls, one per delivered chunk. -/
def readAll (lrc : loggingReadCloser) (chunks : List (List Nat)) : loggingReadCloser :=
  chunks.foldl Read lrc

/-- The number of bytes held by the summary buffer (`summary.Len()`). -/
def summaryLen (lrc : loggingReadCloser) : Nat :=
  match lrc.summary with
  | none => 0
  | some buf => buf.length

end httptransport

/-!
# Header masking (httptransport/curlrt.go) and key masking (config/config.go)
-/

namespace httptransport

/-- The function `strings.EqualFold`, comparing letters without regard to ASCII case.
It agrees with the library function when one argument is ASCII text without the letters
k and s, as "Authorization" is. -/
def EqualFold (s t : List Char) : Bool := s.map Char.toLower == t.map Char.toLower

/-- The fields of `CurlRT` that `mask` reads.  `maskHeaders` is a Go set, kept as the list
of its keys; `maskFn` is never nil after `NewCurlRT`. -/
structure CurlRT where
  printAuth : Bool := false
  maskHeaders : List (List Char) := []
  maskFn : List Char → List Char → List Char := fun _ _ => "<redacted>".toList

/-- The method `CurlRT.mask`.  The library function `strings.ToLower`, which
lower-cases every Unicode letter, is the parameter `ToLower`. -/
def mask (ToLower : List Char → List Char) (c : CurlRT) (name value : List Char) :
    List Char :=
  if EqualFold name "Authorization".toList && !c.printAuth then "<redacted>".toList
  else if ToLower name ∈ c.maskHeaders then c.maskFn name value
  else value

/-- The option `WithMaskHeaders`: the names, lower-cased by `strings.ToLower` (the
parameter `ToLower`), are added to the set. -/
def WithMaskHeaders (ToLower : List Char → List Char) (names : List (List Char))
    (c : CurlRT) : CurlRT :=
  { c with maskHeaders := c.maskHeaders ++ names.map ToLower }

/-- The option `WithPrintAuth`. -/
def WithPrintAuth (b : Bool) (c : CurlRT) : CurlRT := { c with printAuth := b }

/-- The option `WithMaskFunc`. -/
def WithMaskFunc (f : List Char → List Char → List Char) (c : CurlRT) : CurlRT :=
  { c with maskFn := f }

/-- The constructor `NewCurlRT` without options: `printAuth` is false, no header is in
the set, and the masking function answers "<redacted>". -/
def NewCurlRT : CurlRT := {}

/-- Whether two texts have the same length and, position by position, the same
character up to the case of ASCII letters. -/
def sameIgnoringCase : List Char → List Char → Bool
  | [], [] => true
  | a :: s, b :: t => a.toLower == b.toLower && sameIgnoringCase s t
  | _, _ => false

/-- What `strings.ToLower` returns on ASCII text: the letters A to Z are lower-cased
and every other character is kept.  It takes the place of the library function
at ASCII header names only. -/
def lowerASCII (s : List Char) : List Char := s.map Char.toLower

/-- A lower-casing that knows the one letter outside ASCII used below, and is
`lowerASCII` elsewhere: `strings.ToLower` on texts over ASCII and that letter. -/
def lowerLatin (s : List Char) : List Char :=
  s.map (fun ch => if ch = 'Ä' then 'ä' else ch.toLower)

end httptransport

namespace config

/-- The slice expression `s[i:j]`, which panics (`none`) unless `0 <= i <= j <= len(s)`. -/
def sliceChecked (s : List Nat) (i j : Int) : Option (List Nat) :=
  if 0 ≤ i ∧ i ≤ j ∧ j ≤ s.length then some ((s.drop i.toNat).take (j.toNat - i.toNat))
  else none

/-- The three bytes of "***". -/
def stars : List Nat := [42, 42, 42]

/-- Lines 95-102 of `Config.PrintConfig`: the text printed for the API key, as bytes;
`none` stands for a slice out of range. -/
def maskAPIKey (apiKey : List Nat) : Option (List Nat) :=
  if (apiKey.length : Int) > 14 then
    match sliceChecked apiKey 0 10,
      sliceChecked apiKey ((apiKey.length : Int) - 4) apiKey.length with
    | some head, some tail => some (head ++ stars ++ tail)
    | _, _ => none
  else if (apiKey.length : Int) > 0 then
    match sliceChecked apiKey 0 1,
      sliceChecked apiKey ((apiKey.length : Int) - 1) apiKey.length with
    | some head, some tail => some (head ++ stars ++ tail)
    | _, _ => none
  else some stars

end config

/-!
# The line splitters (components/lineSplitter.go, components/smartSplitter.go)

Line indices are natural numbers: the loops keep them between 0 and one past
the number of lines, far from the range of a Go `int`.
-/

namespace components

open strings

/-- The function `strings.Join`. -/
def Join (parts : List (List Char)) (sep : List Char) : List Char :=
  match parts with
  | [] => []
  | [a] => a
  | a :: b :: rest => a ++ sep ++ Join (b :: rest) sep

/-- The slice expression `lines[i:j]` for `i <= j <= len(lines)`. -/
def linesBetween (lines : List (List Char)) (i j : Nat) : List (List Char) :=
  (lines.drop i).take (j - i)

/-- The test `strings.TrimSpace(line) == ""`. -/
def isBlank (line : List Char) : Bool := decide (TrimSpace line = [])

/-- The function `getIndentLevel`: a blank counts 1, a tab counts 4, anything else ends
the count. -/
def getIndentLevel : List Char → Nat
  | [] => 0
  | ch :: rest =>
    if ch = ' ' then getIndentLevel rest + 1
    else if ch = '\t' then getIndentLevel rest + 4
    else 0

/-- Lines 94-113 of `extendToCompleteListItem`: the loop over the lines from `end` on,
with the variables `prevIndent` and `end`. -/
def extendLoop : List (List Char) → Nat → Nat → Nat
  | [], _, e => e
  | currentLine :: rest, prevIndent, e =>
    if isBlank currentLine then extendLoop rest prevIndent (e + 1)
    else if getIndentLevel currentLine > prevIndent then
      extendLoop rest (getIndentLevel currentLine) (e + 1)
    else e

/-- The method `SmartSplitter.extendToCompleteListItem`; `e` is its parameter `end`. -/
def extendToCompleteListItem (lines : List (List Char)) (_start e : Nat) : Nat :=
  if e ≥ lines.length then e
  else if e > 0 then
    extendLoop (lines.drop e) (getIndentLevel (lines.getD (e - 1) [])) e
  else e

/-- The index of the first line among `rest` (which starts at index `e`) that is not
blank and whose indent level is at most `base`, or the index one past them. -/
def firstNotDeeper (base : Nat) : List (List Char) → Nat → Nat
  | [], e => e
  | line :: rest, e =>
    if !isBlank line && decide (getIndentLevel line ≤ base) then e
    else firstNotDeeper base rest (e + 1)

/-- The split point in the words of the claim: the first non-blank line at or after
`e` whose indent level is at most that of `lines[e-1]`, or `len(lines)`. -/
def claimedSplitPoint (lines : List (List Char)) (e : Nat) : Nat :=
  firstNotDeeper (getIndentLevel (lines.getD (e - 1) [])) (lines.drop e) e

/-- The fields of `schema.Document` that the splitters set. -/
structure Document where
  ID : List Char := []
  Content : List Char := []
  MetaData : List (List Char × List Char) := []
  deriving DecidableEq, Repr

structure LineSplitter where
  linesPerChunk : Int
  deriving DecidableEq, Repr

/-- The constructor `NewLineSplitter`. -/
def NewLineSplitter (linesPerChunk : Int) : LineSplitter :=
  { linesPerChunk := if linesPerChunk ≤ 0 then 2 else linesPerChunk }

/-- Lines 49-51 of `Transform`: the split point moves back over blank lines, not
further than `i`. -/
def backtrack (lines : List (List Char)) (i : Nat) : Nat → Nat
  | 0 => 0
  | e + 1 =>
    if e + 1 > i ∧ isBlank (lines.getD e []) = true then backtrack lines i e else e + 1

/-- Lines 40-52 of `Transform`: the split point `end` of the chunk that starts at `i`. -/
def chunkEnd (n : Nat) (lines : List (List Char)) (i : Nat) : Nat :=
  let e := if i + n > lines.length then lines.length else i + n
  if e < lines.length ∧ isBlank (lines.getD e []) = true then backtrack lines i e else e

/-- Lines 74-77 of `Transform`: the index moves on over blank lines. -/
def skipBlank (lines : List (List Char)) (i : Nat) : Nat :=
  i + ((lines.drop i).takeWhile isBlank).length

/-- One iteration of the inner loop of `Transform` (lines 40-77) at index `i`: the chunk
that is emitted, if any, and the next value of `i`. -/
def lineStep (n : Nat) (lines : List (List Char)) (i : Nat) : Option (List Char) × Nat :=
  let e := chunkEnd n lines i
  let chunk := Join (linesBetween lines i e) "\n".toList
  if isBlank chunk then (none, e + 1) else (some chunk, skipBlank lines e)

/-- The inner loop of `Transform` from index `i` with the counter `chunkIndex`: the
documents appended to `result` and the counter afterwards.  The first argument
bounds the number of iterations. -/
def lineLoop (n : Nat) (lines : List (List Char)) (md : List (List Char × List Char)) :
    Nat → Nat → Nat → List Document × Nat
  | 0, _, chunkIndex => ([], chunkIndex)
  | fuel + 1, i, chunkIndex =>
    if i < lines.length then
      match lineStep n lines i with
      | (none, next) => lineLoop n lines md fuel next chunkIndex
      | (some chunk, next) =>
        let r := lineLoop n lines md fuel next (chunkIndex + 1)
        ({ ID := (Nat.repr chunkIndex).toList, Content := chunk, MetaData := md } :: r.1, r.2)
    else ([], chunkIndex)

/-- The value of `i` after at most `k` iterations of the inner loop of `Transform`
started at index `i`; it stays where it is once `i < len(lines)` fails. -/
def indexAfter (n : Nat) (lines : List (List Char)) : Nat → Nat → Nat
  | 0, i => i
  | k + 1, i => if i < lines.length then indexAfter n lines k (lineStep n lines i).2 else i

/-- The outer loop of `Transform` over the documents. -/
def transformDocs (n : Nat) : List Document → Nat → List Document
  | [], _ => []
  | doc :: rest, chunkIndex =>
    let lines := Split '\n' doc.Content
    let r := lineLoop n lines doc.MetaData lines.length 0 chunkIndex
    r.1 ++ transformDocs n rest r.2

/-- The method `LineSplitter.Transform`.  With a negative `linesPerChunk`, which
`NewLineSplitter` never produces, the first iteration indexes `lines` out of range;
`none` stands for that panic. -/
def LineSplitter.Transform (ls : LineSplitter) (docs : List Document) : Option (List Document) :=
  if ls.linesPerChunk < 0 ∧ docs ≠ [] then none
  else some (transformDocs ls.linesPerChunk.toNat docs 1)

end components

namespace Summarization

open schema

/-! ## Unfolding `BeforeModel` along its branches -/

theorem BeforeModel_of_counts (s : summaryMiddleware) (st : ChatModelAgentState)
    (toks : List Int) (hne : st.Messages ≠ []) (hc : s.counter st.Messages = .ok toks) :
    BeforeModel s (some st) =
      if st.Messages.length ≠ toks.length then
        { err := some (.countMismatch st.Messages.length toks.length), state := some st,
          counterCalls := [st.Messages], summarizerCalls := [] }
      else if sumTokens toks ≤ s.maxBefore then
        { err := none, state := some st, counterCalls := [st.Messages], summarizerCalls := [] }
      else
        match s.summarizer (summarizerInput (mkBlocks s.maxRecent (st.Messages.zip toks))) with
        | .error e =>
          { err := some (.summarizeFailed e), state := some st,
            counterCalls := [st.Messages],
            summarizerCalls := [summarizerInput (mkBlocks s.maxRecent (st.Messages.zip toks))] }
        | .ok msg =>
          { err := none,
            state := some ⟨newMessages (mkBlocks s.maxRecent (st.Messages.zip toks))
              (mkSummaryMsg msg.Content)⟩,
            counterCalls := [st.Messages],
            summarizerCalls := [summarizerInput (mkBlocks s.maxRecent (st.Messages.zip toks))] } := by
  have hlen : st.Messages.length ≠ 0 := by
    intro h
    exact hne (List.length_eq_zero.mp h)
  simp only [BeforeModel, hlen, if_false, hc]

theorem BeforeModel_of_triggers (s : summaryMiddleware) (st : ChatModelAgentState)
    (toks : List Int) (h : triggers s st.Messages toks) :
    BeforeModel s (some st) =
      match s.summarizer (summarizerInput (mkBlocks s.maxRecent (st.Messages.zip toks))) with
      | .error e =>
        { err := some (.summarizeFailed e), state := some st,
          counterCalls := [st.Messages],
          summarizerCalls := [summarizerInput (mkBlocks s.maxRecent (st.Messages.zip toks))] }
      | .ok msg =>
        { err := none,
          state := some ⟨newMessages (mkBlocks s.maxRecent (st.Messages.zip toks))
            (mkSummaryMsg msg.Content)⟩,
          counterCalls := [st.Messages],
          summarizerCalls := [summarizerInput (mkBlocks s.maxRecent (st.Messages.zip toks))] } := by
  obtain ⟨hne, hc, hlen, hsum⟩ := h
  rw [BeforeModel_of_counts s st toks hne hc]
  simp only [hlen, ne_eq, not_true_eq_false, if_false, not_le.mpr hsum]

/-! ## C1 to C4: the branches of `BeforeModel` -/

/-- C1 (idle no-op): for a non-empty history and a counter result of the same
length whose `int64` total is at most `maxBefore`, `BeforeModel` returns no
error, leaves the state exactly as it was and never calls the summarizer. -/
theorem idle_noop (s : summaryMiddleware) (st : ChatModelAgentState) (toks : List Int)
    (hne : st.Messages ≠ []) (hc : s.counter st.Messages = .ok toks)
    (hlen : toks.length = st.Messages.length) (hsum : sumTokens toks ≤ s.maxBefore) :
    (BeforeModel s (some st)).err = none ∧ (BeforeModel s (some st)).state = some st ∧
      (BeforeModel s (some st)).summarizerCalls = [] := by
  rw [BeforeModel_of_counts s st toks hne hc]
  simp [hlen, hsum]

/-- Witness of C1 at the boundary: two messages of 10 tokens each and `maxBefore = 20`. -/
theorem idle_noop_witness :
    sumTokens [10, 10] = 20 ∧
    (BeforeModel ⟨constCounter 10, 20, 25, okSummarizer "S"⟩
        (some ⟨[some userMsg, some textMsg]⟩)).err = none ∧
    (BeforeModel ⟨constCounter 10, 20, 25, okSummarizer "S"⟩
        (some ⟨[some userMsg, some textMsg]⟩)).state = some ⟨[some userMsg, some textMsg]⟩ ∧
    (BeforeModel ⟨constCounter 10, 20, 25, okSummarizer "S"⟩
        (some ⟨[some userMsg, some textMsg]⟩)).summarizerCalls = [] :=
  ⟨by decide,
   idle_noop ⟨constCounter 10, 20, 25, okSummarizer "S"⟩ ⟨[some userMsg, some textMsg]⟩ [10, 10]
     (by simp) rfl rfl (by decide)⟩

/-- C2 (mismatch detection): for a non-empty history, when the counter succeeds
with an array whose length differs from the number of messages, `BeforeModel`
returns the count-mismatch error, does not call the summarizer and leaves the
state unchanged. -/
theorem mismatch_detected (s : summaryMiddleware) (st : ChatModelAgentState) (toks : List Int)
    (hne : st.Messages ≠ []) (hc : s.counter st.Messages = .ok toks)
    (hlen : toks.length ≠ st.Messages.length) :
    (BeforeModel s (some st)).err = some (.countMismatch st.Messages.length toks.length) ∧
      (BeforeModel s (some st)).summarizerCalls = [] ∧
      (BeforeModel s (some st)).state = some st := by
  rw [BeforeModel_of_counts s st toks hne hc]
  have h : st.Messages.length ≠ toks.length := fun h => hlen h.symm
  simp [h]

/-- Witness of C2: a counter answering one count too many (3 counts for 2 messages). -/
theorem mismatch_detected_witness :
    (BeforeModel ⟨fixedCounter [50, 50, 50], 20, 25, okSummarizer "S"⟩
        (some ⟨[some userMsg, some textMsg]⟩)).err = some (.countMismatch 2 3) ∧
    (BeforeModel ⟨fixedCounter [50, 50, 50], 20, 25, okSummarizer "S"⟩
        (some ⟨[some userMsg, some textMsg]⟩)).summarizerCalls = [] ∧
    (BeforeModel ⟨fixedCounter [50, 50, 50], 20, 25, okSummarizer "S"⟩
        (some ⟨[some userMsg, some textMsg]⟩)).state = some ⟨[some userMsg, some textMsg]⟩ :=
  mismatch_detected ⟨fixedCounter [50, 50, 50], 20, 25, okSummarizer "S"⟩
    ⟨[some userMsg, some textMsg]⟩ [50, 50, 50] (by simp) rfl (by decide)

/-- C3 (failure leaves the history untouched): for a history that triggers
compaction, when the summarizer fails on the rendered input, `BeforeModel`
returns the summarize-failed error and the state is exactly the input state. -/
theorem summarizer_failure_untouched (s : summaryMiddleware) (st : ChatModelAgentState)
    (toks : List Int) (e : String) (h : triggers s st.Messages toks)
    (hs : s.summarizer (summarizerInput (mkBlocks s.maxRecent (st.Messages.zip toks))) = .error e) :
    (BeforeModel s (some st)).err = some (.summarizeFailed e) ∧
      (BeforeModel s (some st)).state = some st := by
  rw [BeforeModel_of_triggers s st toks h, hs]
  exact ⟨rfl, rfl⟩

/-- Witness of C3: three messages of 10 tokens against `maxBefore = 20`, failing summarizer. -/
theorem summarizer_failure_untouched_witness :
    triggers ⟨constCounter 10, 20, 25, failingSummarizer "down"⟩
      [some userMsg, some textMsg, some textMsg] [10, 10, 10] ∧
    (BeforeModel ⟨constCounter 10, 20, 25, failingSummarizer "down"⟩
        (some ⟨[some userMsg, some textMsg, some textMsg]⟩)).err
      = some (.summarizeFailed "down") ∧
    (BeforeModel ⟨constCounter 10, 20, 25, failingSummarizer "down"⟩
        (some ⟨[some userMsg, some textMsg, some textMsg]⟩)).state
      = some ⟨[some userMsg, some textMsg, some textMsg]⟩ :=
  ⟨⟨by simp, rfl, rfl, by decide⟩,
   summarizer_failure_untouched ⟨constCounter 10, 20, 25, failingSummarizer "down"⟩
     ⟨[some userMsg, some textMsg, some textMsg]⟩ [10, 10, 10] "down"
     ⟨by simp, rfl, rfl, by decide⟩ rfl⟩

/-! ## The `int64` arithmetic -/

theorem wrapInt64_of_range (x : Int) (h1 : -9223372036854775808 ≤ x)
    (h2 : x < 9223372036854775808) : wrapInt64 x = x := by
  unfold wrapInt64
  omega

theorem wrapInt64_add_left (a b : Int) : wrapInt64 (wrapInt64 a + b) = wrapInt64 (a + b) := by
  unfold wrapInt64
  omega

theorem wrapInt64_range (x : Int) :
    -9223372036854775808 ≤ wrapInt64 x ∧ wrapInt64 x < 9223372036854775808 := by
  unfold wrapInt64
  omega

theorem foldl_add64 (l : List Int) (a : Int) :
    wrapInt64 (l.foldl add64 a) = wrapInt64 (a + l.sum) := by
  induction l generalizing a with
  | nil => simp
  | cons x xs ih =>
    rw [List.foldl_cons, ih, List.sum_cons, add64, wrapInt64_add_left, add_assoc]

theorem wrapInt64_idem (x : Int) : wrapInt64 (wrapInt64 x) = wrapInt64 x := by
  unfold wrapInt64
  omega

theorem foldl_add64_fixed (l : List Int) (a : Int) (ha : wrapInt64 a = a) :
    wrapInt64 (l.foldl add64 a) = l.foldl add64 a := by
  induction l generalizing a with
  | nil => exact ha
  | cons x xs ih =>
    rw [List.foldl_cons]
    exact ih (add64 a x) (wrapInt64_idem _)

/-- The total computed by lines 130-133 is the exact sum reduced to `int64`. -/
theorem sumTokens_eq_wrap (l : List Int) : sumTokens l = wrapInt64 l.sum := by
  unfold sumTokens
  rw [← foldl_add64_fixed l 0 (by decide), foldl_add64, zero_add]

/-! ## The split into recent and older blocks -/

theorem splitBlocks_nil (m : Int) : splitBlocks m [] = {} := rfl

theorem splitBlocks_cons (m : Int) (b : block) (l : List block) :
    splitBlocks m (b :: l) = splitStep m b (splitBlocks m l) := rfl

theorem splitBlocks_recent_sublist (m : Int) (l : List block) :
    (splitBlocks m l).recentBlocks.Sublist l := by
  induction l with
  | nil => simp [splitBlocks_nil]
  | cons b l ih =>
    rw [splitBlocks_cons]
    unfold splitStep
    split
    · exact List.Sublist.cons b ih
    · exact List.Sublist.cons₂ b ih

theorem splitBlocks_older_sublist (m : Int) (l : List block) :
    (splitBlocks m l).olderBlocks.Sublist l := by
  induction l with
  | nil => simp [splitBlocks_nil]
  | cons b l ih =>
    rw [splitBlocks_cons]
    unfold splitStep
    split
    · exact List.Sublist.cons₂ b ih
    · exact List.Sublist.cons b ih

theorem splitBlocks_length (m : Int) (l : List block) :
    (splitBlocks m l).recentBlocks.length + (splitBlocks m l).olderBlocks.length = l.length := by
  induction l with
  | nil => simp [splitBlocks_nil]
  | cons b l ih =>
    rw [splitBlocks_cons]
    unfold splitStep
    split <;> simp <;> omega

theorem splitBlocks_recentTokens (m : Int) (l : List block) :
    (splitBlocks m l).recentTokens
      = wrapInt64 (((splitBlocks m l).recentBlocks.map block.tokens).sum) := by
  induction l with
  | nil => rw [splitBlocks_nil]; decide
  | cons b l ih =>
    rw [splitBlocks_cons]
    unfold splitStep
    split
    · exact ih
    · simp only [List.map_cons, List.sum_cons]
      rw [ih, add64, wrapInt64_add_left, add_comm]

theorem splitBlocks_recentTokens_le (m : Int) (hm : 0 ≤ m) (l : List block) :
    (splitBlocks m l).recentTokens ≤ m := by
  induction l with
  | nil => rw [splitBlocks_nil]; exact hm
  | cons b l ih =>
    rw [splitBlocks_cons]
    unfold splitStep
    split
    · exact ih
    · rename_i h
      exact not_lt.mp h

theorem blocksMsgs_eq_flatten (bs : List block) :
    blocksMsgs bs = (bs.map block.msgs).flatten := by
  induction bs with
  | nil => rfl
  | cons b bs ih => simp [blocksMsgs, ih]

theorem mkBlocks_recent (m : Int) (l : List (Msg × Int)) :
    (mkBlocks m l).recentBlocks = (splitBlocks m (mkBlocks m l).toolBlocks).recentBlocks := rfl

theorem mkBlocks_older (m : Int) (l : List (Msg × Int)) :
    (mkBlocks m l).olderBlocks = (splitBlocks m (mkBlocks m l).toolBlocks).olderBlocks := rfl

theorem mkBlocks_recentTokens (m : Int) (l : List (Msg × Int)) :
    (mkBlocks m l).recentTokens = (splitBlocks m (mkBlocks m l).toolBlocks).recentTokens := rfl

/-- C4 (assembly on success): for a history that triggers compaction and whose
summarization succeeds with a message of content `c`, the new message list is
the system block, then the user block, then one new Assistant message with
content `c` and the summary flag, then the messages of the recent blocks,
which are a subsequence of the turn blocks in their original order. -/
theorem assembly_on_success (s : summaryMiddleware) (st : ChatModelAgentState)
    (toks : List Int) (msg : Message) (h : triggers s st.Messages toks)
    (hs : s.summarizer (summarizerInput (mkBlocks s.maxRecent (st.Messages.zip toks))) = .ok msg) :
    ∃ summary : Message,
      summary.Role = Assistant ∧ summary.Content = msg.Content ∧
      hasKey summary.Extra summaryMessageFlag = true ∧
      (BeforeModel s (some st)).err = none ∧
      (BeforeModel s (some st)).state = some ⟨
        (mkBlocks s.maxRecent (st.Messages.zip toks)).systemBlock.msgs
          ++ (mkBlocks s.maxRecent (st.Messages.zip toks)).userBlock.msgs
          ++ [some summary]
          ++ ((mkBlocks s.maxRecent (st.Messages.zip toks)).recentBlocks.map block.msgs).flatten⟩ ∧
      (mkBlocks s.maxRecent (st.Messages.zip toks)).recentBlocks.Sublist
        (mkBlocks s.maxRecent (st.Messages.zip toks)).toolBlocks := by
  refine ⟨mkSummaryMsg msg.Content, rfl, rfl, by simp [mkSummaryMsg, hasKey], ?_, ?_, ?_⟩
  · rw [BeforeModel_of_triggers s st toks h, hs]
  · rw [BeforeModel_of_triggers s st toks h, hs]
    simp only [newMessages, blocksMsgs_eq_flatten]
  · rw [mkBlocks_recent]
    exact splitBlocks_recent_sublist _ _

/-- Witness of C4: user message and two assistant messages, 10 tokens each, `maxBefore = 20`. -/
theorem assembly_on_success_witness :
    triggers (demoMw (okSummarizer "S")) [some userMsg, some textMsg, some textMsg] [10, 10, 10] ∧
    ∃ summary : Message,
      summary.Role = Assistant ∧ summary.Content = "S" ∧
      hasKey summary.Extra summaryMessageFlag = true ∧
      (BeforeModel (demoMw (okSummarizer "S"))
        (some ⟨[some userMsg, some textMsg, some textMsg]⟩)).err = none ∧
      (BeforeModel (demoMw (okSummarizer "S"))
        (some ⟨[some userMsg, some textMsg, some textMsg]⟩)).state = some ⟨
        (mkBlocks 25 ([some userMsg, some textMsg, some textMsg].zip [10, 10, 10])).systemBlock.msgs
          ++ (mkBlocks 25 ([some userMsg, some textMsg, some textMsg].zip [10, 10, 10])).userBlock.msgs
          ++ [some summary]
          ++ ((mkBlocks 25 ([some userMsg, some textMsg, some textMsg].zip
                [10, 10, 10])).recentBlocks.map block.msgs).flatten⟩ ∧
      (mkBlocks 25 ([some userMsg, some textMsg, some textMsg].zip [10, 10, 10])).recentBlocks.Sublist
        (mkBlocks 25 ([some userMsg, some textMsg, some textMsg].zip [10, 10, 10])).toolBlocks :=
  ⟨⟨by simp, rfl, rfl, by decide⟩,
   assembly_on_success (demoMw (okSummarizer "S")) ⟨[some userMsg, some textMsg, some textMsg]⟩
     [10, 10, 10] (AssistantMessage "S" []) ⟨by simp, rfl, rfl, by decide⟩ rfl⟩

/-! ## C5: the split is a greedy scan, not a suffix cut -/

/-- C5, counterexample: three single-message turn blocks costing 5, 20, 10
(oldest first) with `maxRecent = 25`.  The newest block is taken (10), the
middle one is rejected (30 > 25), and the oldest one is taken again (15), so
the recent set is not a suffix of the turn blocks. -/
theorem greedy_suffix_counterexample :
    triggers unevenMw [some msgOne, some msgTwo, some msgThree] [5, 20, 10] ∧
    (mkBlocks 25 ([some msgOne, some msgTwo, some msgThree].zip [5, 20, 10])).toolBlocks
      = [blkOne, blkTwo, blkThree] ∧
    (mkBlocks 25 ([some msgOne, some msgTwo, some msgThree].zip [5, 20, 10])).recentBlocks
      = [blkOne, blkThree] ∧
    (mkBlocks 25 ([some msgOne, some msgTwo, some msgThree].zip [5, 20, 10])).olderBlocks
      = [blkTwo] ∧
    ¬ ((mkBlocks 25 ([some msgOne, some msgTwo, some msgThree].zip [5, 20, 10])).recentBlocks
        <:+ (mkBlocks 25 ([some msgOne, some msgTwo, some msgThree].zip [5, 20, 10])).toolBlocks) ∧
    (BeforeModel unevenMw (some ⟨[some msgOne, some msgTwo, some msgThree]⟩)).state
      = some ⟨[some (mkSummaryMsg "S"), some msgOne, some msgThree]⟩ := by
  refine ⟨⟨by simp, rfl, rfl, by decide⟩, by decide, by decide, by decide, ?_, by decide⟩
  decide

theorem splitBlocks_all_fit (m : Int) (suf : List block)
    (hfit : ∀ y, y ≠ [] → y <:+ suf → wrapInt64 ((y.map block.tokens).sum) ≤ m) :
    splitBlocks m suf = ⟨suf, [], wrapInt64 ((suf.map block.tokens).sum)⟩ := by
  induction suf with
  | nil => rw [splitBlocks_nil]; decide
  | cons x xs ih =>
    have hxs := ih (fun y hy hsuf => hfit y hy (hsuf.trans (List.suffix_cons x xs)))
    have hx := hfit (x :: xs) (by simp) (List.suffix_refl _)
    have he : add64 (wrapInt64 ((xs.map block.tokens).sum)) x.tokens
        = wrapInt64 (((x :: xs).map block.tokens).sum) := by
      rw [add64, wrapInt64_add_left, List.map_cons, List.sum_cons, add_comm]
    rw [splitBlocks_cons, hxs, splitStep]
    simp only [he, gt_iff_lt, not_lt.mpr hx, if_false]

/-- The blocks older than an already scanned part are distributed in front of what the
scan holds, in their order, and every one of them goes to one of the two sets. -/
theorem foldr_splitStep_front (m : Int) (pre : List block) (st : SplitState) :
    ∃ rpre opre : List block,
      rpre.Sublist pre ∧ opre.Sublist pre ∧ rpre.length + opre.length = pre.length ∧
      (pre.foldr (splitStep m) st).recentBlocks = rpre ++ st.recentBlocks ∧
      (pre.foldr (splitStep m) st).olderBlocks = opre ++ st.olderBlocks := by
  induction pre with
  | nil => exact ⟨[], [], List.Sublist.refl _, List.Sublist.refl _, rfl, rfl, rfl⟩
  | cons x xs ih =>
    obtain ⟨r, o, hr, ho, hlen, hrec, hold⟩ := ih
    rw [List.foldr_cons]
    generalize List.foldr (splitStep m) st xs = q at hrec hold
    unfold splitStep
    split
    · refine ⟨r, x :: o, List.Sublist.cons x hr, List.Sublist.cons₂ x ho, ?_, hrec, ?_⟩
      · simp only [List.length_cons]; omega
      · simp only [hold, List.cons_append]
    · refine ⟨x :: r, o, List.Sublist.cons₂ x hr, List.Sublist.cons x ho, ?_, ?_, hold⟩
      · simp only [List.length_cons]; omega
      · simp only [hrec, List.cons_append]

/-- C5, amended: every block is decided on its own.  While every running `int64`
sum stays within `maxRecent`, scanning from the newest block, all blocks are
recent.  In general, for every way of writing the turn blocks as
`pre ++ b :: suf` (oldest first), the scan takes `b` exactly when the `int64`
sum of the counts of the recent blocks among the newer blocks `suf`, plus the
count of `b`, is within `maxRecent`, whether or not a newer block was rejected
before, and it puts `b` in the older set otherwise; the blocks of `suf` stay
where the scan of `suf` alone puts them, and the blocks of `pre` are
distributed in front of them, in their order, every one to one of the two sets. -/
theorem greedy_packing (m : Int) (pre suf : List block) (b : block) :
    ((∀ y, y ≠ [] → y <:+ suf → wrapInt64 ((y.map block.tokens).sum) ≤ m) →
      (splitBlocks m suf).recentBlocks = suf ∧ (splitBlocks m suf).olderBlocks = []) ∧
    ∃ rpre opre : List block,
      rpre.Sublist pre ∧ opre.Sublist pre ∧ rpre.length + opre.length = pre.length ∧
      (splitBlocks m (pre ++ b :: suf)).recentBlocks
        = rpre ++
          (if add64 (wrapInt64 (((splitBlocks m suf).recentBlocks.map block.tokens).sum))
                b.tokens ≤ m
            then b :: (splitBlocks m suf).recentBlocks
            else (splitBlocks m suf).recentBlocks) ∧
      (splitBlocks m (pre ++ b :: suf)).olderBlocks
        = opre ++
          (if add64 (wrapInt64 (((splitBlocks m suf).recentBlocks.map block.tokens).sum))
                b.tokens ≤ m
            then (splitBlocks m suf).olderBlocks
            else b :: (splitBlocks m suf).olderBlocks) := by
  refine ⟨fun hfit => ?_, ?_⟩
  · rw [splitBlocks_all_fit m suf hfit]
    exact ⟨rfl, rfl⟩
  · obtain ⟨r, o, hr, ho, hlen, hrec, hold⟩ :=
      foldr_splitStep_front m pre (splitBlocks m (b :: suf))
    have happ : splitBlocks m (pre ++ b :: suf)
        = pre.foldr (splitStep m) (splitBlocks m (b :: suf)) := by
      unfold splitBlocks
      rw [List.foldr_append]
    refine ⟨r, o, hr, ho, hlen, ?_, ?_⟩
    · rw [happ, hrec, splitBlocks_cons, ← splitBlocks_recentTokens]
      unfold splitStep
      by_cases h : add64 (splitBlocks m suf).recentTokens b.tokens ≤ m
      · rw [if_neg (not_lt.mpr h), if_pos h]
      · rw [if_pos (not_le.mp h), if_neg h]
    · rw [happ, hold, splitBlocks_cons, ← splitBlocks_recentTokens]
      unfold splitStep
      by_cases h : add64 (splitBlocks m suf).recentTokens b.tokens ≤ m
      · rw [if_neg (not_lt.mpr h), if_pos h]
      · rw [if_pos (not_le.mp h), if_neg h]

/-- Witness of C5 amended: costs 5, 20, 10 (oldest first) and `maxRecent = 25`.  The newest
block alone fits; the block of cost 20 is rejected (30 > 25); the block of cost 5,
older than the rejected one, is taken (15 within 25). -/
theorem greedy_packing_witness :
    ((splitBlocks 25 [blkThree]).recentBlocks = [blkThree] ∧
      (splitBlocks 25 [blkThree]).olderBlocks = []) ∧
    (splitBlocks 25 [blkTwo, blkThree]).recentBlocks = [blkThree] ∧
    (splitBlocks 25 [blkTwo, blkThree]).olderBlocks = [blkTwo] ∧
    (splitBlocks 25 [blkOne, blkTwo, blkThree]).recentBlocks = [blkOne, blkThree] ∧
    (splitBlocks 25 [blkOne, blkTwo, blkThree]).olderBlocks = [blkTwo] := by
  refine ⟨(greedy_packing 25 [] [blkThree] blkTwo).1 ?_, ?_⟩
  · intro y hy hsuf
    rcases List.suffix_cons_iff.mp hsuf with h | h
    · subst h; decide
    · exact absurd (List.suffix_nil.mp h) hy
  · obtain ⟨r, o, hr, ho, -, hrec, hold⟩ := (greedy_packing 25 [] [blkThree] blkTwo).2
    obtain ⟨r2, o2, hr2, ho2, -, hrec2, hold2⟩ :=
      (greedy_packing 25 [] [blkTwo, blkThree] blkOne).2
    rw [List.sublist_nil] at hr ho hr2 ho2
    subst hr ho hr2 ho2
    rw [List.nil_append] at hrec hold hrec2 hold2
    rw [hrec, hold, hrec2, hold2]
    decide

/-! ## The turn blocks -/

theorem collectTools_eq (ids : List String) (rest : List (Msg × Int)) (b : block) :
    collectTools ids b rest =
      (⟨b.msgs ++ ((rest.takeWhile (pairsWith ids)).map Prod.fst),
        ((rest.takeWhile (pairsWith ids)).map Prod.snd).foldl add64 b.tokens⟩,
       rest.dropWhile (pairsWith ids)) := by
  induction rest generalizing b with
  | nil => simp [collectTools]
  | cons x xs ih =>
    obtain ⟨xm, t⟩ := x
    cases xm with
    | none => simp [collectTools, pairsWith]
    | some nm =>
      by_cases hr : nm.Role = Tool
      · by_cases he : nm.ToolCallID = ""
        · have hp : pairsWith ids (some nm, t) = true := by simp [pairsWith, hr, he]
          simp [collectTools, hr, he, ih, hp, List.takeWhile_cons, List.dropWhile_cons]
        · by_cases hin : nm.ToolCallID ∈ ids
          · have hp : pairsWith ids (some nm, t) = true := by simp [pairsWith, hr, hin]
            simp [collectTools, hr, he, hin, ih, hp, List.takeWhile_cons, List.dropWhile_cons]
          · have hp : pairsWith ids (some nm, t) = false := by simp [pairsWith, hr, he, hin]
            simp [collectTools, hr, he, hin, hp, List.takeWhile_cons, List.dropWhile_cons]
      · have hp : pairsWith ids (some nm, t) = false := by simp [pairsWith, hr]
        simp [collectTools, hr, hp, List.takeWhile_cons, List.dropWhile_cons]

theorem buildBlocks_call (fuel : Nat) (m : Message) (t : Int) (rest : List (Msg × Int))
    (hm : m.Role = Assistant ∧ m.ToolCalls.length > 0) :
    buildBlocks (fuel + 1) ((some m, t) :: rest) =
      ⟨some m :: ((rest.takeWhile (pairsWith (callIDsOf m))).map Prod.fst),
        ((rest.takeWhile (pairsWith (callIDsOf m))).map Prod.snd).foldl add64 t⟩
      :: buildBlocks fuel (rest.dropWhile (pairsWith (callIDsOf m))) := by
  rw [buildBlocks]
  simp only [hm, and_self, if_true, collectTools_eq, callIDsOf, List.singleton_append]

theorem buildBlocks_single (fuel : Nat) (m : Message) (t : Int) (rest : List (Msg × Int))
    (hm : ¬ (m.Role = Assistant ∧ m.ToolCalls.length > 0)) :
    buildBlocks (fuel + 1) ((some m, t) :: rest) = ⟨[some m], t⟩ :: buildBlocks fuel rest := by
  rw [buildBlocks]
  simp only [hm, if_false]

theorem dropWhile_length_le {α : Type} (p : α → Bool) (l : List α) :
    (l.dropWhile p).length ≤ l.length :=
  (List.dropWhile_suffix p).length_le

/-- Enough fuel: any two bounds that are at least the length give the same blocks. -/
theorem buildBlocks_fuel (n k : Nat) (l : List (Msg × Int)) (hn : l.length ≤ n)
    (hk : l.length ≤ k) : buildBlocks n l = buildBlocks k l := by
  induction n generalizing k l with
  | zero =>
    have hl : l = [] := List.length_eq_zero.mp (Nat.le_zero.mp hn)
    subst hl
    cases k <;> rfl
  | succ n ih =>
    cases l with
    | nil => cases k <;> rfl
    | cons x xs =>
      cases k with
      | zero => simp at hk
      | succ k =>
        simp only [List.length_cons, Nat.add_le_add_iff_right] at hn hk
        obtain ⟨xm, t⟩ := x
        cases xm with
        | none => simp only [buildBlocks]; exact ih k xs hn hk
        | some m =>
          by_cases hm : m.Role = Assistant ∧ m.ToolCalls.length > 0
          · rw [buildBlocks_call n m t xs hm, buildBlocks_call k m t xs hm]
            have hd := dropWhile_length_le (pairsWith (callIDsOf m)) xs
            rw [ih k _ (le_trans hd hn) (le_trans hd hk)]
          · rw [buildBlocks_single n m t xs hm, buildBlocks_single k m t xs hm, ih k xs hn hk]

theorem pairsWith_isSome (ids : List String) (x : Msg × Int) (h : pairsWith ids x = true) :
    x.1.isSome = true := by
  obtain ⟨xm, t⟩ := x
  cases xm with
  | none => simp [pairsWith] at h
  | some nm => rfl

theorem filter_isSome_takeWhile (ids : List String) (l : List (Msg × Int)) :
    ((l.takeWhile (pairsWith ids)).map Prod.fst).filter Option.isSome
      = (l.takeWhile (pairsWith ids)).map Prod.fst := by
  rw [List.filter_eq_self]
  intro a ha
  obtain ⟨x, hx, rfl⟩ := List.mem_map.mp ha
  exact pairsWith_isSome ids x (List.mem_takeWhile_imp hx)

/-- The turn blocks list, in order, every non-nil message the loop has gone over. -/
theorem blocksMsgs_buildBlocks (n : Nat) (l : List (Msg × Int)) (hn : l.length ≤ n) :
    blocksMsgs (buildBlocks n l) = (l.map Prod.fst).filter Option.isSome := by
  induction n generalizing l with
  | zero =>
    have hl : l = [] := List.length_eq_zero.mp (Nat.le_zero.mp hn)
    subst hl
    rfl
  | succ n ih =>
    cases l with
    | nil => rfl
    | cons x xs =>
      simp only [List.length_cons, Nat.add_le_add_iff_right] at hn
      obtain ⟨xm, t⟩ := x
      cases xm with
      | none =>
        simp only [buildBlocks, List.map_cons]
        rw [ih xs hn]
        simp
      | some m =>
        by_cases hm : m.Role = Assistant ∧ m.ToolCalls.length > 0
        · have hd := dropWhile_length_le (pairsWith (callIDsOf m)) xs
          rw [buildBlocks_call n m t xs hm, blocksMsgs, ih _ (le_trans hd hn)]
          conv_rhs => rw [← List.takeWhile_append_dropWhile (pairsWith (callIDsOf m)) xs]
          simp only [List.map_cons, List.map_append, List.cons_append]
          rw [List.filter_cons_of_pos (by rfl), List.filter_append, filter_isSome_takeWhile]
        · rw [buildBlocks_single n m t xs hm, blocksMsgs, ih xs hn]
          simp

/-! ## Token counts without overflow -/

theorem foldl_add64_exact (ts : List Int) (a : Int) (ha : 0 ≤ a) (hts : ∀ t ∈ ts, 0 ≤ t)
    (hs : a + ts.sum < 9223372036854775808) : ts.foldl add64 a = a + ts.sum := by
  induction ts generalizing a with
  | nil => simp
  | cons x xs ih =>
    have hx : 0 ≤ x := hts x (List.mem_cons_self _ _)
    have hxs : ∀ t ∈ xs, 0 ≤ t := fun t ht => hts t (List.mem_cons_of_mem _ ht)
    have hnn : 0 ≤ xs.sum := List.sum_nonneg hxs
    rw [List.sum_cons] at hs
    have he : add64 a x = a + x := wrapInt64_of_range _ (by omega) (by omega)
    rw [List.foldl_cons, he, ih (a + x) (by omega) hxs (by omega), List.sum_cons]
    omega

theorem sum_snd_nonneg (l : List (Msg × Int)) (hpos : ∀ x ∈ l, 0 ≤ x.2) :
    0 ≤ (l.map Prod.snd).sum := by
  apply List.sum_nonneg
  intro t ht
  obtain ⟨x, hx, rfl⟩ := List.mem_map.mp ht
  exact hpos x hx

/-- With non-negative counts whose sum fits in an `int64`, every turn block has a
non-negative count and the blocks together count no more than the messages. -/
theorem buildBlocks_tokens (n : Nat) (l : List (Msg × Int)) (hpos : ∀ x ∈ l, 0 ≤ x.2)
    (hs : (l.map Prod.snd).sum < 9223372036854775808) :
    (∀ b ∈ buildBlocks n l, 0 ≤ b.tokens) ∧
      ((buildBlocks n l).map block.tokens).sum ≤ (l.map Prod.snd).sum := by
  induction n generalizing l with
  | zero =>
    simp only [buildBlocks, List.not_mem_nil, false_implies, implies_true, List.map_nil,
      List.sum_nil, true_and]
    exact sum_snd_nonneg l hpos
  | succ n ih =>
    cases l with
    | nil => simp [buildBlocks]
    | cons x xs =>
      obtain ⟨xm, t⟩ := x
      have ht : 0 ≤ t := hpos (xm, t) (List.mem_cons_self _ _)
      have hxs : ∀ y ∈ xs, 0 ≤ y.2 := fun y hy => hpos y (List.mem_cons_of_mem _ hy)
      have hnn := sum_snd_nonneg xs hxs
      simp only [List.map_cons, List.sum_cons] at hs ⊢
      cases xm with
      | none =>
        simp only [buildBlocks]
        obtain ⟨h1, h2⟩ := ih xs hxs (by omega)
        exact ⟨h1, by omega⟩
      | some m =>
        by_cases hm : m.Role = Assistant ∧ m.ToolCalls.length > 0
        · rw [buildBlocks_call n m t xs hm]
          have hsplit := List.takeWhile_append_dropWhile (pairsWith (callIDsOf m)) xs
          have htw : ∀ y ∈ xs.takeWhile (pairsWith (callIDsOf m)), 0 ≤ y.2 :=
            fun y hy => hxs y ((List.takeWhile_sublist _).subset hy)
          have hdw : ∀ y ∈ xs.dropWhile (pairsWith (callIDsOf m)), 0 ≤ y.2 :=
            fun y hy => hxs y ((List.dropWhile_sublist _).subset hy)
          have hsum : (xs.map Prod.snd).sum
              = ((xs.takeWhile (pairsWith (callIDsOf m))).map Prod.snd).sum
                + ((xs.dropWhile (pairsWith (callIDsOf m))).map Prod.snd).sum := by
            conv_lhs => rw [← hsplit]
            rw [List.map_append, List.sum_append]
          have h1 := sum_snd_nonneg _ htw
          have h2 := sum_snd_nonneg _ hdw
          have hex := foldl_add64_exact ((xs.takeWhile (pairsWith (callIDsOf m))).map Prod.snd) t ht
            (by
              intro u hu
              obtain ⟨y, hy, rfl⟩ := List.mem_map.mp hu
              exact htw y hy)
            (by omega)
          obtain ⟨h3, h4⟩ := ih _ hdw (by omega)
          constructor
          · intro b hb
            rcases List.mem_cons.mp hb with rfl | hb
            · show 0 ≤ List.foldl add64 t _
              rw [hex]
              omega
            · exact h3 b hb
          · simp only [List.map_cons, List.sum_cons]
            rw [hex]
            omega
        · rw [buildBlocks_single n m t xs hm]
          obtain ⟨h3, h4⟩ := ih xs hxs (by omega)
          constructor
          · intro b hb
            rcases List.mem_cons.mp hb with rfl | hb
            · exact ht
            · exact h3 b hb
          · simp only [List.map_cons, List.sum_cons]
            omega

/-! ## The leading blocks -/

theorem takeSystem_suffix (l : List (Msg × Int)) : (takeSystem l).2 <:+ l := by
  unfold takeSystem
  split
  · split
    · exact List.suffix_cons _ _
    · exact List.suffix_refl _
  · exact List.suffix_refl _

theorem takeSummary_suffix (l : List (Msg × Int)) : (takeSummary l).2 <:+ l := by
  unfold takeSummary
  split
  · split
    · exact List.suffix_cons _ _
    · exact List.suffix_refl _
  · exact List.suffix_refl _

theorem takeUser_suffix (l : List (Msg × Int)) (b : block) : (takeUser b l).2 <:+ l := by
  induction l generalizing b with
  | nil => simp [takeUser]
  | cons x xs ih =>
    obtain ⟨xm, t⟩ := x
    cases xm with
    | none =>
      simp only [takeUser]
      exact (ih b).trans (List.suffix_cons _ _)
    | some m =>
      simp only [takeUser]
      split
      · exact List.suffix_refl _
      · exact (ih _).trans (List.suffix_cons _ _)

/-- The turn-block loop starts on a suffix of the history. -/
theorem turnRegion_suffix (l : List (Msg × Int)) :
    (takeSummary (takeUser {} (takeSystem l).2).2).2 <:+ l :=
  ((takeSummary_suffix _).trans (takeUser_suffix _ _)).trans (takeSystem_suffix l)

theorem mkBlocks_toolBlocks (m : Int) (l : List (Msg × Int)) :
    (mkBlocks m l).toolBlocks
      = buildBlocks (takeSummary (takeUser {} (takeSystem l).2).2).2.length
          (takeSummary (takeUser {} (takeSystem l).2).2).2 := rfl

theorem suffix_sum_le (l r : List (Msg × Int)) (h : r <:+ l) (hpos : ∀ x ∈ l, 0 ≤ x.2) :
    (r.map Prod.snd).sum ≤ (l.map Prod.snd).sum := by
  obtain ⟨pre, rfl⟩ := h
  rw [List.map_append, List.sum_append]
  have := sum_snd_nonneg pre (fun x hx => hpos x (List.mem_append_left _ hx))
  omega

/-! ## C6: the recent budget -/

theorem recent_sum_exact (m : Int) (l : List (Msg × Int)) (hpos : ∀ x ∈ l, 0 ≤ x.2)
    (hs : (l.map Prod.snd).sum < 9223372036854775808) :
    wrapInt64 (((mkBlocks m l).recentBlocks.map block.tokens).sum)
      = ((mkBlocks m l).recentBlocks.map block.tokens).sum := by
  have hsuf := turnRegion_suffix l
  have hposr : ∀ x ∈ (takeSummary (takeUser {} (takeSystem l).2).2).2, 0 ≤ x.2 :=
    fun x hx => hpos x (hsuf.subset hx)
  have hle := suffix_sum_le l _ hsuf hpos
  obtain ⟨h1, h2⟩ := buildBlocks_tokens (takeSummary (takeUser {} (takeSystem l).2).2).2.length
    _ hposr (by omega)
  rw [← mkBlocks_toolBlocks m l] at h1 h2
  have hsub : ((mkBlocks m l).recentBlocks.map block.tokens).Sublist
      ((mkBlocks m l).toolBlocks.map block.tokens) := by
    rw [mkBlocks_recent]
    exact (splitBlocks_recent_sublist _ _).map _
  have htool : ∀ a ∈ (mkBlocks m l).toolBlocks.map block.tokens, (0 : Int) ≤ a := by
    intro a ha
    obtain ⟨b, hb, rfl⟩ := List.mem_map.mp ha
    exact h1 b hb
  have hup := hsub.sum_le_sum htool
  have hlo : 0 ≤ ((mkBlocks m l).recentBlocks.map block.tokens).sum :=
    List.sum_nonneg (fun a ha => htool a (hsub.subset ha))
  exact wrapInt64_of_range _ (by omega) (by omega)

/-- C6, counterexample: a User message and three Assistant messages with the
counts 100, 2^63 - 1, 2^62 + 1, 2^62 + 1, and `maxRecent = 2^63 - 1 >= 0`.  The
`int64` total of lines 130-133 is 101, so the history triggers compaction.  The
three turn blocks are all placed in the recent set, because the running `int64`
sum of the split loop wraps around (it reads 2^62 + 1, then -2^63 + 2, then 1);
their token counts sum to 2^64 + 1, which is more than `maxRecent`, and the three
messages are kept verbatim after the summary message. -/
theorem recent_budget_counterexample :
    triggers (wideMw [100, 9223372036854775807, 4611686018427387905, 4611686018427387905])
      [some userMsg, some msgOne, some msgTwo, some msgThree]
      [100, 9223372036854775807, 4611686018427387905, 4611686018427387905] ∧
    0 ≤ (wideMw [100, 9223372036854775807, 4611686018427387905,
      4611686018427387905]).maxRecent ∧
    sumTokens [100, 9223372036854775807, 4611686018427387905, 4611686018427387905] = 101 ∧
    (mkBlocks 9223372036854775807
        ([some userMsg, some msgOne, some msgTwo, some msgThree].zip
          [100, 9223372036854775807, 4611686018427387905, 4611686018427387905])).recentBlocks
      = [costBlock "one" 9223372036854775807, costBlock "two" 4611686018427387905,
          costBlock "three" 4611686018427387905] ∧
    (mkBlocks 9223372036854775807
        ([some userMsg, some msgOne, some msgTwo, some msgThree].zip
          [100, 9223372036854775807, 4611686018427387905, 4611686018427387905])).recentTokens
      = 1 ∧
    ((mkBlocks 9223372036854775807
        ([some userMsg, some msgOne, some msgTwo, some msgThree].zip
          [100, 9223372036854775807, 4611686018427387905,
            4611686018427387905])).recentBlocks.map block.tokens).sum
      = 18446744073709551617 ∧
    ¬ (((mkBlocks 9223372036854775807
        ([some userMsg, some msgOne, some msgTwo, some msgThree].zip
          [100, 9223372036854775807, 4611686018427387905,
            4611686018427387905])).recentBlocks.map block.tokens).sum
      ≤ (wideMw [100, 9223372036854775807, 4611686018427387905,
          4611686018427387905]).maxRecent) ∧
    (BeforeModel (wideMw [100, 9223372036854775807, 4611686018427387905, 4611686018427387905])
        (some ⟨[some userMsg, some msgOne, some msgTwo, some msgThree]⟩)).state
      = some ⟨[some userMsg, some (mkSummaryMsg "S"), some msgOne, some msgTwo,
          some msgThree]⟩ := by
  refine ⟨⟨by simp, rfl, rfl, by decide⟩, by decide, by decide, by decide, by decide,
    by decide, by decide, by decide⟩

/-- C6, amended (recent budget bound): for a history that triggers compaction,
with `maxRecent >= 0`, the running total `recentTokens` is the `int64` sum of the
token counts of the blocks placed in the recent set, and it is at most
`maxRecent`; and when every count is non-negative and the counts of the whole
history total less than 2^63, the exact sum of the token counts of the recent
blocks is at most `maxRecent` as well. -/
theorem recent_budget_bound (s : summaryMiddleware) (st : ChatModelAgentState)
    (toks : List Int) (h : triggers s st.Messages toks) (hm : 0 ≤ s.maxRecent) :
    (mkBlocks s.maxRecent (st.Messages.zip toks)).recentTokens
        = wrapInt64 (((mkBlocks s.maxRecent (st.Messages.zip toks)).recentBlocks.map
            block.tokens).sum) ∧
      wrapInt64 (((mkBlocks s.maxRecent (st.Messages.zip toks)).recentBlocks.map
            block.tokens).sum) ≤ s.maxRecent ∧
      ((∀ t ∈ toks, 0 ≤ t) → toks.sum < 9223372036854775808 →
        ((mkBlocks s.maxRecent (st.Messages.zip toks)).recentBlocks.map block.tokens).sum
          ≤ s.maxRecent) := by
  have heq := splitBlocks_recentTokens s.maxRecent
    (mkBlocks s.maxRecent (st.Messages.zip toks)).toolBlocks
  have hle := splitBlocks_recentTokens_le s.maxRecent hm
    (mkBlocks s.maxRecent (st.Messages.zip toks)).toolBlocks
  rw [← mkBlocks_recentTokens, ← mkBlocks_recent] at heq
  rw [← mkBlocks_recentTokens] at hle
  refine ⟨heq, heq ▸ hle, ?_⟩
  intro hpos hs
  have hlen : toks.length ≤ st.Messages.length := le_of_eq h.2.2.1.symm
  have hposl : ∀ x ∈ st.Messages.zip toks, 0 ≤ x.2 :=
    fun x hx => hpos x.2 (List.of_mem_zip hx).2
  have hsl : ((st.Messages.zip toks).map Prod.snd).sum < 9223372036854775808 := by
    rw [List.map_snd_zip _ _ hlen]
    exact hs
  rw [← recent_sum_exact s.maxRecent _ hposl hsl]
  exact heq ▸ hle

/-- Witness of C6: counts 5, 20, 10 with `maxRecent = 25`; the recent blocks cost 5 and 10. -/
theorem recent_budget_bound_witness :
    (mkBlocks 25 ([some msgOne, some msgTwo, some msgThree].zip [5, 20, 10])).recentTokens
        = wrapInt64 (((mkBlocks 25 ([some msgOne, some msgTwo, some msgThree].zip
            [5, 20, 10])).recentBlocks.map block.tokens).sum) ∧
      wrapInt64 (((mkBlocks 25 ([some msgOne, some msgTwo, some msgThree].zip
            [5, 20, 10])).recentBlocks.map block.tokens).sum) ≤ 25 ∧
      ((∀ t ∈ [5, 20, 10], (0 : Int) ≤ t) → [5, 20, 10].sum < (9223372036854775808 : Int) →
        ((mkBlocks 25 ([some msgOne, some msgTwo, some msgThree].zip
            [5, 20, 10])).recentBlocks.map block.tokens).sum ≤ 25) :=
  recent_budget_bound unevenMw ⟨[some msgOne, some msgTwo, some msgThree]⟩ [5, 20, 10]
    ⟨by simp, rfl, rfl, by decide⟩ (by decide)

/-! ## C7: the blocks partition the history -/

theorem takeSystem_msgs (l : List (Msg × Int)) :
    (takeSystem l).1.msgs ++ ((takeSystem l).2.map Prod.fst).filter Option.isSome
      = (l.map Prod.fst).filter Option.isSome := by
  unfold takeSystem
  split
  · split
    · simp
    · simp
  · simp

theorem takeSummary_msgs (l : List (Msg × Int)) :
    (takeSummary l).1.msgs ++ ((takeSummary l).2.map Prod.fst).filter Option.isSome
      = (l.map Prod.fst).filter Option.isSome := by
  unfold takeSummary
  split
  · split
    · simp
    · simp
  · simp

theorem takeUser_msgs (l : List (Msg × Int)) (b : block) :
    (takeUser b l).1.msgs ++ ((takeUser b l).2.map Prod.fst).filter Option.isSome
      = b.msgs ++ (l.map Prod.fst).filter Option.isSome := by
  induction l generalizing b with
  | nil => simp [takeUser]
  | cons x xs ih =>
    obtain ⟨xm, t⟩ := x
    cases xm with
    | none =>
      simp only [takeUser, List.map_cons]
      rw [ih b]
      simp
    | some m =>
      simp only [takeUser]
      split
      · rfl
      · rw [ih]
        simp

/-- The four kinds of blocks list, in order, exactly the non-nil messages of the history. -/
theorem mkBlocks_msgs (m : Int) (l : List (Msg × Int)) :
    (mkBlocks m l).systemBlock.msgs ++ (mkBlocks m l).userBlock.msgs
        ++ (mkBlocks m l).summaryBlock.msgs ++ blocksMsgs (mkBlocks m l).toolBlocks
      = (l.map Prod.fst).filter Option.isSome := by
  rw [mkBlocks_toolBlocks, blocksMsgs_buildBlocks _ _ (le_refl _)]
  show (takeSystem l).1.msgs ++ (takeUser {} (takeSystem l).2).1.msgs
      ++ (takeSummary (takeUser {} (takeSystem l).2).2).1.msgs ++ _ = _
  rw [List.append_assoc, List.append_assoc, takeSummary_msgs, takeUser_msgs]
  exact takeSystem_msgs l

/-- C7 (block partition): for a history of non-nil messages, the members of the
system block, the user block, the summary block and all turn blocks, put one
after the other in that order, are exactly the input message sequence. -/
theorem block_partition (m : Int) (msgs : List Msg) (toks : List Int)
    (hlen : msgs.length = toks.length) (hnn : ∀ x ∈ msgs, x ≠ none) :
    (mkBlocks m (msgs.zip toks)).systemBlock.msgs ++ (mkBlocks m (msgs.zip toks)).userBlock.msgs
        ++ (mkBlocks m (msgs.zip toks)).summaryBlock.msgs
        ++ ((mkBlocks m (msgs.zip toks)).toolBlocks.map block.msgs).flatten
      = msgs := by
  rw [← blocksMsgs_eq_flatten, mkBlocks_msgs, List.map_fst_zip _ _ (le_of_eq hlen),
    List.filter_eq_self]
  intro x hx
  cases x with
  | none => exact absurd rfl (hnn none hx)
  | some _ => rfl

/-- Witness of C7: a history with a system message, a user message, an earlier summary,
a tool-call message with one answer, and a tool message for another call. -/
theorem block_partition_witness :
    (mkBlocks 25 ([some sysMsg, some userMsg, some oldSummary, some callMsg, some toolA,
          some toolX].zip [10, 10, 10, 10, 10, 10])).systemBlock.msgs
        ++ (mkBlocks 25 ([some sysMsg, some userMsg, some oldSummary, some callMsg, some toolA,
          some toolX].zip [10, 10, 10, 10, 10, 10])).userBlock.msgs
        ++ (mkBlocks 25 ([some sysMsg, some userMsg, some oldSummary, some callMsg, some toolA,
          some toolX].zip [10, 10, 10, 10, 10, 10])).summaryBlock.msgs
        ++ ((mkBlocks 25 ([some sysMsg, some userMsg, some oldSummary, some callMsg, some toolA,
          some toolX].zip [10, 10, 10, 10, 10, 10])).toolBlocks.map block.msgs).flatten
      = [some sysMsg, some userMsg, some oldSummary, some callMsg, some toolA, some toolX] :=
  block_partition 25
    [some sysMsg, some userMsg, some oldSummary, some callMsg, some toolA, some toolX]
    [10, 10, 10, 10, 10, 10] rfl (by simp)

/-! ## C8: tool-call pairing -/

/-- C8 (tool-call pairing): a block opened by an Assistant message with at least
one tool call is that message followed by the maximal run of immediately
following Tool messages whose `ToolCallID` is empty or one of the call ids (the
blocks of the rest start after that run); and when the run is ended by a Tool
message with a non-empty id that matches no call id, that message is not in
the block and opens the next block. -/
theorem tool_call_pairing (m : Message) (t : Int) (rest : List (Msg × Int))
    (hrole : m.Role = Assistant) (hcalls : m.ToolCalls ≠ []) :
    buildBlocks ((some m, t) :: rest).length ((some m, t) :: rest) =
        ⟨some m :: ((rest.takeWhile (pairsWith (callIDsOf m))).map Prod.fst),
          ((rest.takeWhile (pairsWith (callIDsOf m))).map Prod.snd).foldl add64 t⟩
        :: buildBlocks (rest.dropWhile (pairsWith (callIDsOf m))).length
            (rest.dropWhile (pairsWith (callIDsOf m))) ∧
      ∀ (run : List (Msg × Int)) (nm : Message) (u : Int) (tail : List (Msg × Int)),
        rest = run ++ (some nm, u) :: tail → (∀ x ∈ run, pairsWith (callIDsOf m) x = true) →
        nm.Role = Tool → nm.ToolCallID ≠ "" → nm.ToolCallID ∉ callIDsOf m →
        buildBlocks ((some m, t) :: rest).length ((some m, t) :: rest) =
          ⟨some m :: run.map Prod.fst, (run.map Prod.snd).foldl add64 t⟩
          :: ⟨[some nm], u⟩ :: buildBlocks tail.length tail := by
  have hm : m.Role = Assistant ∧ m.ToolCalls.length > 0 :=
    ⟨hrole, List.length_pos.mpr hcalls⟩
  have hmain : buildBlocks ((some m, t) :: rest).length ((some m, t) :: rest) =
      ⟨some m :: ((rest.takeWhile (pairsWith (callIDsOf m))).map Prod.fst),
        ((rest.takeWhile (pairsWith (callIDsOf m))).map Prod.snd).foldl add64 t⟩
      :: buildBlocks (rest.dropWhile (pairsWith (callIDsOf m))).length
          (rest.dropWhile (pairsWith (callIDsOf m))) := by
    rw [List.length_cons, buildBlocks_call rest.length m t rest hm,
      buildBlocks_fuel rest.length _ _ (dropWhile_length_le _ _) (le_refl _)]
  refine ⟨hmain, ?_⟩
  intro run nm u tail hrest hrun hnm hne hnot
  have hp : ¬ pairsWith (callIDsOf m) (some nm, u) = true := by
    simp [pairsWith, hnm, hne, hnot]
  have hsingle : ¬ (nm.Role = Assistant ∧ nm.ToolCalls.length > 0) := by
    rw [hnm]
    intro h
    exact absurd h.1 (by decide)
  rw [hmain, hrest, List.takeWhile_append_of_pos hrun, List.dropWhile_append_of_pos hrun,
    List.takeWhile_cons_of_neg hp, List.dropWhile_cons_of_neg hp, List.append_nil,
    List.length_cons, buildBlocks_single tail.length nm u tail hsingle]

/-- Witness of C8: Assistant(calls a, b), Tool(a), Tool(x) gives the blocks
[Assistant, Tool(a)] and [Tool(x)]. -/
theorem tool_call_pairing_witness :
    buildBlocks 3 [(some callMsg, 10), (some toolA, 10), (some toolX, 10)]
      = [⟨[some callMsg, some toolA], 20⟩, ⟨[some toolX], 10⟩] :=
  (tool_call_pairing callMsg 10 [(some toolA, 10), (some toolX, 10)] rfl (by decide)).2
    [(some toolA, 10)] toolX 10 [] rfl (by decide) rfl (by decide) (by decide)

/-! ## The shape of the leading blocks -/

theorem takeSystem_shape (l : List (Msg × Int)) :
    ((takeSystem l).1.msgs = [] ∧ (takeSystem l).2 = l) ∨
      ∃ m t, m.Role = System ∧ (takeSystem l).1.msgs = [some m] ∧ l = (some m, t) :: (takeSystem l).2 := by
  unfold takeSystem
  split
  · rename_i m t rest
    split
    · rename_i hm
      exact Or.inr ⟨m, t, hm, rfl, rfl⟩
    · exact Or.inl ⟨rfl, rfl⟩
  · exact Or.inl ⟨rfl, rfl⟩

theorem takeUser_roles (l : List (Msg × Int)) (b : block) :
    ∀ x ∈ (takeUser b l).1.msgs, x ∈ b.msgs ∨ ∃ m, x = some m ∧ m.Role = User := by
  induction l generalizing b with
  | nil =>
    intro x hx
    exact Or.inl hx
  | cons y ys ih =>
    obtain ⟨ym, t⟩ := y
    cases ym with
    | none =>
      simp only [takeUser]
      exact ih b
    | some m =>
      simp only [takeUser]
      split
      · intro x hx
        exact Or.inl hx
      · rename_i hm
        intro x hx
        rcases ih _ x hx with h | h
        · rcases List.mem_append.mp h with h | h
          · exact Or.inl h
          · rw [List.mem_singleton.mp h]
            exact Or.inr ⟨m, rfl, not_not.mp hm⟩
        · exact Or.inr h

theorem userBlock_roles (m : Int) (l : List (Msg × Int)) :
    ∀ x ∈ (mkBlocks m l).userBlock.msgs, ∃ u, x = some u ∧ u.Role = User := by
  intro x hx
  rcases takeUser_roles (takeSystem l).2 {} x hx with h | h
  · simp at h
  · exact h

theorem systemBlock_shape (m : Int) (l : List (Msg × Int)) :
    (mkBlocks m l).systemBlock.msgs = [] ∨
      ∃ u, (mkBlocks m l).systemBlock.msgs = [some u] ∧ u.Role = System := by
  rcases takeSystem_shape l with h | ⟨u, t, hu, hmsgs, _⟩
  · exact Or.inl h.1
  · exact Or.inr ⟨u, hmsgs, hu⟩

theorem takeUser_leading (U : List Msg) (sm : Message) (R : List Msg)
    (hU : ∀ x ∈ U, ∃ u, x = some u ∧ u.Role = User) (hsm : sm.Role ≠ User)
    (l : List (Msg × Int)) (b : block) (hl : l.map Prod.fst = U ++ some sm :: R) :
    (takeUser b l).1.msgs = b.msgs ++ U := by
  induction U generalizing l b with
  | nil =>
    obtain ⟨y, ys, rfl, hy, -⟩ := List.map_eq_cons_iff.mp hl
    obtain ⟨ym, t⟩ := y
    simp only at hy
    subst hy
    simp [takeUser, hsm]
  | cons x xs ih =>
    obtain ⟨y, ys, rfl, hy, hys⟩ := List.map_eq_cons_iff.mp hl
    obtain ⟨ym, t⟩ := y
    simp only at hy
    subst hy
    obtain ⟨u, rfl, hu⟩ := hU _ (List.mem_cons_self _ _)
    simp only [takeUser, hu, ne_eq, not_true_eq_false, if_false]
    rw [ih (fun z hz => hU z (List.mem_cons_of_mem _ hz)) ys _ hys]
    simp

/-- Reading back a list of the form system block, user block, Assistant message, rest
gives the same system block and the same user block. -/
theorem leading_blocks_of_assembled (S U R : List Msg) (sm : Message)
    (hS : S = [] ∨ ∃ u, S = [some u] ∧ u.Role = System)
    (hU : ∀ x ∈ U, ∃ u, x = some u ∧ u.Role = User) (hsm : sm.Role = Assistant)
    (l : List (Msg × Int)) (hl : l.map Prod.fst = S ++ U ++ some sm :: R) :
    (takeSystem l).1.msgs = S ∧ (takeUser {} (takeSystem l).2).1.msgs = U := by
  have hsmU : sm.Role ≠ User := by rw [hsm]; decide
  rcases hS with rfl | ⟨u, rfl, hu⟩
  · rw [List.nil_append] at hl
    have hsys : takeSystem l = ({}, l) := by
      cases U with
      | nil =>
        obtain ⟨y, ys, rfl, hy, -⟩ := List.map_eq_cons_iff.mp hl
        obtain ⟨ym, t⟩ := y
        simp only at hy
        subst hy
        have : sm.Role ≠ System := by rw [hsm]; decide
        simp [takeSystem, this]
      | cons x xs =>
        obtain ⟨y, ys, rfl, hy, -⟩ := List.map_eq_cons_iff.mp hl
        obtain ⟨ym, t⟩ := y
        simp only at hy
        subst hy
        obtain ⟨v, rfl, hv⟩ := hU _ (List.mem_cons_self _ _)
        have : v.Role ≠ System := by rw [hv]; decide
        simp [takeSystem, this]
    rw [hsys]
    refine ⟨rfl, ?_⟩
    have := takeUser_leading U sm R hU hsmU l {} hl
    simpa using this
  · rw [List.append_assoc, List.singleton_append] at hl
    obtain ⟨y, ys, rfl, hy, hys⟩ := List.map_eq_cons_iff.mp hl
    obtain ⟨ym, t⟩ := y
    simp only at hy
    subst hy
    have hsys : takeSystem ((some u, t) :: ys) = (⟨[some u], add64 0 t⟩, ys) := by
      simp [takeSystem, hu]
    rw [hsys]
    refine ⟨rfl, ?_⟩
    have := takeUser_leading U sm R hU hsmU ys {} hys
    simpa using this

/-! ## C9: the summary flag -/

/-- C9, counterexample: in the history [User, Assistant(text), Assistant(flagged)]
the flagged message is not at the summary-block position (the message after
the user block has no flag), so it is an ordinary turn block; it fits in the
recent budget and is kept, and the output holds two flagged Assistant messages. -/
theorem summary_flag_counterexample :
    triggers (demoMw (okSummarizer "S")) [some userMsg, some textMsg, some oldSummary]
      [10, 10, 10] ∧
    (BeforeModel (demoMw (okSummarizer "S"))
        (some ⟨[some userMsg, some textMsg, some oldSummary]⟩)).err = none ∧
    (BeforeModel (demoMw (okSummarizer "S"))
        (some ⟨[some userMsg, some textMsg, some oldSummary]⟩)).state
      = some ⟨[some userMsg, some (mkSummaryMsg "S"), some textMsg, some oldSummary]⟩ ∧
    [some userMsg, some (mkSummaryMsg "S"), some textMsg, some oldSummary].countP
      carriesSummaryFlag = 2 :=
  ⟨⟨by simp, rfl, rfl, by decide⟩, by decide, by decide, by decide⟩

theorem blocksMsgs_sublist {a b : List block} (h : a.Sublist b) :
    (blocksMsgs a).Sublist (blocksMsgs b) := by
  induction h with
  | slnil => exact List.Sublist.refl _
  | cons x _ ih => exact List.sublist_append_of_sublist_right ih
  | cons₂ x _ ih => exact List.Sublist.append (List.Sublist.refl _) ih

theorem leading_blocks_unflagged (m : Int) (l : List (Msg × Int)) :
    ∀ x ∈ (mkBlocks m l).systemBlock.msgs ++ (mkBlocks m l).userBlock.msgs,
      carriesSummaryFlag x = false := by
  intro x hx
  rcases List.mem_append.mp hx with h | h
  · rcases systemBlock_shape m l with hs | ⟨u, hs, hu⟩
    · rw [hs] at h
      simp at h
    · rw [hs, List.mem_singleton] at h
      subst h
      have : u.Role ≠ Assistant := by rw [hu]; decide
      simp [carriesSummaryFlag, this]
  · obtain ⟨u, rfl, hu⟩ := userBlock_roles m l x h
    have : u.Role ≠ Assistant := by rw [hu]; decide
    simp [carriesSummaryFlag, this]

/-- C9, amended: after a successful compaction the new summary message, an
Assistant message with the flag, sits right after the user block and before
every recent-block message; no message of the system or user block counts as
a flagged Assistant message; the output holds one flagged Assistant message
more than the recent blocks do, hence exactly one when no turn-block message
of the input carries the flag.  The summary block of the input is not part of
the output. -/
theorem summary_flag_propagation (s : summaryMiddleware) (st : ChatModelAgentState)
    (toks : List Int) (msg : Message) (h : triggers s st.Messages toks)
    (hs : s.summarizer (summarizerInput (mkBlocks s.maxRecent (st.Messages.zip toks))) = .ok msg) :
    (BeforeModel s (some st)).state = some ⟨
        (mkBlocks s.maxRecent (st.Messages.zip toks)).systemBlock.msgs
          ++ (mkBlocks s.maxRecent (st.Messages.zip toks)).userBlock.msgs
          ++ [some (mkSummaryMsg msg.Content)]
          ++ blocksMsgs (mkBlocks s.maxRecent (st.Messages.zip toks)).recentBlocks⟩ ∧
      carriesSummaryFlag (some (mkSummaryMsg msg.Content)) = true ∧
      (∀ x ∈ (mkBlocks s.maxRecent (st.Messages.zip toks)).systemBlock.msgs
            ++ (mkBlocks s.maxRecent (st.Messages.zip toks)).userBlock.msgs,
          carriesSummaryFlag x = false) ∧
      (newMessages (mkBlocks s.maxRecent (st.Messages.zip toks))
          (mkSummaryMsg msg.Content)).countP carriesSummaryFlag
        = 1 + (blocksMsgs (mkBlocks s.maxRecent (st.Messages.zip toks)).recentBlocks).countP
            carriesSummaryFlag ∧
      ((∀ x ∈ blocksMsgs (mkBlocks s.maxRecent (st.Messages.zip toks)).toolBlocks,
          carriesSummaryFlag x = false) →
        (newMessages (mkBlocks s.maxRecent (st.Messages.zip toks))
          (mkSummaryMsg msg.Content)).countP carriesSummaryFlag = 1) := by
  have hflag : carriesSummaryFlag (some (mkSummaryMsg msg.Content)) = true := by
    simp [carriesSummaryFlag, mkSummaryMsg, hasKey, AssistantMessage]
  have hlead := leading_blocks_unflagged s.maxRecent (st.Messages.zip toks)
  have hzero : ((mkBlocks s.maxRecent (st.Messages.zip toks)).systemBlock.msgs
      ++ (mkBlocks s.maxRecent (st.Messages.zip toks)).userBlock.msgs).countP
        carriesSummaryFlag = 0 := by
    rw [List.countP_eq_zero]
    intro x hx
    simp [hlead x hx]
  have hcount : (newMessages (mkBlocks s.maxRecent (st.Messages.zip toks))
        (mkSummaryMsg msg.Content)).countP carriesSummaryFlag
      = 1 + (blocksMsgs (mkBlocks s.maxRecent (st.Messages.zip toks)).recentBlocks).countP
          carriesSummaryFlag := by
    unfold newMessages
    rw [List.countP_append, List.countP_append, hzero, List.countP_singleton, hflag]
    simp
  refine ⟨?_, hflag, hlead, hcount, ?_⟩
  · rw [BeforeModel_of_triggers s st toks h, hs]
    rfl
  · intro hnone
    rw [hcount, Nat.add_eq_left, List.countP_eq_zero]
    intro x hx
    have hsub := blocksMsgs_sublist
      (splitBlocks_recent_sublist s.maxRecent
        (mkBlocks s.maxRecent (st.Messages.zip toks)).toolBlocks)
    rw [← mkBlocks_recent] at hsub
    simp [hnone x (hsub.subset hx)]

/-- Witness of C9 amended: the earlier summary sits right after the user block; the output
is [System, User, new summary, Assistant, Assistant]. -/
theorem summary_flag_propagation_witness :
    triggers (demoMw (okSummarizer "S"))
      [some sysMsg, some userMsg, some oldSummary, some textMsg, some textMsg]
      [10, 10, 10, 10, 10] ∧
    (BeforeModel (demoMw (okSummarizer "S"))
        (some ⟨[some sysMsg, some userMsg, some oldSummary, some textMsg, some textMsg]⟩)).state
      = some ⟨[some sysMsg, some userMsg, some (mkSummaryMsg "S"), some textMsg,
          some textMsg]⟩ ∧
    (newMessages (mkBlocks 25
        ([some sysMsg, some userMsg, some oldSummary, some textMsg, some textMsg].zip
          [10, 10, 10, 10, 10])) (mkSummaryMsg "S")).countP carriesSummaryFlag = 1 :=
  ⟨⟨by simp, rfl, rfl, by decide⟩,
   (summary_flag_propagation (demoMw (okSummarizer "S"))
      ⟨[some sysMsg, some userMsg, some oldSummary, some textMsg, some textMsg]⟩
      [10, 10, 10, 10, 10] (AssistantMessage "S" []) ⟨by simp, rfl, rfl, by decide⟩ rfl).1,
   (summary_flag_propagation (demoMw (okSummarizer "S"))
      ⟨[some sysMsg, some userMsg, some oldSummary, some textMsg, some textMsg]⟩
      [10, 10, 10, 10, 10] (AssistantMessage "S" []) ⟨by simp, rfl, rfl, by decide⟩ rfl).2.2.2.2
      (by decide)⟩

/-! ## C10: the leading blocks survive compaction -/

/-- C10 (structure preservation): after a successful compaction, reading the
new message list back by the same positional rule (with any token counts of
the right length and any recent budget) gives a system block and a user block
with exactly the messages of the system block and user block of the input. -/
theorem structure_preserved (s : summaryMiddleware) (st : ChatModelAgentState)
    (toks : List Int) (msg : Message) (h : triggers s st.Messages toks)
    (hs : s.summarizer (summarizerInput (mkBlocks s.maxRecent (st.Messages.zip toks))) = .ok msg)
    (maxRecent2 : Int) (toks2 : List Int)
    (hlen : (newMessages (mkBlocks s.maxRecent (st.Messages.zip toks))
        (mkSummaryMsg msg.Content)).length = toks2.length) :
    (BeforeModel s (some st)).state = some ⟨newMessages
        (mkBlocks s.maxRecent (st.Messages.zip toks)) (mkSummaryMsg msg.Content)⟩ ∧
      (mkBlocks maxRecent2 ((newMessages (mkBlocks s.maxRecent (st.Messages.zip toks))
          (mkSummaryMsg msg.Content)).zip toks2)).systemBlock.msgs
        = (mkBlocks s.maxRecent (st.Messages.zip toks)).systemBlock.msgs ∧
      (mkBlocks maxRecent2 ((newMessages (mkBlocks s.maxRecent (st.Messages.zip toks))
          (mkSummaryMsg msg.Content)).zip toks2)).userBlock.msgs
        = (mkBlocks s.maxRecent (st.Messages.zip toks)).userBlock.msgs := by
  refine ⟨?_, ?_⟩
  · rw [BeforeModel_of_triggers s st toks h, hs]
  · have hl : ((newMessages (mkBlocks s.maxRecent (st.Messages.zip toks))
          (mkSummaryMsg msg.Content)).zip toks2).map Prod.fst
        = (mkBlocks s.maxRecent (st.Messages.zip toks)).systemBlock.msgs
          ++ (mkBlocks s.maxRecent (st.Messages.zip toks)).userBlock.msgs
          ++ some (mkSummaryMsg msg.Content)
            :: blocksMsgs (mkBlocks s.maxRecent (st.Messages.zip toks)).recentBlocks := by
      rw [List.map_fst_zip _ _ (le_of_eq hlen)]
      simp [newMessages]
    exact leading_blocks_of_assembled _ _ _ (mkSummaryMsg msg.Content)
      (systemBlock_shape _ _) (userBlock_roles _ _) rfl _ hl

/-- Witness of C10: [System, User, User, earlier summary, Assistant, Assistant, Assistant]
with 10 tokens each; the output is read back with counts of 7 tokens each. -/
theorem structure_preserved_witness :
    (BeforeModel (demoMw (okSummarizer "S"))
        (some ⟨[some sysMsg, some userMsg, some userMsg, some oldSummary, some textMsg,
          some textMsg, some textMsg]⟩)).state
      = some ⟨[some sysMsg, some userMsg, some userMsg, some (mkSummaryMsg "S"), some textMsg,
          some textMsg]⟩ ∧
    (mkBlocks 25 ([some sysMsg, some userMsg, some userMsg, some (mkSummaryMsg "S"),
        some textMsg, some textMsg].zip [7, 7, 7, 7, 7, 7])).systemBlock.msgs = [some sysMsg] ∧
    (mkBlocks 25 ([some sysMsg, some userMsg, some userMsg, some (mkSummaryMsg "S"),
        some textMsg, some textMsg].zip [7, 7, 7, 7, 7, 7])).userBlock.msgs
      = [some userMsg, some userMsg] :=
  structure_preserved (demoMw (okSummarizer "S"))
    ⟨[some sysMsg, some userMsg, some userMsg, some oldSummary, some textMsg, some textMsg,
      some textMsg]⟩
    [10, 10, 10, 10, 10, 10, 10] (AssistantMessage "S" []) ⟨by simp, rfl, rfl, by decide⟩ rfl
    25 [7, 7, 7, 7, 7, 7] rfl

/-! ## C11: empty history -/

/-- C11 (empty history): when the state is nil or its message list is empty,
`BeforeModel` returns no error, leaves the state as it is, and calls neither
the counter nor the summarizer. -/
theorem empty_history_noop (s : summaryMiddleware) (state : Option ChatModelAgentState)
    (h : state = none ∨ ∃ st, state = some st ∧ st.Messages = []) :
    (BeforeModel s state).err = none ∧ (BeforeModel s state).state = state ∧
      (BeforeModel s state).counterCalls = [] ∧ (BeforeModel s state).summarizerCalls = [] := by
  rcases h with rfl | ⟨st, rfl, hst⟩
  · exact ⟨rfl, rfl, rfl, rfl⟩
  · simp [BeforeModel, hst]

/-- Witness of C11: the nil state and the state with no messages, with a counter and a
summarizer that would both fail if they were called. -/
theorem empty_history_noop_witness :
    ((BeforeModel ⟨failingCounter "c", 20, 25, failingSummarizer "s"⟩ none).err = none ∧
      (BeforeModel ⟨failingCounter "c", 20, 25, failingSummarizer "s"⟩ none).state = none ∧
      (BeforeModel ⟨failingCounter "c", 20, 25, failingSummarizer "s"⟩ none).counterCalls = [] ∧
      (BeforeModel ⟨failingCounter "c", 20, 25, failingSummarizer "s"⟩ none).summarizerCalls
        = []) ∧
    ((BeforeModel ⟨failingCounter "c", 20, 25, failingSummarizer "s"⟩ (some ⟨[]⟩)).err = none ∧
      (BeforeModel ⟨failingCounter "c", 20, 25, failingSummarizer "s"⟩ (some ⟨[]⟩)).state
        = some ⟨[]⟩ ∧
      (BeforeModel ⟨failingCounter "c", 20, 25, failingSummarizer "s"⟩
        (some ⟨[]⟩)).counterCalls = [] ∧
      (BeforeModel ⟨failingCounter "c", 20, 25, failingSummarizer "s"⟩
        (some ⟨[]⟩)).summarizerCalls = []) :=
  ⟨empty_history_noop ⟨failingCounter "c", 20, 25, failingSummarizer "s"⟩ none (Or.inl rfl),
   empty_history_noop ⟨failingCounter "c", 20, 25, failingSummarizer "s"⟩ (some ⟨[]⟩)
     (Or.inr ⟨⟨[]⟩, rfl, rfl⟩)⟩

/-! ## C12: the error paths -/

/-- C12, counterexample: a counter that fails makes `BeforeModel` return the
count-failed error, although the counter returned no array (so there is no
length mismatch) and the summarizer was never called. -/
theorem two_error_kinds_counterexample :
    (BeforeModel ⟨failingCounter "down", 20, 25, okSummarizer "S"⟩
        (some ⟨[some userMsg]⟩)).err = some (.countFailed "down") ∧
    (¬ ∃ toks, failingCounter "down" [some userMsg] = .ok toks) ∧
    (BeforeModel ⟨failingCounter "down", 20, 25, okSummarizer "S"⟩
        (some ⟨[some userMsg]⟩)).summarizerCalls = [] ∧
    (BeforeModel ⟨failingCounter "down", 20, 25, okSummarizer "S"⟩
        (some ⟨[some userMsg]⟩)).state = some ⟨[some userMsg]⟩ := by
  refine ⟨rfl, ?_, rfl, rfl⟩
  rintro ⟨toks, h⟩
  simp [failingCounter] at h

theorem BeforeModel_of_counter_error (s : summaryMiddleware) (st : ChatModelAgentState)
    (e : String) (hne : st.Messages ≠ []) (hc : s.counter st.Messages = .error e) :
    BeforeModel s (some st) =
      { err := some (.countFailed e), state := some st,
        counterCalls := [st.Messages], summarizerCalls := [] } := by
  have hlen : st.Messages.length ≠ 0 := fun h => hne (List.length_eq_zero.mp h)
  simp only [BeforeModel, hlen, if_false, hc]

/-- C12, amended: `BeforeModel` returns an error if and only if the history is
non-empty and either the counter fails (count-failed error), or the counter's
result has another length than the history (count-mismatch error), or the
history triggers compaction and the summarizer fails (summarize-failed error). -/
theorem error_iff (s : summaryMiddleware) (state : Option ChatModelAgentState) :
    ((BeforeModel s state).err ≠ none ↔
      ∃ st, state = some st ∧ st.Messages ≠ [] ∧
        ((∃ e, s.counter st.Messages = .error e) ∨
         (∃ toks, s.counter st.Messages = .ok toks ∧ st.Messages.length ≠ toks.length) ∨
         (∃ toks e, triggers s st.Messages toks ∧
            s.summarizer (summarizerInput (mkBlocks s.maxRecent (st.Messages.zip toks)))
              = .error e))) ∧
    (∀ st e, state = some st → st.Messages ≠ [] → s.counter st.Messages = .error e →
      (BeforeModel s state).err = some (.countFailed e)) ∧
    (∀ st toks, state = some st → st.Messages ≠ [] → s.counter st.Messages = .ok toks →
      st.Messages.length ≠ toks.length →
      (BeforeModel s state).err = some (.countMismatch st.Messages.length toks.length)) ∧
    (∀ st toks e, state = some st → triggers s st.Messages toks →
      s.summarizer (summarizerInput (mkBlocks s.maxRecent (st.Messages.zip toks))) = .error e →
      (BeforeModel s state).err = some (.summarizeFailed e)) := by
  refine ⟨?_, ?_, ?_, ?_⟩
  · cases state with
    | none => simp [BeforeModel]
    | some st =>
      by_cases hne : st.Messages = []
      · simp [BeforeModel, hne]
      · cases hc : s.counter st.Messages with
        | error e =>
          rw [BeforeModel_of_counter_error s st e hne hc]
          simp [hne, hc]
        | ok toks =>
          rw [BeforeModel_of_counts s st toks hne hc]
          by_cases hlen : st.Messages.length = toks.length
          · by_cases hsum : sumTokens toks ≤ s.maxBefore
            · simp [hlen, hsum, hne, triggers, hc]
            · have htr : triggers s st.Messages toks := ⟨hne, hc, hlen, not_le.mp hsum⟩
              cases hs : s.summarizer
                  (summarizerInput (mkBlocks s.maxRecent (st.Messages.zip toks))) with
              | error e =>
                simp only [hlen, ne_eq, not_true_eq_false, if_false, hsum]
                constructor
                · intro _
                  exact ⟨st, rfl, hne, Or.inr (Or.inr ⟨toks, e, htr, hs⟩)⟩
                · intro _
                  simp
              | ok msg =>
                simp only [hlen, ne_eq, not_true_eq_false, if_false, hsum]
                constructor
                · intro h
                  exact h.elim
                · rintro ⟨st2, hst2, -, h⟩
                  cases hst2
                  rcases h with ⟨e, he⟩ | ⟨toks2, h2, hl2⟩ | ⟨toks2, e, htr2, hs2⟩
                  · rw [hc] at he
                    cases he
                  · rw [hc] at h2
                    cases h2
                    exact absurd hlen hl2
                  · have := htr2.2.1
                    rw [hc] at this
                    cases this
                    rw [hs] at hs2
                    cases hs2
          · simp only [ne_eq, hlen, not_false_eq_true, if_true]
            constructor
            · intro _
              exact ⟨st, rfl, hne, Or.inr (Or.inl ⟨toks, hc, hlen⟩)⟩
            · intro _
              simp
  · rintro st e rfl hne hc
    rw [BeforeModel_of_counter_error s st e hne hc]
  · rintro st toks rfl hne hc hlen
    rw [BeforeModel_of_counts s st toks hne hc]
    simp [hlen]
  · rintro st toks e rfl htr hs
    rw [BeforeModel_of_triggers s st toks htr, hs]

/-! ## C13: the length of the compacted history -/

/-- C13, counterexample: a user message and two assistant messages of 10 tokens
with `maxBefore = 20` and `maxRecent = 25`.  Compaction is triggered, both
assistant messages fit in the recent budget, nothing is left out, and the new
history has four messages where the input had three. -/
theorem compaction_shortens_counterexample :
    triggers (demoMw (okSummarizer "S")) [some userMsg, some textMsg, some textMsg]
      [10, 10, 10] ∧
    (BeforeModel (demoMw (okSummarizer "S"))
        (some ⟨[some userMsg, some textMsg, some textMsg]⟩)).err = none ∧
    (BeforeModel (demoMw (okSummarizer "S"))
        (some ⟨[some userMsg, some textMsg, some textMsg]⟩)).state
      = some ⟨[some userMsg, some (mkSummaryMsg "S"), some textMsg, some textMsg]⟩ ∧
    ¬ ([some userMsg, some (mkSummaryMsg "S"), some textMsg, some textMsg].length
        < [some userMsg, some textMsg, some textMsg].length) :=
  ⟨⟨by simp, rfl, rfl, by decide⟩, by decide, by decide, by decide⟩

theorem splitBlocks_msgs_length (m : Int) (l : List block) :
    (blocksMsgs (splitBlocks m l).recentBlocks).length
      + (blocksMsgs (splitBlocks m l).olderBlocks).length = (blocksMsgs l).length := by
  induction l with
  | nil => rfl
  | cons b l ih =>
    rw [splitBlocks_cons]
    unfold splitStep
    split
    · simp only [blocksMsgs, List.length_append]
      omega
    · simp only [blocksMsgs, List.length_append]
      omega

/-- C13, amended: after a successful compaction the new history consists of
the non-nil input messages without the summary block and without the messages
of the older blocks, plus the one new summary message.  It is therefore at
most one message longer than the input, and it is shorter than the input as
soon as the summary block and the older blocks together hold two messages. -/
theorem compaction_length (s : summaryMiddleware) (st : ChatModelAgentState)
    (toks : List Int) (msg : Message) (h : triggers s st.Messages toks)
    (hs : s.summarizer (summarizerInput (mkBlocks s.maxRecent (st.Messages.zip toks))) = .ok msg) :
    ∃ out : List Msg,
      (BeforeModel s (some st)).state = some ⟨out⟩ ∧
      out.length + (mkBlocks s.maxRecent (st.Messages.zip toks)).summaryBlock.msgs.length
          + (blocksMsgs (mkBlocks s.maxRecent (st.Messages.zip toks)).olderBlocks).length
        = (st.Messages.filter Option.isSome).length + 1 ∧
      out.length ≤ st.Messages.length + 1 ∧
      (2 ≤ (mkBlocks s.maxRecent (st.Messages.zip toks)).summaryBlock.msgs.length
            + (blocksMsgs (mkBlocks s.maxRecent (st.Messages.zip toks)).olderBlocks).length →
        out.length < st.Messages.length) := by
  refine ⟨newMessages (mkBlocks s.maxRecent (st.Messages.zip toks)) (mkSummaryMsg msg.Content),
    ?_, ?_⟩
  · rw [BeforeModel_of_triggers s st toks h, hs]
  · have hparts := congrArg List.length (mkBlocks_msgs s.maxRecent (st.Messages.zip toks))
    rw [List.map_fst_zip _ _ (le_of_eq h.2.2.1)] at hparts
    have hsplit := splitBlocks_msgs_length s.maxRecent
      (mkBlocks s.maxRecent (st.Messages.zip toks)).toolBlocks
    rw [← mkBlocks_recent, ← mkBlocks_older] at hsplit
    have hfilter : (st.Messages.filter Option.isSome).length ≤ st.Messages.length :=
      List.length_filter_le _ _
    simp only [List.length_append] at hparts
    simp only [newMessages, List.length_append, List.length_singleton]
    omega

/-- Witness of C13 amended: [System, User, earlier summary, three assistant messages] with
10 tokens each; the earlier summary and the oldest assistant message are left out. -/
theorem compaction_length_witness :
    ∃ out : List Msg,
      (BeforeModel (demoMw (okSummarizer "S"))
        (some ⟨[some sysMsg, some userMsg, some oldSummary, some msgOne, some msgTwo,
          some msgThree]⟩)).state = some ⟨out⟩ ∧
      out.length + (mkBlocks 25 ([some sysMsg, some userMsg, some oldSummary, some msgOne,
            some msgTwo, some msgThree].zip [10, 10, 10, 10, 10, 10])).summaryBlock.msgs.length
          + (blocksMsgs (mkBlocks 25 ([some sysMsg, some userMsg, some oldSummary, some msgOne,
            some msgTwo, some msgThree].zip [10, 10, 10, 10, 10, 10])).olderBlocks).length
        = ([some sysMsg, some userMsg, some oldSummary, some msgOne, some msgTwo,
            some msgThree].filter Option.isSome).length + 1 ∧
      out.length ≤ [some sysMsg, some userMsg, some oldSummary, some msgOne, some msgTwo,
            some msgThree].length + 1 ∧
      (2 ≤ (mkBlocks 25 ([some sysMsg, some userMsg, some oldSummary, some msgOne,
            some msgTwo, some msgThree].zip [10, 10, 10, 10, 10, 10])).summaryBlock.msgs.length
            + (blocksMsgs (mkBlocks 25 ([some sysMsg, some userMsg, some oldSummary,
              some msgOne, some msgTwo, some msgThree].zip
              [10, 10, 10, 10, 10, 10])).olderBlocks).length →
        out.length < [some sysMsg, some userMsg, some oldSummary, some msgOne, some msgTwo,
            some msgThree].length) :=
  compaction_length (demoMw (okSummarizer "S"))
    ⟨[some sysMsg, some userMsg, some oldSummary, some msgOne, some msgTwo, some msgThree]⟩
    [10, 10, 10, 10, 10, 10] (AssistantMessage "S" []) ⟨by simp, rfl, rfl, by decide⟩ rfl

/-! ## C14: blocks of equal cost -/

theorem splitBlocks_equal_costs (m c : Int) (hc : 0 < c) (hm : 0 ≤ m)
    (hfit : m + c < 9223372036854775808) (l : List block) (hall : ∀ b ∈ l, b.tokens = c) :
    splitBlocks m l =
      ⟨l.drop (l.length - (m / c).toNat), l.take (l.length - (m / c).toNat),
        ((min l.length (m / c).toNat : Nat) : Int) * c⟩ := by
  have hq : ((m / c).toNat : Int) = m / c := Int.toNat_of_nonneg (Int.ediv_nonneg hm (le_of_lt hc))
  have hqc : ((m / c).toNat : Int) * c ≤ m := by
    rw [hq]
    exact Int.ediv_mul_le m (ne_of_gt hc)
  have hq1 : m < (((m / c).toNat : Int) + 1) * c := by
    rw [hq]
    exact Int.lt_ediv_add_one_mul_self m hc
  induction l with
  | nil => rw [splitBlocks_nil]; simp
  | cons b l ih =>
    have hb : b.tokens = c := hall b (List.mem_cons_self _ _)
    rw [splitBlocks_cons, ih (fun x hx => hall x (List.mem_cons_of_mem _ hx)), splitStep]
    simp only [hb]
    by_cases hlt : l.length < (m / c).toNat
    · have hk : min l.length (m / c).toNat = l.length := Nat.min_eq_left (le_of_lt hlt)
      have hk2 : min (b :: l).length (m / c).toNat = l.length + 1 := by
        rw [List.length_cons]
        exact Nat.min_eq_left hlt
      have hle : ((l.length : Int) + 1) * c ≤ m := by
        have h1 : ((l.length : Int) + 1) ≤ ((m / c).toNat : Int) := by exact_mod_cast hlt
        exact le_trans (Int.mul_le_mul_of_nonneg_right h1 (le_of_lt hc)) hqc
      have hnn : 0 ≤ (l.length : Int) * c :=
        Int.mul_nonneg (Int.ofNat_zero_le _) (le_of_lt hc)
      have hadd : add64 ((l.length : Int) * c) c = ((l.length : Int) + 1) * c := by
        rw [add64, wrapInt64_of_range _ (by linarith) (by linarith)]
        ring
      have hd : l.length - (m / c).toNat = 0 := Nat.sub_eq_zero_of_le (le_of_lt hlt)
      have hd2 : (b :: l).length - (m / c).toNat = 0 := by
        rw [List.length_cons]
        exact Nat.sub_eq_zero_of_le hlt
      rw [hk, hk2, hd, hd2, hadd]
      simp only [gt_iff_lt, not_lt.mpr hle, if_false, List.drop_zero, List.take_zero]
      push_cast
      rfl
    · have hge : (m / c).toNat ≤ l.length := Nat.le_of_not_lt hlt
      have hk : min l.length (m / c).toNat = (m / c).toNat := Nat.min_eq_right hge
      have hk2 : min (b :: l).length (m / c).toNat = (m / c).toNat := by
        rw [List.length_cons]
        exact Nat.min_eq_right (Nat.le_succ_of_le hge)
      have hnn : 0 ≤ ((m / c).toNat : Int) * c :=
        Int.mul_nonneg (Int.ofNat_zero_le _) (le_of_lt hc)
      have hadd : add64 (((m / c).toNat : Int) * c) c = (((m / c).toNat : Int) + 1) * c := by
        rw [add64, wrapInt64_of_range _ (by linarith) (by linarith)]
        ring
      have hd2 : (b :: l).length - (m / c).toNat = (l.length - (m / c).toNat) + 1 := by
        rw [List.length_cons]
        omega
      rw [hk, hk2, hd2, hadd]
      simp only [gt_iff_lt, hq1, if_true, List.drop_succ_cons, List.take_succ_cons]

/-- C14, amended (recency bias with equal costs): for every sequence of turn
blocks that all cost the same `c > 0` tokens and every budget `maxRecent >= 0`
with `maxRecent + c < 2^63` (so that no `int64` addition of the split loop
wraps), the recent set is exactly the newest `min(n, floor(maxRecent / c))`
blocks and the older set is all the remaining blocks. -/
theorem equal_costs_recency (maxRecent c : Int) (tb : List block) (hc : 0 < c)
    (hm : 0 ≤ maxRecent) (hfit : maxRecent + c < 9223372036854775808)
    (hall : ∀ b ∈ tb, b.tokens = c) :
    (splitBlocks maxRecent tb).recentBlocks
        = tb.drop (tb.length - min tb.length (maxRecent / c).toNat) ∧
      (splitBlocks maxRecent tb).olderBlocks
        = tb.take (tb.length - min tb.length (maxRecent / c).toNat) ∧
      (splitBlocks maxRecent tb).recentBlocks.length = min tb.length (maxRecent / c).toNat := by
  have hsub : tb.length - min tb.length (maxRecent / c).toNat
      = tb.length - (maxRecent / c).toNat := by omega
  rw [splitBlocks_equal_costs maxRecent c hc hm hfit tb hall, hsub]
  refine ⟨rfl, rfl, ?_⟩
  simp only [List.length_drop]
  omega

/-- Witness of C14: costs [5,5,5,5,5] with `maxRecent = 12` give the newest two blocks as
the recent set and the other three as the older set. -/
theorem equal_costs_recency_witness :
    (splitBlocks 12 [costBlock "b1" 5, costBlock "b2" 5, costBlock "b3" 5, costBlock "b4" 5,
        costBlock "b5" 5]).recentBlocks = [costBlock "b4" 5, costBlock "b5" 5] ∧
      (splitBlocks 12 [costBlock "b1" 5, costBlock "b2" 5, costBlock "b3" 5, costBlock "b4" 5,
        costBlock "b5" 5]).olderBlocks = [costBlock "b1" 5, costBlock "b2" 5, costBlock "b3" 5] ∧
      (splitBlocks 12 [costBlock "b1" 5, costBlock "b2" 5, costBlock "b3" 5, costBlock "b4" 5,
        costBlock "b5" 5]).recentBlocks.length = 2 :=
  equal_costs_recency 12 5
    [costBlock "b1" 5, costBlock "b2" 5, costBlock "b3" 5, costBlock "b4" 5, costBlock "b5" 5]
    (by decide) (by decide) (by decide) (by decide)

/-- C14, counterexample: four Assistant messages that cost 2^62 + 1 tokens each and
`maxRecent = 2^63 - 1 >= 0`.  The `int64` total is 4, so the history triggers
compaction, and the turn blocks are four blocks of that one cost.  The quotient
`floor(maxRecent / c)` is 1, so the claim names the newest block alone as the recent
set; the split loop keeps all four blocks, because its running `int64` sum wraps
around (it reads 2^62 + 1, then -2^63 + 2, then -2^62 + 3, then 4) and never
exceeds `maxRecent`. -/
theorem equal_costs_counterexample :
    triggers (wideMw [4611686018427387905, 4611686018427387905, 4611686018427387905,
        4611686018427387905])
      [some msgOne, some msgTwo, some msgThree, some textMsg]
      [4611686018427387905, 4611686018427387905, 4611686018427387905, 4611686018427387905] ∧
    (mkBlocks 9223372036854775807
        ([some msgOne, some msgTwo, some msgThree, some textMsg].zip
          [4611686018427387905, 4611686018427387905, 4611686018427387905,
            4611686018427387905])).toolBlocks
      = [costBlock "one" 4611686018427387905, costBlock "two" 4611686018427387905,
          costBlock "three" 4611686018427387905, costBlock "hello" 4611686018427387905] ∧
    (0 : Int) < 4611686018427387905 ∧ (0 : Int) ≤ 9223372036854775807 ∧
    min 4 ((9223372036854775807 : Int) / 4611686018427387905).toNat = 1 ∧
    (splitBlocks 9223372036854775807
        [costBlock "one" 4611686018427387905, costBlock "two" 4611686018427387905,
          costBlock "three" 4611686018427387905,
          costBlock "hello" 4611686018427387905]).recentBlocks
      = [costBlock "one" 4611686018427387905, costBlock "two" 4611686018427387905,
          costBlock "three" 4611686018427387905, costBlock "hello" 4611686018427387905] ∧
    (splitBlocks 9223372036854775807
        [costBlock "one" 4611686018427387905, costBlock "two" 4611686018427387905,
          costBlock "three" 4611686018427387905,
          costBlock "hello" 4611686018427387905]).olderBlocks = [] ∧
    (mkBlocks 9223372036854775807
        ([some msgOne, some msgTwo, some msgThree, some textMsg].zip
          [4611686018427387905, 4611686018427387905, 4611686018427387905,
            4611686018427387905])).recentBlocks
      ≠ [costBlock "hello" 4611686018427387905] := by
  refine ⟨⟨by simp, rfl, rfl, by decide⟩, by decide, by decide, by decide, by decide,
    by decide, by decide, by decide⟩

/-! ## C15: the end-to-end scenario -/

theorem scenario_blocks :
    mkBlocks 25 (scenarioHistory.zip [10, 10, 10, 10, 10, 10, 10, 10]) =
      { systemBlock := ⟨[some sysMsg], 10⟩,
        userBlock := ⟨[some userMsg], 10⟩,
        summaryBlock := ⟨[], 0⟩,
        toolBlocks := [⟨[some callMsg, some toolA, some toolB], 30⟩, ⟨[some textMsg], 10⟩,
          ⟨[some userMsg2], 10⟩, ⟨[some textMsg2], 10⟩],
        recentBlocks := [⟨[some userMsg2], 10⟩, ⟨[some textMsg2], 10⟩],
        olderBlocks := [⟨[some callMsg, some toolA, some toolB], 30⟩, ⟨[some textMsg], 10⟩],
        recentTokens := 20 } := by
  decide

/-- C15 (end-to-end scenario): for the history [System, User, Assistant with
tool calls a and b, Tool(a), Tool(b), Assistant(text), User, Assistant(text)]
with 10 tokens per message, `maxBefore = 60` and `maxRecent = 25`, compaction
is triggered, the turn blocks are four blocks of costs [30,10,10,10], the
recent set is the last two single-message blocks, and when the summarizer
succeeds the new history is [System, first User, summary message, second
User, last Assistant(text)]. -/
theorem end_to_end_scenario (summarizer : SummarizerInput → Except String Message)
    (msg : Message)
    (hs : summarizer (summarizerInput
      (mkBlocks 25 (scenarioHistory.zip [10, 10, 10, 10, 10, 10, 10, 10]))) = .ok msg) :
    triggers (scenarioMw summarizer) scenarioHistory [10, 10, 10, 10, 10, 10, 10, 10] ∧
      sumTokens [10, 10, 10, 10, 10, 10, 10, 10] = 80 ∧
      (mkBlocks 25 (scenarioHistory.zip [10, 10, 10, 10, 10, 10, 10, 10])).toolBlocks.map
          block.tokens = [30, 10, 10, 10] ∧
      (mkBlocks 25 (scenarioHistory.zip [10, 10, 10, 10, 10, 10, 10, 10])).recentBlocks
        = [⟨[some userMsg2], 10⟩, ⟨[some textMsg2], 10⟩] ∧
      (BeforeModel (scenarioMw summarizer) (some ⟨scenarioHistory⟩)).err = none ∧
      (BeforeModel (scenarioMw summarizer) (some ⟨scenarioHistory⟩)).state
        = some ⟨[some sysMsg, some userMsg, some (mkSummaryMsg msg.Content), some userMsg2,
            some textMsg2]⟩ := by
  have htr : triggers (scenarioMw summarizer) scenarioHistory [10, 10, 10, 10, 10, 10, 10, 10] :=
    ⟨by simp [scenarioHistory], rfl, rfl,
      show (60 : Int) < sumTokens [10, 10, 10, 10, 10, 10, 10, 10] by decide⟩
  have hb := BeforeModel_of_triggers (scenarioMw summarizer) ⟨scenarioHistory⟩
    [10, 10, 10, 10, 10, 10, 10, 10] htr
  have hs2 : (scenarioMw summarizer).summarizer (summarizerInput
      (mkBlocks (scenarioMw summarizer).maxRecent
        (scenarioHistory.zip [10, 10, 10, 10, 10, 10, 10, 10]))) = .ok msg := hs
  rw [hs2] at hb
  refine ⟨htr, by decide, ?_, ?_, ?_, ?_⟩
  · rw [scenario_blocks]; rfl
  · rw [scenario_blocks]
  · rw [hb]
  · rw [hb]
    show some (ChatModelAgentState.mk (newMessages
      (mkBlocks 25 (scenarioHistory.zip [10, 10, 10, 10, 10, 10, 10, 10]))
      (mkSummaryMsg msg.Content))) = _
    rw [scenario_blocks]
    rfl

/-- Witness of C15: the scenario with a summarizer answering "S". -/
theorem end_to_end_scenario_witness :
    triggers (scenarioMw (okSummarizer "S")) scenarioHistory [10, 10, 10, 10, 10, 10, 10, 10] ∧
      sumTokens [10, 10, 10, 10, 10, 10, 10, 10] = 80 ∧
      (mkBlocks 25 (scenarioHistory.zip [10, 10, 10, 10, 10, 10, 10, 10])).toolBlocks.map
          block.tokens = [30, 10, 10, 10] ∧
      (mkBlocks 25 (scenarioHistory.zip [10, 10, 10, 10, 10, 10, 10, 10])).recentBlocks
        = [⟨[some userMsg2], 10⟩, ⟨[some textMsg2], 10⟩] ∧
      (BeforeModel (scenarioMw (okSummarizer "S")) (some ⟨scenarioHistory⟩)).err = none ∧
      (BeforeModel (scenarioMw (okSummarizer "S")) (some ⟨scenarioHistory⟩)).state
        = some ⟨[some sysMsg, some userMsg, some (mkSummaryMsg "S"), some userMsg2,
            some textMsg2]⟩ :=
  end_to_end_scenario (okSummarizer "S") (AssistantMessage "S" []) rfl

/-! ## C24, C26, C28: what happens to the turn blocks and what the summarizer sees -/

/-- Every turn block goes to exactly one of the two sets: a list of flags, one per
block, says which. -/
theorem splitBlocks_mask (m : Int) (l : List block) :
    ∃ keep : List Bool, keep.length = l.length ∧
      (splitBlocks m l).recentBlocks = pickBlocks true l keep ∧
      (splitBlocks m l).olderBlocks = pickBlocks false l keep := by
  induction l with
  | nil => exact ⟨[], rfl, rfl, rfl⟩
  | cons b l ih =>
    obtain ⟨keep, hlen, hr, ho⟩ := ih
    rw [splitBlocks_cons]
    unfold splitStep
    split
    · refine ⟨false :: keep, by simp [hlen], ?_, ?_⟩
      · simp [pickBlocks, hr]
      · simp [pickBlocks, ho]
    · refine ⟨true :: keep, by simp [hlen], ?_, ?_⟩
      · simp [pickBlocks, hr]
      · simp [pickBlocks, ho]

theorem splitBlocks_msgs_perm (m : Int) (l : List block) :
    (blocksMsgs (splitBlocks m l).recentBlocks ++ blocksMsgs (splitBlocks m l).olderBlocks).Perm
      (blocksMsgs l) := by
  induction l with
  | nil => exact List.Perm.refl _
  | cons b l ih =>
    rw [splitBlocks_cons]
    unfold splitStep
    split
    · simp only [blocksMsgs]
      refine List.Perm.trans ?_ (List.Perm.append_left b.msgs ih)
      rw [← List.append_assoc, ← List.append_assoc]
      exact List.Perm.append_right _ List.perm_append_comm
    · simp only [blocksMsgs, List.append_assoc]
      exact List.Perm.append_left b.msgs ih

theorem blocksMsgs_append (a b : List block) :
    blocksMsgs (a ++ b) = blocksMsgs a ++ blocksMsgs b := by
  induction a with
  | nil => rfl
  | cons x xs ih => simp [blocksMsgs, ih]

theorem string_join_cons (a : String) (l : List String) :
    String.join (a :: l) = a ++ String.join l := by
  apply String.ext
  simp [String.data_join]

theorem joinMsgs_eq_renderAll (msgs : List Msg) : joinMsgs msgs = renderAll msgs := by
  induction msgs with
  | nil => rfl
  | cons x xs ih =>
    unfold renderAll at ih ⊢
    rw [joinMsgs, List.map_cons, string_join_cons, ih]

theorem joinMsgs_append (a b : List Msg) : joinMsgs (a ++ b) = joinMsgs a ++ joinMsgs b := by
  induction a with
  | nil => simp [joinMsgs]
  | cons x xs ih => simp [joinMsgs, ih, String.append_assoc]

theorem joinBlocks_eq (bs : List block) : joinBlocks bs = renderAll (blocksMsgs bs) := by
  rw [← joinMsgs_eq_renderAll]
  induction bs with
  | nil => rfl
  | cons b bs ih => rw [joinBlocks, blocksMsgs, joinMsgs_append, ih]

theorem joinBlocks_single (b : block) : joinBlocks [b] = renderAll b.msgs := by
  rw [joinBlocks_eq]
  simp [blocksMsgs]

theorem BeforeModel_summarizerCalls (s : summaryMiddleware) (st : ChatModelAgentState)
    (toks : List Int) (h : triggers s st.Messages toks) :
    (BeforeModel s (some st)).summarizerCalls
      = [summarizerInput (mkBlocks s.maxRecent (st.Messages.zip toks))] := by
  rw [BeforeModel_of_triggers s st toks h]
  cases s.summarizer (summarizerInput (mkBlocks s.maxRecent (st.Messages.zip toks))) <;> rfl

theorem summarizerInput_eq (p : Blocks) :
    summarizerInput p =
      [("system_prompt", renderAll p.systemBlock.msgs),
       ("user_messages", renderAll p.userBlock.msgs),
       ("previous_summary", renderAll p.summaryBlock.msgs),
       ("older_messages", renderAll (blocksMsgs p.olderBlocks)),
       ("recent_messages", renderAll (blocksMsgs p.recentBlocks))] := by
  unfold summarizerInput
  rw [joinBlocks_single, joinBlocks_single, joinBlocks_single, joinBlocks_eq, joinBlocks_eq]

/-- The members of the four kinds of blocks, in the order system, user, summary, turn
blocks, are a subsequence of the history. -/
theorem mkBlocks_msgs_sublist (m : Int) (msgs : List Msg) (toks : List Int)
    (hlen : msgs.length = toks.length) :
    ((mkBlocks m (msgs.zip toks)).systemBlock.msgs ++ (mkBlocks m (msgs.zip toks)).userBlock.msgs
        ++ (mkBlocks m (msgs.zip toks)).summaryBlock.msgs
        ++ blocksMsgs (mkBlocks m (msgs.zip toks)).toolBlocks).Sublist msgs := by
  rw [mkBlocks_msgs, List.map_fst_zip _ _ (le_of_eq hlen)]
  exact List.filter_sublist _

/-- C26 (summarizer input): for a history that triggers compaction the
summarizer is called exactly once, with the five keys `system_prompt`,
`user_messages`, `previous_summary`, `older_messages`, `recent_messages`, whose
values are the renderings (`renderMsg` of each message followed by a newline,
in order) of the system block, the user block, the summary block, the older
set and the recent set; the messages of the two sets are in their original
order. -/
theorem summarizer_input (s : summaryMiddleware) (st : ChatModelAgentState)
    (toks : List Int) (h : triggers s st.Messages toks) :
    (BeforeModel s (some st)).summarizerCalls =
        [[("system_prompt",
            renderAll (mkBlocks s.maxRecent (st.Messages.zip toks)).systemBlock.msgs),
          ("user_messages",
            renderAll (mkBlocks s.maxRecent (st.Messages.zip toks)).userBlock.msgs),
          ("previous_summary",
            renderAll (mkBlocks s.maxRecent (st.Messages.zip toks)).summaryBlock.msgs),
          ("older_messages",
            renderAll (blocksMsgs (mkBlocks s.maxRecent (st.Messages.zip toks)).olderBlocks)),
          ("recent_messages",
            renderAll (blocksMsgs (mkBlocks s.maxRecent (st.Messages.zip toks)).recentBlocks))]] ∧
      (blocksMsgs (mkBlocks s.maxRecent (st.Messages.zip toks)).olderBlocks).Sublist
        st.Messages ∧
      (blocksMsgs (mkBlocks s.maxRecent (st.Messages.zip toks)).recentBlocks).Sublist
        st.Messages := by
  have hparts := mkBlocks_msgs_sublist s.maxRecent st.Messages toks h.2.2.1
  have htool : (blocksMsgs (mkBlocks s.maxRecent (st.Messages.zip toks)).toolBlocks).Sublist
      st.Messages := (List.sublist_append_right _ _).trans hparts
  refine ⟨?_, ?_, ?_⟩
  · rw [BeforeModel_summarizerCalls s st toks h, summarizerInput_eq]
  · rw [mkBlocks_older]
    exact (blocksMsgs_sublist (splitBlocks_older_sublist _ _)).trans htool
  · rw [mkBlocks_recent]
    exact (blocksMsgs_sublist (splitBlocks_recent_sublist _ _)).trans htool

/-- Witness of C26: [System, User, earlier summary, three assistant messages] with 10
tokens each, `maxBefore = 20`, `maxRecent = 25`. -/
theorem summarizer_input_witness :
    (BeforeModel (demoMw (okSummarizer "S"))
        (some ⟨[some sysMsg, some userMsg, some oldSummary, some msgOne, some msgTwo,
          some msgThree]⟩)).summarizerCalls =
      [[("system_prompt", "[system]\nbe brief\n\n"),
        ("user_messages", "[user]\nhi\n\n"),
        ("previous_summary", "[assistant]\nearlier\n\n"),
        ("older_messages", "[assistant]\none\n\n"),
        ("recent_messages", "[assistant]\ntwo\n\n[assistant]\nthree\n\n")]] :=
  (summarizer_input (demoMw (okSummarizer "S"))
    ⟨[some sysMsg, some userMsg, some oldSummary, some msgOne, some msgTwo, some msgThree]⟩
    [10, 10, 10, 10, 10, 10] ⟨by simp, rfl, rfl, by decide⟩).1.trans (by decide)

theorem blocksMsgs_of_mem {b : block} {bs : List block} (hb : b ∈ bs) :
    ∃ pre post, blocksMsgs bs = pre ++ b.msgs ++ post := by
  obtain ⟨l1, l2, rfl⟩ := List.append_of_mem hb
  exact ⟨blocksMsgs l1, blocksMsgs l2, by simp [blocksMsgs_append, blocksMsgs]⟩

/-- C24 (blocks move together): after a successful compaction there is one flag
per turn block; the flagged blocks are the recent set and the others the
older set; the new history ends with the messages of the flagged blocks and
of no other turn block; so every recent block is in the output with all its
messages, contiguous and in order, and in particular a kept Assistant
tool-call message is directly followed by the Tool messages of its block. -/
theorem blocks_move_together (s : summaryMiddleware) (st : ChatModelAgentState)
    (toks : List Int) (msg : Message) (h : triggers s st.Messages toks)
    (hs : s.summarizer (summarizerInput (mkBlocks s.maxRecent (st.Messages.zip toks))) = .ok msg) :
    ∃ (keep : List Bool) (out : List Msg),
      keep.length = (mkBlocks s.maxRecent (st.Messages.zip toks)).toolBlocks.length ∧
      (mkBlocks s.maxRecent (st.Messages.zip toks)).recentBlocks
        = pickBlocks true (mkBlocks s.maxRecent (st.Messages.zip toks)).toolBlocks keep ∧
      (mkBlocks s.maxRecent (st.Messages.zip toks)).olderBlocks
        = pickBlocks false (mkBlocks s.maxRecent (st.Messages.zip toks)).toolBlocks keep ∧
      (BeforeModel s (some st)).state = some ⟨out⟩ ∧
      out = (mkBlocks s.maxRecent (st.Messages.zip toks)).systemBlock.msgs
          ++ (mkBlocks s.maxRecent (st.Messages.zip toks)).userBlock.msgs
          ++ [some (mkSummaryMsg msg.Content)]
          ++ blocksMsgs (pickBlocks true
              (mkBlocks s.maxRecent (st.Messages.zip toks)).toolBlocks keep) ∧
      (∀ b ∈ pickBlocks true (mkBlocks s.maxRecent (st.Messages.zip toks)).toolBlocks keep,
        ∃ pre post, out = pre ++ b.msgs ++ post) ∧
      (∀ b ∈ pickBlocks true (mkBlocks s.maxRecent (st.Messages.zip toks)).toolBlocks keep,
        ∀ (m : Message) (tools : List Msg), b.msgs = some m :: tools →
          ∃ pre post, out = pre ++ some m :: (tools ++ post)) := by
  obtain ⟨keep, hlen, hr, ho⟩ := splitBlocks_mask s.maxRecent
    (mkBlocks s.maxRecent (st.Messages.zip toks)).toolBlocks
  rw [← mkBlocks_recent] at hr
  rw [← mkBlocks_older] at ho
  have hblock : ∀ b ∈ pickBlocks true (mkBlocks s.maxRecent (st.Messages.zip toks)).toolBlocks
      keep, ∃ pre post,
        (mkBlocks s.maxRecent (st.Messages.zip toks)).systemBlock.msgs
          ++ (mkBlocks s.maxRecent (st.Messages.zip toks)).userBlock.msgs
          ++ [some (mkSummaryMsg msg.Content)]
          ++ blocksMsgs (pickBlocks true
              (mkBlocks s.maxRecent (st.Messages.zip toks)).toolBlocks keep)
        = pre ++ b.msgs ++ post := by
    intro b hb
    obtain ⟨pre, post, hpp⟩ := blocksMsgs_of_mem hb
    refine ⟨(mkBlocks s.maxRecent (st.Messages.zip toks)).systemBlock.msgs
      ++ (mkBlocks s.maxRecent (st.Messages.zip toks)).userBlock.msgs
      ++ [some (mkSummaryMsg msg.Content)] ++ pre, post, ?_⟩
    rw [hpp]
    simp only [List.append_assoc]
  refine ⟨keep, _, hlen, hr, ho, ?_, rfl, hblock, ?_⟩
  · rw [BeforeModel_of_triggers s st toks h, hs]
    simp only [newMessages, hr]
  · intro b hb m tools hmsgs
    obtain ⟨pre, post, hpp⟩ := hblock b hb
    refine ⟨pre, post, ?_⟩
    rw [hpp, hmsgs]
    simp

/-- Witness of C24: [User, tool-call message, Tool(a), Tool(b), Assistant, Assistant] with
10 tokens each, `maxBefore = 20` and `maxRecent = 25`: the block of the tool-call message
costs 30 and is left out whole, the two assistant messages are kept. -/
theorem blocks_move_together_witness :
    ∃ (keep : List Bool) (out : List Msg),
      keep.length = (mkBlocks 25 ([some userMsg, some callMsg, some toolA, some toolB,
          some msgOne, some msgTwo].zip [10, 10, 10, 10, 10, 10])).toolBlocks.length ∧
      (mkBlocks 25 ([some userMsg, some callMsg, some toolA, some toolB,
          some msgOne, some msgTwo].zip [10, 10, 10, 10, 10, 10])).recentBlocks
        = pickBlocks true (mkBlocks 25 ([some userMsg, some callMsg, some toolA, some toolB,
          some msgOne, some msgTwo].zip [10, 10, 10, 10, 10, 10])).toolBlocks keep ∧
      (mkBlocks 25 ([some userMsg, some callMsg, some toolA, some toolB,
          some msgOne, some msgTwo].zip [10, 10, 10, 10, 10, 10])).olderBlocks
        = pickBlocks false (mkBlocks 25 ([some userMsg, some callMsg, some toolA, some toolB,
          some msgOne, some msgTwo].zip [10, 10, 10, 10, 10, 10])).toolBlocks keep ∧
      (BeforeModel (demoMw (okSummarizer "S")) (some ⟨[some userMsg, some callMsg, some toolA,
          some toolB, some msgOne, some msgTwo]⟩)).state = some ⟨out⟩ ∧
      out = (mkBlocks 25 ([some userMsg, some callMsg, some toolA, some toolB,
            some msgOne, some msgTwo].zip [10, 10, 10, 10, 10, 10])).systemBlock.msgs
          ++ (mkBlocks 25 ([some userMsg, some callMsg, some toolA, some toolB,
            some msgOne, some msgTwo].zip [10, 10, 10, 10, 10, 10])).userBlock.msgs
          ++ [some (mkSummaryMsg "S")]
          ++ blocksMsgs (pickBlocks true (mkBlocks 25 ([some userMsg, some callMsg, some toolA,
            some toolB, some msgOne, some msgTwo].zip
            [10, 10, 10, 10, 10, 10])).toolBlocks keep) ∧
      (∀ b ∈ pickBlocks true (mkBlocks 25 ([some userMsg, some callMsg, some toolA, some toolB,
          some msgOne, some msgTwo].zip [10, 10, 10, 10, 10, 10])).toolBlocks keep,
        ∃ pre post, out = pre ++ b.msgs ++ post) ∧
      (∀ b ∈ pickBlocks true (mkBlocks 25 ([some userMsg, some callMsg, some toolA, some toolB,
          some msgOne, some msgTwo].zip [10, 10, 10, 10, 10, 10])).toolBlocks keep,
        ∀ (m : Message) (tools : List Msg), b.msgs = some m :: tools →
          ∃ pre post, out = pre ++ some m :: (tools ++ post)) :=
  blocks_move_together (demoMw (okSummarizer "S"))
    ⟨[some userMsg, some callMsg, some toolA, some toolB, some msgOne, some msgTwo]⟩
    [10, 10, 10, 10, 10, 10] (AssistantMessage "S" []) ⟨by simp, rfl, rfl, by decide⟩ rfl

/-- C28 (no message is silently lost): for a history of non-nil messages that
triggers compaction, every turn block is in exactly one of the recent set and
the older set; the input messages are, up to order, the messages of the
system block, the user block and the recent set (all written to the output)
together with those of the summary block and the older set (rendered into
`previous_summary` and `older_messages` of the one summarizer call). -/
theorem no_message_lost (s : summaryMiddleware) (st : ChatModelAgentState)
    (toks : List Int) (h : triggers s st.Messages toks) (hnn : ∀ x ∈ st.Messages, x ≠ none) :
    (∃ keep : List Bool,
      keep.length = (mkBlocks s.maxRecent (st.Messages.zip toks)).toolBlocks.length ∧
      (mkBlocks s.maxRecent (st.Messages.zip toks)).recentBlocks
        = pickBlocks true (mkBlocks s.maxRecent (st.Messages.zip toks)).toolBlocks keep ∧
      (mkBlocks s.maxRecent (st.Messages.zip toks)).olderBlocks
        = pickBlocks false (mkBlocks s.maxRecent (st.Messages.zip toks)).toolBlocks keep) ∧
    st.Messages.Perm
      (((mkBlocks s.maxRecent (st.Messages.zip toks)).systemBlock.msgs
          ++ (mkBlocks s.maxRecent (st.Messages.zip toks)).userBlock.msgs
          ++ blocksMsgs (mkBlocks s.maxRecent (st.Messages.zip toks)).recentBlocks)
        ++ ((mkBlocks s.maxRecent (st.Messages.zip toks)).summaryBlock.msgs
          ++ blocksMsgs (mkBlocks s.maxRecent (st.Messages.zip toks)).olderBlocks)) ∧
    (∀ summaryMsg : Message,
      ((mkBlocks s.maxRecent (st.Messages.zip toks)).systemBlock.msgs
          ++ (mkBlocks s.maxRecent (st.Messages.zip toks)).userBlock.msgs
          ++ blocksMsgs (mkBlocks s.maxRecent (st.Messages.zip toks)).recentBlocks).Sublist
        (newMessages (mkBlocks s.maxRecent (st.Messages.zip toks)) summaryMsg)) ∧
    (BeforeModel s (some st)).summarizerCalls
      = [summarizerInput (mkBlocks s.maxRecent (st.Messages.zip toks))] ∧
    ("previous_summary",
        renderAll (mkBlocks s.maxRecent (st.Messages.zip toks)).summaryBlock.msgs)
      ∈ summarizerInput (mkBlocks s.maxRecent (st.Messages.zip toks)) ∧
    ("older_messages",
        renderAll (blocksMsgs (mkBlocks s.maxRecent (st.Messages.zip toks)).olderBlocks))
      ∈ summarizerInput (mkBlocks s.maxRecent (st.Messages.zip toks)) := by
  refine ⟨?_, ?_, ?_, BeforeModel_summarizerCalls s st toks h, ?_, ?_⟩
  · obtain ⟨keep, hlen, hr, ho⟩ := splitBlocks_mask s.maxRecent
      (mkBlocks s.maxRecent (st.Messages.zip toks)).toolBlocks
    exact ⟨keep, hlen, hr, ho⟩
  · have hall : (mkBlocks s.maxRecent (st.Messages.zip toks)).systemBlock.msgs
          ++ (mkBlocks s.maxRecent (st.Messages.zip toks)).userBlock.msgs
          ++ (mkBlocks s.maxRecent (st.Messages.zip toks)).summaryBlock.msgs
          ++ blocksMsgs (mkBlocks s.maxRecent (st.Messages.zip toks)).toolBlocks
        = st.Messages := by
      rw [mkBlocks_msgs, List.map_fst_zip _ _ (le_of_eq h.2.2.1), List.filter_eq_self]
      intro x hx
      cases x with
      | none => exact absurd rfl (hnn none hx)
      | some _ => rfl
    have hperm := splitBlocks_msgs_perm s.maxRecent
      (mkBlocks s.maxRecent (st.Messages.zip toks)).toolBlocks
    rw [← mkBlocks_recent, ← mkBlocks_older] at hperm
    conv_lhs => rw [← hall]
    simp only [List.append_assoc]
    refine List.Perm.append_left _ (List.Perm.append_left _ ?_)
    refine List.Perm.trans (List.Perm.append_left _ hperm.symm) ?_
    exact List.perm_append_comm_assoc _ _ _
  · intro summaryMsg
    unfold newMessages
    simp only [List.append_assoc]
    refine List.Sublist.append (List.Sublist.refl _) (List.Sublist.append (List.Sublist.refl _) ?_)
    exact List.sublist_append_right _ _
  · rw [summarizerInput_eq]
    simp
  · rw [summarizerInput_eq]
    simp

/-- Witness of C28: [System, User, earlier summary, three assistant messages] with 10
tokens each; the earlier summary and the oldest assistant message go to the summarizer. -/
theorem no_message_lost_witness :
    [some sysMsg, some userMsg, some oldSummary, some msgOne, some msgTwo, some msgThree].Perm
      (((mkBlocks 25 ([some sysMsg, some userMsg, some oldSummary, some msgOne, some msgTwo,
            some msgThree].zip [10, 10, 10, 10, 10, 10])).systemBlock.msgs
          ++ (mkBlocks 25 ([some sysMsg, some userMsg, some oldSummary, some msgOne, some msgTwo,
            some msgThree].zip [10, 10, 10, 10, 10, 10])).userBlock.msgs
          ++ blocksMsgs (mkBlocks 25 ([some sysMsg, some userMsg, some oldSummary, some msgOne,
            some msgTwo, some msgThree].zip [10, 10, 10, 10, 10, 10])).recentBlocks)
        ++ ((mkBlocks 25 ([some sysMsg, some userMsg, some oldSummary, some msgOne, some msgTwo,
            some msgThree].zip [10, 10, 10, 10, 10, 10])).summaryBlock.msgs
          ++ blocksMsgs (mkBlocks 25 ([some sysMsg, some userMsg, some oldSummary, some msgOne,
            some msgTwo, some msgThree].zip [10, 10, 10, 10, 10, 10])).olderBlocks)) :=
  (no_message_lost (demoMw (okSummarizer "S"))
    ⟨[some sysMsg, some userMsg, some oldSummary, some msgOne, some msgTwo, some msgThree]⟩
    [10, 10, 10, 10, 10, 10] ⟨by simp, rfl, rfl, by decide⟩ (by simp)).2.1

/-! ## C25: the rendering of one message -/

/-- C25, counterexample: an Assistant message whose tool call has the name "f"
and empty arguments is rendered as the role tag and the `tool_call:` line
only; there is no `args:` line for the call. -/
theorem canonical_rendering_counterexample :
    renderMsg (some bareCallMsg) = "[assistant]\ntool_call: f\n" ∧
      renderClaimed bareCallMsg = "[assistant]\ntool_call: f\nargs: \n" ∧
      renderMsg (some bareCallMsg) ≠ renderClaimed bareCallMsg := by
  refine ⟨by decide, by decide, by decide⟩

theorem renderToolCalls_eq (tcs : List ToolCall) :
    renderToolCalls tcs = String.join (tcs.map (fun tc =>
      (if tc.Function.Name ≠ "" then "tool_call: " ++ tc.Function.Name ++ "\n" else "")
        ++ (if tc.Function.Arguments ≠ "" then "args: " ++ tc.Function.Arguments ++ "\n"
            else ""))) := by
  induction tcs with
  | nil => rfl
  | cons tc rest ih => rw [renderToolCalls, List.map_cons, string_join_cons, ih]

theorem renderInputParts_eq (ps : List MessageInputPart) :
    renderInputParts ps = String.join ((ps.filter
      (fun p => decide (p.Type_ = ChatMessagePartTypeText ∧ p.Text ≠ ""))).map
        (fun p => p.Text ++ "\n")) := by
  induction ps with
  | nil => rfl
  | cons p rest ih =>
    rw [renderInputParts, ih]
    by_cases hp : p.Type_ = ChatMessagePartTypeText ∧ p.Text ≠ ""
    · rw [if_pos hp, List.filter_cons_of_pos (by simpa using hp), List.map_cons,
        string_join_cons]
    · rw [if_neg hp, List.filter_cons_of_neg (by simpa using hp), String.empty_append]

theorem renderOutputParts_eq (ps : List MessageOutputPart) :
    renderOutputParts ps = String.join ((ps.filter
      (fun p => decide (p.Type_ = ChatMessagePartTypeText ∧ p.Text ≠ ""))).map
        (fun p => p.Text ++ "\n")) := by
  induction ps with
  | nil => rfl
  | cons p rest ih =>
    rw [renderOutputParts, ih]
    by_cases hp : p.Type_ = ChatMessagePartTypeText ∧ p.Text ≠ ""
    · rw [if_pos hp, List.filter_cons_of_pos (by simpa using hp), List.map_cons,
        string_join_cons]
    · rw [if_neg hp, List.filter_cons_of_neg (by simpa using hp), String.empty_append]

/-- C25, amended: for every non-nil message `renderMsg` returns the role tag
line (`[<role>]`, or `[tool:<name>]` / `[tool]` for a Tool message), then the
content followed by a newline when it is not empty, then for an Assistant
message, per tool call in call order, a `tool_call: <name>` line when the name
is not empty and an `args: <arguments>` line when the arguments are not empty,
then each non-empty text part of the multimodal content followed by a
newline; and `renderMsg` of a nil message is the empty string. -/
theorem canonical_rendering (m : Message) :
    renderMsg (some m) = renderCanonical m ∧ renderMsg none = "" := by
  refine ⟨?_, rfl⟩
  rw [renderMsg]
  unfold renderCanonical roleTagLine contentLine textPartLines
  rw [renderInputParts_eq, renderOutputParts_eq, renderToolCalls_eq]
  have hcalls : (if m.Role = Assistant ∧ m.ToolCalls.length > 0 then
        String.join (m.ToolCalls.map (fun tc =>
          (if tc.Function.Name ≠ "" then "tool_call: " ++ tc.Function.Name ++ "\n" else "")
            ++ (if tc.Function.Arguments ≠ "" then "args: " ++ tc.Function.Arguments ++ "\n"
                else "")))
      else "")
      = (if m.Role = Assistant then
        String.join (m.ToolCalls.map (fun tc =>
          (if tc.Function.Name ≠ "" then "tool_call: " ++ tc.Function.Name ++ "\n" else "")
            ++ (if tc.Function.Arguments ≠ "" then "args: " ++ tc.Function.Arguments ++ "\n"
                else "")))
      else "") := by
    by_cases hr : m.Role = Assistant
    · cases hcs : m.ToolCalls with
      | nil => simp [hr]; rfl
      | cons tc rest => simp [hr]
    · simp [hr]
  rw [hcalls]
  simp only [String.append_assoc]

end Summarization

namespace strings

/-! ## Trimming and searching -/

theorem dropWhile_append_stop {α : Type} (p : α → Bool) (a b : List α) (x : α)
    (hx : p x = false) : (a ++ x :: b).dropWhile p = a.dropWhile p ++ x :: b := by
  induction a with
  | nil => simp [List.dropWhile_cons, hx]
  | cons y ys ih =>
    by_cases hy : p y = true
    · simp [List.dropWhile_cons, hy, ih]
    · simp [List.dropWhile_cons, hy]

/-- Trimming a text whose core starts and ends with characters that are not
white space leaves the core in place and only shortens what surrounds it. -/
theorem TrimSpace_around (pre core post rest init : List Char) (x y : Char)
    (hhead : core = x :: rest) (hlast : core = init ++ [y])
    (hx : isSpace x = false) (hy : isSpace y = false) :
    ∃ pre2 post2, TrimSpace (pre ++ core ++ post) = pre2 ++ core ++ post2 ∧
      pre2 <:+ pre ∧ post2 <+: post := by
  refine ⟨pre.dropWhile isSpace, (post.reverse.dropWhile isSpace).reverse, ?_, ?_, ?_⟩
  · unfold TrimSpace
    have h1 : (pre ++ core ++ post).dropWhile isSpace
        = pre.dropWhile isSpace ++ core ++ post := by
      rw [hhead, List.append_assoc, List.cons_append, dropWhile_append_stop isSpace _ _ x hx]
      simp
    rw [h1]
    have h2 : (pre.dropWhile isSpace ++ core ++ post).reverse
        = post.reverse ++ y :: (init.reverse ++ (pre.dropWhile isSpace).reverse) := by
      rw [hlast]
      simp
    rw [h2, dropWhile_append_stop isSpace _ _ y hy]
    rw [hlast]
    simp
  · exact List.dropWhile_suffix _
  · rw [← List.reverse_suffix, List.reverse_reverse]
    exact List.dropWhile_suffix _

theorem TrimSpace_self (core rest init : List Char) (x y : Char)
    (hhead : core = x :: rest) (hlast : core = init ++ [y])
    (hx : isSpace x = false) (hy : isSpace y = false) : TrimSpace core = core := by
  unfold TrimSpace
  have h1 : core.dropWhile isSpace = core := by
    rw [hhead]
    simp [List.dropWhile_cons, hx]
  rw [h1]
  have h2 : core.reverse = y :: init.reverse := by
    rw [hlast]
    simp
  rw [h2, List.dropWhile_cons]
  simp only [hy, Bool.false_eq_true, if_false]
  rw [← h2, List.reverse_reverse]

theorem IndexByte_first (pre rest : List Char) (c : Char) (hpre : c ∉ pre) :
    IndexByte (pre ++ c :: rest) c = (pre.length : Int) := by
  unfold IndexByte
  have hmem : c ∈ pre ++ c :: rest := by simp
  rw [if_pos hmem, List.indexOf_append_of_not_mem hpre, List.indexOf_cons_self]
  simp

theorem LastIndexByte_last (init post : List Char) (c : Char) (hpost : c ∉ post) :
    LastIndexByte (init ++ c :: post) c = (init.length : Int) := by
  unfold LastIndexByte
  have hmem : c ∈ init ++ c :: post := by simp
  have hrev : (init ++ c :: post).reverse = post.reverse ++ c :: init.reverse := by simp
  have hnot : c ∉ post.reverse := by simpa using hpost
  rw [if_pos hmem, hrev, List.indexOf_append_of_not_mem hnot, List.indexOf_cons_self]
  simp only [List.length_append, List.length_cons, List.length_reverse, add_zero]
  congr 1
  omega

theorem slice_middle {α : Type} (pre mid post : List α) :
    slice (pre ++ mid ++ post) (pre.length : Int) ((pre.length + mid.length : Nat) : Int)
      = mid := by
  unfold slice
  have h1 : ((pre.length : Int)).toNat = pre.length := Int.toNat_natCast _
  have h2 : (((pre.length + mid.length : Nat) : Int)).toNat = pre.length + mid.length :=
    Int.toNat_natCast _
  rw [h1, h2, List.append_assoc, List.drop_left, Nat.add_sub_cancel_left, List.take_left]

theorem HasPrefix_singleton (s : List Char) (c : Char) :
    HasPrefix s [c] = true ↔ ∃ t, s = c :: t := by
  unfold HasPrefix
  rw [List.isPrefixOf_iff_prefix]
  constructor
  · rintro ⟨t, ht⟩
    exact ⟨t, ht.symm⟩
  · rintro ⟨t, ht⟩
    exact ⟨t, ht.symm⟩

theorem HasSuffix_singleton (s : List Char) (c : Char) :
    HasSuffix s [c] = true ↔ ∃ t, s = t ++ [c] := by
  unfold HasSuffix
  rw [List.isSuffixOf_iff_suffix]
  constructor
  · rintro ⟨t, ht⟩
    exact ⟨t, ht.symm⟩
  · rintro ⟨t, ht⟩
    exact ⟨t, ht.symm⟩

end strings

namespace jsonfix

open strings

/-! ## C16 and C17: what `repair` returns on texts that hold a valid object -/

theorem lbrace_toList : "\x7b".toList = ['\x7b'] := rfl

theorem rbrace_toList : "\x7d".toList = ['\x7d'] := rfl

theorem repairTrimmed_fast (valid : List Char → Bool)
    (JSONRepair : List Char → Except String (List Char)) (s : List Char)
    (hp : HasPrefix s ['\x7b'] = true) (hs : HasSuffix s ['\x7d'] = true)
    (hv : valid s = true) : repairTrimmed valid JSONRepair s = s := by
  unfold repairTrimmed
  simp [lbrace_toList, rbrace_toList, hp, hs, hv]

/-- On a text made of a valid object between a left part without an opening
brace and a right part without a closing brace, lines 78-91 return the object. -/
theorem repairTrimmed_isolates (valid : List Char → Bool)
    (JSONRepair : List Char → Except String (List Char)) (pre obj post rest init : List Char)
    (hhead : obj = '\x7b' :: rest) (hlast : obj = init ++ ['\x7d'])
    (hvalid : valid obj = true) (hpre : '\x7b' ∉ pre) (hpost : '\x7d' ∉ post) :
    repairTrimmed valid JSONRepair (pre ++ obj ++ post) = obj := by
  by_cases hfast : HasPrefix (pre ++ obj ++ post) ['\x7b'] = true ∧
      HasSuffix (pre ++ obj ++ post) ['\x7d'] = true ∧ valid (pre ++ obj ++ post) = true
  · obtain ⟨hp, hs, hv⟩ := hfast
    rw [repairTrimmed_fast valid JSONRepair _ hp hs hv]
    obtain ⟨t, ht⟩ := (HasPrefix_singleton _ _).mp hp
    obtain ⟨u, hu⟩ := (HasSuffix_singleton _ _).mp hs
    have hpre0 : pre = [] := by
      cases pre with
      | nil => rfl
      | cons p ps =>
        simp only [List.cons_append, List.cons.injEq] at ht
        exact absurd (ht.1 ▸ List.mem_cons_self p ps) hpre
    have hpost0 : post = [] := by
      rcases List.eq_nil_or_concat post with h | ⟨q, z, h⟩
      · exact h
      · rw [h, List.concat_eq_append, ← List.append_assoc] at hu
        have := List.append_inj_right' hu rfl
        simp only [List.cons.injEq, and_true] at this
        rw [h, List.concat_eq_append] at hpost
        exact absurd (by simp [this]) hpost
    rw [hpre0, hpost0]
    simp
  · have hi : IndexByte (pre ++ obj ++ post) '\x7b' = (pre.length : Int) := by
      rw [hhead, List.append_assoc, List.cons_append]
      exact IndexByte_first pre _ _ hpre
    have hj : LastIndexByte (pre ++ obj ++ post) '\x7d' = ((pre.length + init.length : Nat) : Int) := by
      rw [hlast, ← List.append_assoc, List.append_assoc (pre ++ init), List.singleton_append,
        LastIndexByte_last (pre ++ init) post _ hpost, List.length_append]
    have hlen : obj.length = init.length + 1 := by rw [hlast]; simp
    have hslice : slice (pre ++ obj ++ post) (pre.length : Int)
        (((pre.length + init.length : Nat) : Int) + 1) = obj := by
      have := slice_middle pre obj post
      rw [hlen] at this
      have hc : ((pre.length + (init.length + 1) : Nat) : Int)
          = ((pre.length + init.length : Nat) : Int) + 1 := by push_cast; ring
      rw [hc] at this
      exact this
    unfold repairTrimmed
    have hfast2 : (HasPrefix (pre ++ obj ++ post) "\x7b".toList
        && HasSuffix (pre ++ obj ++ post) "\x7d".toList && valid (pre ++ obj ++ post)) = false := by
      rw [lbrace_toList, rbrace_toList]
      cases h1 : HasPrefix (pre ++ obj ++ post) ['\x7b'] <;>
        cases h2 : HasSuffix (pre ++ obj ++ post) ['\x7d'] <;>
        cases h3 : valid (pre ++ obj ++ post) <;> simp_all
    have hge : (pre.length : Int) ≥ 0 ∧
        ((pre.length + init.length : Nat) : Int) ≥ (pre.length : Int) ∧
        valid (slice (pre ++ obj ++ post) (pre.length : Int)
          (((pre.length + init.length : Nat) : Int) + 1)) = true := by
      refine ⟨Int.ofNat_zero_le _, ?_, ?_⟩
      · push_cast
        omega
      · rw [hslice]; exact hvalid
    simp only [hfast2, Bool.false_eq_true, if_false, hi, hj]
    rw [if_pos hge, hslice]

/-- C17 (jsonfix strips surrounding noise): for every input `pre ++ obj ++ post`
where `obj` begins with an opening brace, ends with a closing brace and is
valid JSON, `pre` holds no opening brace and `post` holds no closing brace,
`repair` returns exactly `obj`, whatever the validity check says about other
texts and whatever the repair library would do. -/
theorem repair_strips_noise (valid : List Char → Bool)
    (JSONRepair : List Char → Except String (List Char)) (pre obj post rest init : List Char)
    (hhead : obj = '\x7b' :: rest) (hlast : obj = init ++ ['\x7d'])
    (hvalid : valid obj = true) (hpre : '\x7b' ∉ pre) (hpost : '\x7d' ∉ post) :
    repair valid JSONRepair (pre ++ obj ++ post) = obj := by
  obtain ⟨pre2, post2, htrim, hsuf, hpost2⟩ :=
    TrimSpace_around pre obj post rest init '\x7b' '\x7d' hhead hlast (by decide) (by decide)
  unfold repair
  rw [htrim]
  exact repairTrimmed_isolates valid JSONRepair pre2 obj post2 rest init hhead hlast hvalid
    (fun h => hpre (hsuf.subset h)) (fun h => hpost (hpost2.subset h))

/-- Witness of C17: the arguments of the repair test; the object between the two markers
is returned. -/
theorem repair_strips_noise_witness :
    repair json.Valid noRepair
        ("noise <|FunctionCallBegin|>".toList ++ "\x7b\"a\":1\x7d".toList
          ++ "<|FunctionCallEnd|> more".toList)
      = "\x7b\"a\":1\x7d".toList :=
  repair_strips_noise json.Valid noRepair "noise <|FunctionCallBegin|>".toList
    "\x7b\"a\":1\x7d".toList "<|FunctionCallEnd|> more".toList "\"a\":1\x7d".toList
    "\x7b\"a\":1".toList rfl rfl (by decide) (by decide) (by decide)

end jsonfix

namespace jsonfix

open strings

/-- C16, evaluated on the code: the arguments `[{"a":1}]` are valid JSON, and
`repair` returns `{"a":1}` for them, whatever the repair library would do.  The
text does not begin with an opening brace, so the fast path of lines 76-80 is
not taken, and lines 83-89 return the region from the first opening brace to
the last closing brace.  The `Invokable` and `Streamable` wrappers hand that
other text to the next endpoint.  Likewise a valid object with a leading blank
comes back without the blank. -/
theorem valid_array_rewritten (JSONRepair : List Char → Except String (List Char)) :
    json.Valid "[\x7b\"a\":1\x7d]".toList = true ∧
    repair json.Valid JSONRepair "[\x7b\"a\":1\x7d]".toList = "\x7b\"a\":1\x7d".toList ∧
    repair json.Valid JSONRepair "[\x7b\"a\":1\x7d]".toList ≠ "[\x7b\"a\":1\x7d]".toList ∧
    Invokable json.Valid JSONRepair echoEndpoint
        ⟨"t".toList, "[\x7b\"a\":1\x7d]".toList, "id1".toList⟩ = "\x7b\"a\":1\x7d".toList ∧
    Streamable json.Valid JSONRepair echoEndpoint
        ⟨"t".toList, "[\x7b\"a\":1\x7d]".toList, "id1".toList⟩ = "\x7b\"a\":1\x7d".toList ∧
    json.Valid " \x7b\"a\":1\x7d".toList = true ∧
    repair json.Valid JSONRepair " \x7b\"a\":1\x7d".toList = "\x7b\"a\":1\x7d".toList ∧
    repair json.Valid JSONRepair " \x7b\"a\":1\x7d".toList ≠ " \x7b\"a\":1\x7d".toList := by
  have harr : repair json.Valid JSONRepair "[\x7b\"a\":1\x7d]".toList
      = "\x7b\"a\":1\x7d".toList := by
    unfold repair
    rw [show TrimSpace "[\x7b\"a\":1\x7d]".toList
      = ['['] ++ "\x7b\"a\":1\x7d".toList ++ [']'] from by decide]
    exact repairTrimmed_isolates json.Valid JSONRepair ['['] "\x7b\"a\":1\x7d".toList [']']
      "\"a\":1\x7d".toList "\x7b\"a\":1".toList rfl rfl (by decide) (by decide) (by decide)
  have hobj : repair json.Valid JSONRepair " \x7b\"a\":1\x7d".toList
      = "\x7b\"a\":1\x7d".toList := by
    unfold repair
    rw [show TrimSpace " \x7b\"a\":1\x7d".toList = "\x7b\"a\":1\x7d".toList from by decide]
    exact repairTrimmed_fast json.Valid JSONRepair _ (by decide) (by decide) (by decide)
  refine ⟨by decide, harr, ?_, harr, harr, by decide, hobj, ?_⟩
  · rw [harr]; decide
  · rw [hobj]; decide

/-- Where the fast path does apply: for every arguments string whose
white-space-trimmed text begins with an opening brace, ends with a closing
brace and is valid JSON, `repair` returns that trimmed text, and the
`Invokable` and `Streamable` wrappers hand it to the next endpoint; an
arguments string that is itself such an object text, with no white space
around it, is passed on unchanged. -/
theorem repair_keeps_valid_object (valid : List Char → Bool)
    (JSONRepair : List Char → Except String (List Char)) (input : List Char)
    (hp : HasPrefix (TrimSpace input) ['\x7b'] = true)
    (hs : HasSuffix (TrimSpace input) ['\x7d'] = true)
    (hv : valid (TrimSpace input) = true) :
    repair valid JSONRepair input = TrimSpace input ∧
      (∀ (name callID : List Char), Invokable valid JSONRepair echoEndpoint
        ⟨name, input, callID⟩ = TrimSpace input) ∧
      (∀ (name callID : List Char), Streamable valid JSONRepair echoEndpoint
        ⟨name, input, callID⟩ = TrimSpace input) ∧
      (HasPrefix input ['\x7b'] = true → HasSuffix input ['\x7d'] = true →
        repair valid JSONRepair input = input) := by
  have hr : repair valid JSONRepair input = TrimSpace input :=
    repairTrimmed_fast valid JSONRepair _ hp hs hv
  refine ⟨hr, fun _ _ => hr, fun _ _ => hr, ?_⟩
  intro hp2 hs2
  obtain ⟨t, ht⟩ := (HasPrefix_singleton _ _).mp hp2
  obtain ⟨u, hu⟩ := (HasSuffix_singleton _ _).mp hs2
  rw [hr]
  exact TrimSpace_self input t u '\x7b' '\x7d' ht hu (by decide) (by decide)

/-- The arguments of the no-change test are returned as they are. -/
theorem repair_no_change_test :
    repair json.Valid noRepair "\x7b\"a\":1\x7d".toList = "\x7b\"a\":1\x7d".toList :=
  (repair_keeps_valid_object json.Valid noRepair "\x7b\"a\":1\x7d".toList
    (by decide) (by decide) (by decide)).2.2.2 (by decide) (by decide)

end jsonfix

namespace tools

open strings

/-! ## C18 and C19: what `ConvertMermaidToImageURL` writes -/

theorem Split_ne_nil {α : Type} [DecidableEq α] (sep : α) (s : List α) : Split sep s ≠ [] := by
  cases s with
  | nil => simp [Split]
  | cons c cs =>
    unfold Split
    split
    · simp
    · split <;> simp

/-- Splitting a text at the newlines and writing every line back with a newline gives the
text with one newline added. -/
theorem joinLines_Split (s : List Char) : joinLines (Split '\n' s) = s ++ ['\n'] := by
  induction s with
  | nil => rfl
  | cons c cs ih =>
    unfold Split
    split
    · rename_i hc
      rw [joinLines, ih, hc]
      rfl
    · split
      · rename_i h
        exact absurd h (Split_ne_nil _ _)
      · rename_i piece pieces h
        rw [h, joinLines] at ih
        rw [joinLines, List.cons_append, ih]
        rfl

theorem stepLine_outside (line : List Char) (st : ConvertState)
    (hst : st.inMermaidBlock = false) :
    stepLine line st = { st with result := st.result ++ line ++ ['\n'] } := by
  unfold stepLine
  simp [hst]

/-- Outside a Mermaid block, lines that open no block are all written to the result. -/
theorem convertLines_plain (lines : List (List Char)) (st : ConvertState)
    (hst : st.inMermaidBlock = false)
    (hno : ∀ l ∈ lines, HasPrefix l "```mermaid".toList = false)
    (hpair : ∀ p ∈ lines.zip lines.tail, ¬ (TrimSpace p.1 = "```".toList ∧
      TrimSpace p.2 = "mermaid".toList)) :
    convertLines lines st = { st with result := st.result ++ joinLines lines } := by
  induction lines generalizing st with
  | nil => simp [convertLines, joinLines]
  | cons line rest ih =>
    have hline := hno line (List.mem_cons_self _ _)
    cases rest with
    | nil =>
      rw [convertLines]
      simp only [hline, Bool.false_eq_true, if_false]
      rw [stepLine_outside line st hst]
      simp [joinLines]
    | cons next rest2 =>
      have hp : ¬ (TrimSpace line = "```".toList ∧ TrimSpace next = "mermaid".toList) :=
        hpair (line, next) (by simp)
      have htail : ∀ p ∈ (next :: rest2).zip (next :: rest2).tail,
          ¬ (TrimSpace p.1 = "```".toList ∧ TrimSpace p.2 = "mermaid".toList) := by
        intro p hmem
        apply hpair p
        simp only [List.tail_cons, List.zip_cons_cons]
        exact List.mem_cons_of_mem _ hmem
      rw [convertLines]
      simp only [hline, Bool.false_eq_true, if_false, hp]
      rw [ih (stepLine line st) (by rw [stepLine_outside line st hst]; exact hst)
        (fun l hl => hno l (List.mem_cons_of_mem _ hl)) htail,
        stepLine_outside line st hst]
      simp [joinLines]

/-- C19 (non-mermaid content is preserved): for every markdown text in which no
line starts with the Mermaid fence and no line that trims to the bare fence is
followed by a line that trims to "mermaid" (the pairs of `lines.zip lines.tail`
are the pairs of consecutive lines), the converter writes every input line
unchanged and in order, each followed by a newline, so the output is the input
with one newline appended. -/
theorem non_mermaid_preserved (markdown : List Char)
    (hno : ∀ l ∈ Split '\n' markdown, HasPrefix l "```mermaid".toList = false)
    (hpair : ∀ p ∈ (Split '\n' markdown).zip (Split '\n' markdown).tail,
      ¬ (TrimSpace p.1 = "```".toList ∧ TrimSpace p.2 = "mermaid".toList)) :
    ConvertMermaidToImageURL markdown = joinLines (Split '\n' markdown) ∧
      ConvertMermaidToImageURL markdown = markdown ++ ['\n'] := by
  have h : ConvertMermaidToImageURL markdown = joinLines (Split '\n' markdown) := by
    unfold ConvertMermaidToImageURL
    rw [convertLines_plain _ {} rfl hno hpair]
    rfl
  exact ⟨h, h.trans (joinLines_Split markdown)⟩

/-- Witness of C19: a text with a java block and no Mermaid block. -/
theorem non_mermaid_preserved_witness :
    ConvertMermaidToImageURL "# doc\n```java\nclass A \x7b\x7d\n```\nend".toList
        = joinLines (Split '\n' "# doc\n```java\nclass A \x7b\x7d\n```\nend".toList) ∧
      ConvertMermaidToImageURL "# doc\n```java\nclass A \x7b\x7d\n```\nend".toList
        = "# doc\n```java\nclass A \x7b\x7d\n```\nend".toList ++ ['\n'] :=
  non_mermaid_preserved "# doc\n```java\nclass A \x7b\x7d\n```\nend".toList
    (by decide) (by decide)

end tools

namespace tools

open strings

theorem stepLine_result (line : List Char) (st : ConvertState) :
    (stepLine line st).result = st.result ∨
      (stepLine line st).result = st.result ++ joinLines [line] := by
  unfold stepLine
  split
  · exact Or.inl rfl
  · split
    · dsimp only
      split
      · exact Or.inl rfl
      · exact Or.inl rfl
    · exact Or.inr (by simp [joinLines])

theorem joinLines_append (a b : List (List Char)) :
    joinLines (a ++ b) = joinLines a ++ joinLines b := by
  induction a with
  | nil => rfl
  | cons x xs ih => simp [joinLines, ih]

/-- Whatever the input, the result consists of input lines only: it is a
subsequence of the lines, each written back with its newline. -/
theorem convertLines_keeps_input_lines (n : Nat) (lines : List (List Char))
    (hn : lines.length ≤ n) (st : ConvertState) :
    ∃ kept, kept.Sublist lines ∧
      (convertLines lines st).result = st.result ++ joinLines kept := by
  induction n generalizing lines st with
  | zero =>
    have hl : lines = [] := List.length_eq_zero.mp (Nat.le_zero.mp hn)
    subst hl
    exact ⟨[], List.Sublist.refl _, by simp [convertLines, joinLines]⟩
  | succ n ih =>
    match lines, hn with
    | [], _ => exact ⟨[], List.Sublist.refl _, by simp [convertLines, joinLines]⟩
    | [line], _ =>
      rw [convertLines]
      split
      · exact ⟨[], List.nil_sublist _, by simp [joinLines]⟩
      · rcases stepLine_result line st with h | h
        · exact ⟨[], List.nil_sublist _, by simp [h, joinLines]⟩
        · exact ⟨[line], List.Sublist.refl _, h⟩
    | line :: next :: rest, hlen =>
      simp only [List.length_cons] at hlen
      rw [convertLines]
      split
      · obtain ⟨kept, hsub, hres⟩ := ih (next :: rest) (by simp only [List.length_cons]; omega)
          { st with inMermaidBlock := true, mermaidCode := [] }
        exact ⟨kept, List.Sublist.cons _ hsub, hres⟩
      · split
        · obtain ⟨kept, hsub, hres⟩ := ih rest (by omega)
            { st with inMermaidBlock := true, mermaidCode := [] }
          exact ⟨kept, List.Sublist.cons _ (List.Sublist.cons _ hsub), hres⟩
        · obtain ⟨kept, hsub, hres⟩ := ih (next :: rest)
            (by simp only [List.length_cons]; omega) (stepLine line st)
          rcases stepLine_result line st with h | h
          · exact ⟨kept, List.Sublist.cons _ hsub, by rw [hres, h]⟩
          · refine ⟨line :: kept, List.Sublist.cons₂ _ hsub, ?_⟩
            rw [hres, h]
            simp [joinLines]

/-- C18 (Mermaid blocks become image URLs), evaluated on the code: for the text
"intro", a fenced Mermaid block holding "graph TD", "end", the converter
returns "intro" and "end" only.  The URL for the block is built (lines 165-173)
but never written, so the output holds no `https://mermaid.ink/img/` URL; and
for every input the output is made of input lines only. -/
theorem mermaid_block_dropped :
    ConvertMermaidToImageURL "intro\n```mermaid\ngraph TD\n```\nend".toList
        = "intro\nend\n".toList ∧
      ¬ ("https://mermaid.ink/img/".toList
          <:+: ConvertMermaidToImageURL "intro\n```mermaid\ngraph TD\n```\nend".toList) ∧
      (∀ encode : List Char → List Char, closingImageURL encode "graph TD\n".toList
          = some ("https://mermaid.ink/img/".toList ++ encode "graph TD".toList)) ∧
      (∀ markdown : List Char, ∃ kept, kept.Sublist (Split '\n' markdown) ∧
          ConvertMermaidToImageURL markdown = joinLines kept) := by
  refine ⟨by decide, by decide, fun encode => rfl, ?_⟩
  intro markdown
  obtain ⟨kept, hsub, hres⟩ :=
    convertLines_keeps_input_lines _ (Split '\n' markdown) (le_refl _) {}
  exact ⟨kept, hsub, by rw [ConvertMermaidToImageURL, hres]; rfl⟩

end tools

namespace httptransport

open strings

/-! ## C20: the size of the stream summary -/

theorem Split_replicate_sep (k : Nat) :
    Split (10 : Nat) (List.replicate k 10) = List.replicate (k + 1) [] := by
  induction k with
  | zero => rfl
  | succ k ih =>
    rw [List.replicate_succ, Split]
    simp only [if_true, ih]
    rfl

theorem logLine_empty (lrc : loggingReadCloser) (buf : List Nat)
    (hcl : lrc.hasCtxLogger = false) (hrem : lrc.total < lrc.cap)
    (hsum : lrc.summary = some buf) :
    logLine [] lrc = { lrc with summary := some (buf ++ [10]) } := by
  unfold logLine
  have hpos : lrc.cap - lrc.total > 0 := by omega
  have hnot : ¬ ((([] : List Nat).length : Int) > lrc.cap - lrc.total) := by
    simp only [List.length_nil, Nat.cast_zero]
    omega
  simp [hcl, hpos, hnot, hsum]

theorem logLines_empty_lines (k : Nat) (lrc : loggingReadCloser) (buf : List Nat)
    (hcl : lrc.hasCtxLogger = false) (hrem : lrc.total < lrc.cap)
    (hsum : lrc.summary = some buf) :
    logLines (List.replicate (k + 1) []) lrc
      = { lrc with summary := some (buf ++ List.replicate k 10) } := by
  induction k generalizing lrc buf with
  | zero =>
    simp only [List.replicate_succ, List.replicate_zero, logLines, List.length_nil,
      gt_iff_lt, lt_self_iff_false, if_false, List.append_nil]
    rw [← hsum]
  | succ k ih =>
    rw [List.replicate_succ, List.replicate_succ, logLines, logLine_empty lrc buf hcl hrem hsum,
      ← List.replicate_succ]
    rw [ih { lrc with summary := some (buf ++ [10]) } (buf ++ [10]) hcl hrem rfl]
    simp [List.replicate_succ]

/-- While the cap has not been reached, a chunk of `k` newline bytes adds `k` bytes to the
summary and leaves the counter `total` where it was. -/
theorem Read_newlines (k : Nat) (lrc : loggingReadCloser) (buf : List Nat)
    (hcl : lrc.hasCtxLogger = false) (hrem : lrc.total < lrc.cap)
    (hsum : lrc.summary = some buf) :
    Read lrc (List.replicate k 10) = { lrc with summary := some (buf ++ List.replicate k 10) } := by
  unfold Read
  cases k with
  | zero =>
    simp only [List.replicate_zero, List.length_nil, gt_iff_lt, lt_self_iff_false, if_false,
      List.append_nil]
    rw [← hsum]
  | succ k =>
    simp only [List.length_replicate, gt_iff_lt, Nat.zero_lt_succ, if_true]
    rw [Split_replicate_sep, logLines_empty_lines (k + 1) lrc buf hcl hrem hsum]

/-- C20 (stream summary cap), evaluated on the code: with a plain logger and
`maxStreamLogBytes = 4`, one `Read` that delivers the five lines a, b, c, d, e
leaves 8 bytes in the summary buffer (four bytes of text and four newline
bytes, which `total` does not count); and with the default cap of 8192 a
chunk of 10000 newline bytes leaves 10000 bytes in the buffer. -/
theorem stream_summary_over_cap :
    (Read (newLoggingReadCloser false 4) [97, 10, 98, 10, 99, 10, 100, 10, 101, 10]).cap = 4 ∧
      (Read (newLoggingReadCloser false 4) [97, 10, 98, 10, 99, 10, 100, 10, 101, 10]).summary
        = some [97, 10, 98, 10, 99, 10, 100, 10] ∧
      summaryLen (Read (newLoggingReadCloser false 4)
        [97, 10, 98, 10, 99, 10, 100, 10, 101, 10]) = 8 ∧
      (newLoggingReadCloser false 0).cap = 8192 ∧
      summaryLen (Read (newLoggingReadCloser false 0) (List.replicate 10000 10)) = 10000 := by
  refine ⟨by decide, by decide, by decide, by decide, ?_⟩
  rw [Read_newlines 10000 (newLoggingReadCloser false 0) [] rfl (by decide) rfl]
  simp only [summaryLen, List.nil_append, List.length_replicate]

end httptransport

namespace httptransport

/-! ## C21: header masking -/

theorem sameIgnoringCase_map (s t : List Char) (h : sameIgnoringCase s t = true) :
    s.map Char.toLower = t.map Char.toLower := by
  induction s generalizing t with
  | nil =>
    cases t with
    | nil => rfl
    | cons b t => simp [sameIgnoringCase] at h
  | cons a s ih =>
    cases t with
    | nil => simp [sameIgnoringCase] at h
    | cons b t =>
      simp only [sameIgnoringCase, Bool.and_eq_true, beq_iff_eq] at h
      simp only [List.map_cons, h.1, ih t h.2]

/-- A header whose lower-cased name was given to `WithMaskHeaders`, and which is not
an Authorization header, is masked by `maskFn`, with every lower-casing function. -/
theorem mask_listed_header (ToLower : List Char → List Char) (c : CurlRT)
    (names : List (List Char)) (n name value : List Char) (hn : n ∈ names)
    (hlow : ToLower name = ToLower n)
    (hna : EqualFold name "Authorization".toList = false) :
    mask ToLower (WithMaskHeaders ToLower names c) name value = c.maskFn name value := by
  have hcond : ¬ (EqualFold name "Authorization".toList
      && !(WithMaskHeaders ToLower names c).printAuth) = true := by
    rw [hna]
    simp
  have hmem : ToLower name ∈ (WithMaskHeaders ToLower names c).maskHeaders := by
    rw [hlow]
    exact List.mem_append_right _ (List.mem_map_of_mem _ hn)
  rw [mask, if_neg hcond, if_pos hmem]
  rfl

/-- A header name with a letter outside ASCII: after `WithMaskHeaders` with the
upper-case name, the lower-case name and the upper-case name are both masked. -/
theorem mask_non_ascii_header :
    mask lowerLatin (WithMaskHeaders lowerLatin ["X-Ä".toList] NewCurlRT) "x-ä".toList
        "secret".toList = "<redacted>".toList ∧
      mask lowerLatin (WithMaskHeaders lowerLatin ["X-Ä".toList] NewCurlRT) "X-Ä".toList
        "secret".toList = "<redacted>".toList :=
  ⟨mask_listed_header lowerLatin NewCurlRT ["X-Ä".toList] "X-Ä".toList "x-ä".toList
      "secret".toList (by decide) (by decide) (by decide),
   mask_listed_header lowerLatin NewCurlRT ["X-Ä".toList] "X-Ä".toList "X-Ä".toList
      "secret".toList (by decide) (by decide) (by decide)⟩

/-- C21 (Authorization masking): for every header name equal to "Authorization"
up to letter case and every value, `mask` returns "<redacted>" when
`printAuth` is false, whatever `maskHeaders` and `maskFn` are; and for every
header whose lower-cased name is not in `maskHeaders` and which is not an
Authorization header masked that way, `mask` returns the value unchanged.
The lower-casing is the library function `strings.ToLower`; the statement holds
with every function in its place. -/
theorem authorization_masked (ToLower : List Char → List Char) (c : CurlRT)
    (name value : List Char) :
    (sameIgnoringCase name "Authorization".toList = true → c.printAuth = false →
      mask ToLower c name value = "<redacted>".toList) ∧
    (ToLower name ∉ c.maskHeaders →
      ¬ (sameIgnoringCase name "Authorization".toList = true ∧ c.printAuth = false) →
      mask ToLower c name value = value) ∧
    NewCurlRT.printAuth = false := by
  refine ⟨?_, ?_, rfl⟩
  · intro hname hauth
    have hfold : EqualFold name "Authorization".toList = true := by
      unfold EqualFold
      rw [sameIgnoringCase_map _ _ hname]
      exact beq_self_eq_true _
    have hcond : (EqualFold name "Authorization".toList && !c.printAuth) = true := by
      rw [hfold, hauth]
      rfl
    rw [mask, if_pos hcond]
  · intro hnot hna
    by_cases hfold : EqualFold name "Authorization".toList = true
    · by_cases hauth : c.printAuth = false
      · exfalso
        apply hna
        refine ⟨?_, hauth⟩
        unfold EqualFold at hfold
        have hmap : name.map Char.toLower = "Authorization".toList.map Char.toLower :=
          eq_of_beq hfold
        clear hfold hna hnot
        have hgen : ∀ (s t : List Char), s.map Char.toLower = t.map Char.toLower →
            sameIgnoringCase s t = true := by
          intro s
          induction s with
          | nil =>
            intro t ht
            cases t with
            | nil => rfl
            | cons b t => simp at ht
          | cons a s ih =>
            intro t ht
            cases t with
            | nil => simp at ht
            | cons b t =>
              simp only [List.map_cons, List.cons.injEq] at ht
              simp only [sameIgnoringCase, ht.1, beq_self_eq_true, Bool.true_and]
              exact ih t ht.2
        exact hgen _ _ hmap
      · have hcond : ¬ (EqualFold name "Authorization".toList && !c.printAuth) = true := by
          rw [hfold, Bool.not_eq_false _ |>.mp hauth]
          decide
        rw [mask, if_neg hcond, if_neg hnot]
    · have hcond : ¬ (EqualFold name "Authorization".toList && !c.printAuth) = true := by
        rw [Bool.not_eq_true _ |>.mp hfold]
        simp
      rw [mask, if_neg hcond, if_neg hnot]

/-- Witness of C21: with `X-API-KEY` in the set of masked headers and the default
`printAuth`, an upper-case Authorization header is redacted and an Accept header is not;
and with `X-Ä` in the set, the header `X-A` is not masked. -/
theorem authorization_masked_witness :
    mask lowerASCII (WithMaskHeaders lowerASCII ["X-API-KEY".toList] NewCurlRT)
        "AUTHORIZATION".toList "Bearer abc".toList = "<redacted>".toList ∧
      mask lowerASCII (WithMaskHeaders lowerASCII ["X-API-KEY".toList] NewCurlRT)
        "Accept".toList "text/plain".toList = "text/plain".toList ∧
      mask lowerLatin (WithMaskHeaders lowerLatin ["X-Ä".toList] NewCurlRT)
        "X-A".toList "plain".toList = "plain".toList :=
  ⟨(authorization_masked lowerASCII (WithMaskHeaders lowerASCII ["X-API-KEY".toList] NewCurlRT)
      "AUTHORIZATION".toList "Bearer abc".toList).1 (by decide) rfl,
   (authorization_masked lowerASCII (WithMaskHeaders lowerASCII ["X-API-KEY".toList] NewCurlRT)
      "Accept".toList "text/plain".toList).2.1 (by decide) (by decide),
   (authorization_masked lowerLatin (WithMaskHeaders lowerLatin ["X-Ä".toList] NewCurlRT)
      "X-A".toList "plain".toList).2.1 (by decide) (by decide)⟩

end httptransport

namespace config

/-! ## C27: masking the API key -/

theorem sliceChecked_ok (s : List Nat) (i j : Nat) (hij : i ≤ j) (hj : j ≤ s.length) :
    sliceChecked s (i : Int) (j : Int) = some ((s.drop i).take (j - i)) := by
  unfold sliceChecked
  have hcond : (0 : Int) ≤ (i : Int) ∧ (i : Int) ≤ (j : Int) ∧ (j : Int) ≤ (s.length : Int) :=
    ⟨Int.ofNat_zero_le _, by exact_mod_cast hij, by exact_mod_cast hj⟩
  rw [if_pos hcond, Int.toNat_natCast, Int.toNat_natCast]

/-- C27 (API key masking is safe for short keys): for every API key the masking
of `PrintConfig` stays within the bounds of the key; it yields the first 10
bytes, "***" and the last 4 bytes when the key is longer than 14 bytes, the
first byte, "***" and the last byte when it has 1 to 14 bytes, and "***" when
it is empty. -/
theorem api_key_masking (apiKey : List Nat) :
    ∃ out, maskAPIKey apiKey = some out ∧
      (14 < apiKey.length →
        out = apiKey.take 10 ++ stars ++ apiKey.drop (apiKey.length - 4)) ∧
      (1 ≤ apiKey.length → apiKey.length ≤ 14 →
        out = apiKey.take 1 ++ stars ++ apiKey.drop (apiKey.length - 1)) ∧
      (apiKey.length = 0 → out = stars) := by
  by_cases h14 : 14 < apiKey.length
  · have hc : (apiKey.length : Int) > 14 := by exact_mod_cast h14
    have h1 := sliceChecked_ok apiKey 0 10 (by omega) (by omega)
    have h2 := sliceChecked_ok apiKey (apiKey.length - 4) apiKey.length (by omega) (le_refl _)
    have hcast : ((apiKey.length - 4 : Nat) : Int) = (apiKey.length : Int) - 4 := by omega
    rw [hcast] at h2
    have htail : (apiKey.drop (apiKey.length - 4)).take (apiKey.length - (apiKey.length - 4))
        = apiKey.drop (apiKey.length - 4) := by
      apply List.take_of_length_le
      simp only [List.length_drop]
      omega
    refine ⟨apiKey.take 10 ++ stars ++ apiKey.drop (apiKey.length - 4), ?_, fun _ => rfl,
      fun _ h => by omega, fun h => by omega⟩
    unfold maskAPIKey
    rw [if_pos hc]
    simp only [Nat.cast_ofNat, Nat.cast_zero, Nat.sub_zero, List.drop_zero] at h1
    rw [h1, h2, htail]
  · by_cases h0 : 0 < apiKey.length
    · have hc : ¬ (apiKey.length : Int) > 14 := by
        intro h
        exact h14 (by exact_mod_cast h)
      have hc0 : (apiKey.length : Int) > 0 := by exact_mod_cast h0
      have h1 := sliceChecked_ok apiKey 0 1 (by omega) (by omega)
      have h2 := sliceChecked_ok apiKey (apiKey.length - 1) apiKey.length (by omega) (le_refl _)
      have hcast : ((apiKey.length - 1 : Nat) : Int) = (apiKey.length : Int) - 1 := by omega
      rw [hcast] at h2
      have htail : (apiKey.drop (apiKey.length - 1)).take (apiKey.length - (apiKey.length - 1))
          = apiKey.drop (apiKey.length - 1) := by
        apply List.take_of_length_le
        simp only [List.length_drop]
        omega
      refine ⟨apiKey.take 1 ++ stars ++ apiKey.drop (apiKey.length - 1), ?_, fun h => by omega,
        fun _ _ => rfl, fun h => by omega⟩
      unfold maskAPIKey
      rw [if_neg hc, if_pos hc0]
      simp only [Nat.cast_one, Nat.cast_zero, Nat.sub_zero, List.drop_zero] at h1
      rw [h1, h2, htail]
    · have hlen : apiKey.length = 0 := by omega
      refine ⟨stars, ?_, fun h => by omega, fun h _ => by omega, fun _ => rfl⟩
      unfold maskAPIKey
      simp [hlen]

/-- Witness of C27: keys of 16 bytes, 14 bytes, 1 byte and 0 bytes (the digits stand for
the bytes of the key). -/
theorem api_key_masking_witness :
    maskAPIKey [1, 2, 3, 4, 5, 6, 7, 8, 9, 10, 11, 12, 13, 14, 15, 16]
        = some [1, 2, 3, 4, 5, 6, 7, 8, 9, 10, 42, 42, 42, 13, 14, 15, 16] ∧
      maskAPIKey [1, 2, 3, 4, 5, 6, 7, 8, 9, 10, 11, 12, 13, 14] = some [1, 42, 42, 42, 14] ∧
      maskAPIKey [7] = some [7, 42, 42, 42, 7] ∧
      maskAPIKey [] = some [42, 42, 42] := by
  obtain ⟨o1, h1, h1a, -, -⟩ :=
    api_key_masking [1, 2, 3, 4, 5, 6, 7, 8, 9, 10, 11, 12, 13, 14, 15, 16]
  obtain ⟨o2, h2, -, h2a, -⟩ := api_key_masking [1, 2, 3, 4, 5, 6, 7, 8, 9, 10, 11, 12, 13, 14]
  obtain ⟨o3, h3, -, h3a, -⟩ := api_key_masking [7]
  obtain ⟨o4, h4, -, -, h4a⟩ := api_key_masking []
  refine ⟨?_, ?_, ?_, ?_⟩
  · rw [h1, h1a (by decide)]; rfl
  · rw [h2, h2a (by decide) (by decide)]; rfl
  · rw [h3, h3a (by decide) (by decide)]; rfl
  · rw [h4, h4a rfl]; rfl

end config

namespace components

open strings

/-! ## C22: the split point of the smart splitter -/

/-- C22 (SmartSplitter keeps a list item with all its sub-items), evaluated on
the code: for the lines "- a", "  - b", "  - c" and the split point 1,
`extendToCompleteListItem` returns 2, because after taking "  - b" it compares
the next line with the indent of "  - b" and no longer with that of "- a".
The claim asks for 3, the number of lines: "  - c" is deeper than "- a", and
no later line is at the level of "- a" or above. -/
theorem sub_item_split_off :
    extendToCompleteListItem ["- a".toList, "  - b".toList, "  - c".toList] 0 1 = 2 ∧
      claimedSplitPoint ["- a".toList, "  - b".toList, "  - c".toList] 1 = 3 ∧
      getIndentLevel "- a".toList = 0 ∧ getIndentLevel "  - b".toList = 2 ∧
      getIndentLevel "  - c".toList = 2 := by
  refine ⟨by decide, by decide, by decide, by decide, by decide⟩

/-! ## C23, C29, C30: the line splitter -/

theorem backtrack_le (lines : List (List Char)) (i e : Nat) : backtrack lines i e ≤ e := by
  induction e with
  | zero => simp [backtrack]
  | succ e ih =>
    rw [backtrack]
    split
    · exact Nat.le_succ_of_le ih
    · exact le_refl _

theorem backtrack_ge (lines : List (List Char)) (i e : Nat) (h : i ≤ e) :
    i ≤ backtrack lines i e := by
  induction e with
  | zero => simpa [backtrack] using h
  | succ e ih =>
    rw [backtrack]
    split
    · rename_i hc
      exact ih (by omega)
    · exact h

theorem chunkEnd_bounds (n : Nat) (lines : List (List Char)) (i : Nat)
    (hi : i ≤ lines.length) :
    i ≤ chunkEnd n lines i ∧ chunkEnd n lines i ≤ i + n ∧ chunkEnd n lines i ≤ lines.length := by
  have he : ∀ e0, e0 = (if i + n > lines.length then lines.length else i + n) →
      i ≤ e0 ∧ e0 ≤ i + n ∧ e0 ≤ lines.length := by
    intro e0 h0
    rw [h0]
    split <;> omega
  have hmain : ∀ e0, i ≤ e0 ∧ e0 ≤ i + n ∧ e0 ≤ lines.length →
      i ≤ (if e0 < lines.length ∧ isBlank (lines.getD e0 []) = true then backtrack lines i e0
          else e0) ∧
      (if e0 < lines.length ∧ isBlank (lines.getD e0 []) = true then backtrack lines i e0
          else e0) ≤ i + n ∧
      (if e0 < lines.length ∧ isBlank (lines.getD e0 []) = true then backtrack lines i e0
          else e0) ≤ lines.length := by
    intro e0 h0
    split
    · have h1 := backtrack_le lines i e0
      have h2 := backtrack_ge lines i e0 h0.1
      omega
    · exact h0
  exact hmain _ (he _ rfl)

theorem skipBlank_ge (lines : List (List Char)) (e : Nat) : e ≤ skipBlank lines e := by
  unfold skipBlank
  omega

theorem linesBetween_self (lines : List (List Char)) (i : Nat) : linesBetween lines i i = [] := by
  simp [linesBetween]

/-- Every iteration of the inner loop moves the index forward. -/
theorem lineStep_progress (n : Nat) (lines : List (List Char)) (i : Nat)
    (hi : i ≤ lines.length) : i < (lineStep n lines i).2 := by
  have hb := chunkEnd_bounds n lines i hi
  unfold lineStep
  simp only
  split
  · show i < chunkEnd n lines i + 1
    omega
  · rename_i hblank
    show i < skipBlank lines (chunkEnd n lines i)
    have hne : chunkEnd n lines i ≠ i := by
      intro heq
      apply hblank
      rw [heq, linesBetween_self]
      decide
    have := skipBlank_ge lines (chunkEnd n lines i)
    omega

theorem indexAfter_ge (n : Nat) (lines : List (List Char)) (k i : Nat)
    (hk : lines.length ≤ i + k) : lines.length ≤ indexAfter n lines k i := by
  induction k generalizing i with
  | zero => simpa [indexAfter] using hk
  | succ k ih =>
    rw [indexAfter]
    split
    · rename_i hlt
      have := lineStep_progress n lines i (le_of_lt hlt)
      exact ih _ (by omega)
    · omega

/-- Enough fuel: any two bounds that cover the lines still ahead give the same result. -/
theorem lineLoop_fuel (n : Nat) (lines : List (List Char)) (md : List (List Char × List Char))
    (f g i idx : Nat) (hf : lines.length ≤ i + f) (hg : lines.length ≤ i + g) :
    lineLoop n lines md f i idx = lineLoop n lines md g i idx := by
  induction f generalizing g i idx with
  | zero =>
    have hi : ¬ i < lines.length := by omega
    cases g with
    | zero => rfl
    | succ g => simp [lineLoop, hi]
  | succ f ih =>
    cases g with
    | zero =>
      have hi : ¬ i < lines.length := by omega
      simp [lineLoop, hi]
    | succ g =>
      rw [lineLoop, lineLoop]
      split
      · rename_i hlt
        have hp := lineStep_progress n lines i (le_of_lt hlt)
        rcases hstep : lineStep n lines i with ⟨c, next⟩
        rw [hstep] at hp
        simp only at hp
        cases c with
        | none => exact ih g next idx (by omega) (by omega)
        | some chunk =>
          simp only
          rw [ih g next (idx + 1) (by omega) (by omega)]
      · rfl

end components

namespace components

open strings

/-- Every document that the inner loop appends is a run of at most `n` lines of the
text, joined by newlines, and is not blank. -/
theorem lineLoop_chunks (n : Nat) (lines : List (List Char))
    (md : List (List Char × List Char)) (fuel i idx : Nat) :
    ∀ d ∈ (lineLoop n lines md fuel i idx).1,
      ∃ a b, a ≤ b ∧ b ≤ lines.length ∧ b - a ≤ n ∧
        d.Content = Join (linesBetween lines a b) "\n".toList ∧
        isBlank d.Content = false ∧ d.MetaData = md := by
  induction fuel generalizing i idx with
  | zero =>
    intro d hd
    simp [lineLoop] at hd
  | succ fuel ih =>
    intro d hd
    rw [lineLoop] at hd
    split at hd
    · rename_i hlt
      have hb := chunkEnd_bounds n lines i (le_of_lt hlt)
      rcases hstep : lineStep n lines i with ⟨c, next⟩
      rw [hstep] at hd
      cases c with
      | none => exact ih next idx d hd
      | some chunk =>
        simp only [List.mem_cons] at hd
        rcases hd with rfl | hd
        · have hchunk : chunk = Join (linesBetween lines i (chunkEnd n lines i)) "\n".toList ∧
              isBlank chunk = false := by
            unfold lineStep at hstep
            simp only at hstep
            split at hstep
            · simp at hstep
            · rename_i hnb
              simp only [Prod.mk.injEq, Option.some.injEq] at hstep
              rw [← hstep.1]
              exact ⟨rfl, by simpa using hnb⟩
          exact ⟨i, chunkEnd n lines i, hb.1, hb.2.2, by omega, hchunk.1, hchunk.2, rfl⟩
        · exact ih next (idx + 1) d hd
    · simp at hd

theorem transformDocs_chunks (n : Nat) (docs : List Document) (idx : Nat) :
    ∀ d ∈ transformDocs n docs idx, ∃ doc ∈ docs, ∃ a b, a ≤ b ∧
      b ≤ (Split '\n' doc.Content).length ∧ b - a ≤ n ∧
      d.Content = Join (linesBetween (Split '\n' doc.Content) a b) "\n".toList ∧
      isBlank d.Content = false ∧ d.MetaData = doc.MetaData := by
  induction docs generalizing idx with
  | nil =>
    intro d hd
    simp [transformDocs] at hd
  | cons doc rest ih =>
    intro d hd
    rw [transformDocs] at hd
    simp only [List.mem_append] at hd
    rcases hd with hd | hd
    · obtain ⟨a, b, h⟩ := lineLoop_chunks n _ _ _ _ _ d hd
      exact ⟨doc, List.mem_cons_self _ _, a, b, h⟩
    · obtain ⟨doc2, hmem, h⟩ := ih _ d hd
      exact ⟨doc2, List.mem_cons_of_mem _ hmem, h⟩

/-- C23 (LineSplitter chunk size): for every splitter built by `NewLineSplitter`
(an argument `<= 0` is replaced by 2) and every list of documents, `Transform`
returns, and each output chunk is a contiguous range of at most
`linesPerChunk` lines of one input document, joined by newlines, that is not
blank; it carries the metadata of that document. -/
theorem chunk_size (k : Int) (docs : List Document) :
    ((k ≤ 0 → (NewLineSplitter k).linesPerChunk = 2) ∧
      (0 < k → (NewLineSplitter k).linesPerChunk = k)) ∧
    ∃ out, (NewLineSplitter k).Transform docs = some out ∧
      ∀ d ∈ out, ∃ doc ∈ docs, ∃ a b, a ≤ b ∧
        b ≤ (Split '\n' doc.Content).length ∧
        ((b - a : Nat) : Int) ≤ (NewLineSplitter k).linesPerChunk ∧
        d.Content = Join (linesBetween (Split '\n' doc.Content) a b) "\n".toList ∧
        isBlank d.Content = false ∧ d.MetaData = doc.MetaData := by
  have hpos : 0 < (NewLineSplitter k).linesPerChunk := by
    unfold NewLineSplitter
    simp only
    split <;> omega
  refine ⟨⟨?_, ?_⟩, transformDocs (NewLineSplitter k).linesPerChunk.toNat docs 1, ?_, ?_⟩
  · intro h
    simp [NewLineSplitter, h]
  · intro h
    have : ¬ k ≤ 0 := by omega
    simp [NewLineSplitter, this]
  · unfold LineSplitter.Transform
    have : ¬ ((NewLineSplitter k).linesPerChunk < 0 ∧ docs ≠ []) := by
      intro h
      omega
    rw [if_neg this]
  · intro d hd
    obtain ⟨doc, hmem, a, b, hab, hb, hn, hrest⟩ := transformDocs_chunks _ docs 1 d hd
    refine ⟨doc, hmem, a, b, hab, hb, ?_, hrest⟩
    have hcast : (((NewLineSplitter k).linesPerChunk.toNat : Nat) : Int)
        = (NewLineSplitter k).linesPerChunk := Int.toNat_of_nonneg (le_of_lt hpos)
    rw [← hcast]
    exact_mod_cast hn

/-- C29 (LineSplitter loses no content), evaluated on the code: for one document
with the text of two empty lines and the line "a", and `linesPerChunk = 2`
(also as the default for the argument 0), `Transform` returns no chunk at all,
although "a" is a non-blank line of the document.  The first chunk is the two
blank lines; it is skipped with `i = end + 1`, which steps over the line "a". -/
theorem line_lost :
    (NewLineSplitter 2).Transform [⟨"doc".toList, "\n\na".toList, []⟩] = some [] ∧
      (NewLineSplitter 0).Transform [⟨"doc".toList, "\n\na".toList, []⟩] = some [] ∧
      Split '\n' "\n\na".toList = [[], [], "a".toList] ∧
      isBlank "a".toList = false ∧
      lineStep 2 [[], [], "a".toList] 0 = (none, 3) := by
  refine ⟨by decide, by decide, by decide, by decide, by decide⟩

/-- C30 (LineSplitter.Transform terminates): for every `linesPerChunk >= 1`,
`Transform` returns; each iteration of the inner loop strictly increases the
index `i` (also when the empty chunk is skipped), after at most `len(lines)`
iterations the loop condition `i < len(lines)` is false, and the documents the
loop produces do not depend on any larger bound on the number of iterations. -/
theorem transform_terminates (ls : LineSplitter) (docs : List Document)
    (hn : 1 ≤ ls.linesPerChunk) :
    (∃ out, ls.Transform docs = some out) ∧
    (∀ (lines : List (List Char)) (i : Nat), i < lines.length →
      i < (lineStep ls.linesPerChunk.toNat lines i).2) ∧
    (∀ lines : List (List Char),
      lines.length ≤ indexAfter ls.linesPerChunk.toNat lines lines.length 0) ∧
    (∀ (lines : List (List Char)) (md : List (List Char × List Char)) (extra idx : Nat),
      lineLoop ls.linesPerChunk.toNat lines md (lines.length + extra) 0 idx
        = lineLoop ls.linesPerChunk.toNat lines md lines.length 0 idx) := by
  refine ⟨?_, ?_, ?_, ?_⟩
  · unfold LineSplitter.Transform
    have : ¬ (ls.linesPerChunk < 0 ∧ docs ≠ []) := by
      intro h
      omega
    rw [if_neg this]
    exact ⟨_, rfl⟩
  · intro lines i hi
    exact lineStep_progress _ lines i (le_of_lt hi)
  · intro lines
    exact indexAfter_ge _ lines lines.length 0 (by omega)
  · intro lines md extra idx
    exact lineLoop_fuel _ lines md _ _ 0 idx (by omega) (by omega)

/-- Witness of C30: `linesPerChunk = 2` on a text whose first chunk is blank. -/
theorem transform_terminates_witness :
    (∃ out, (NewLineSplitter 2).Transform [⟨"doc".toList, "\n\na\nb".toList, []⟩] = some out) ∧
    (∀ (lines : List (List Char)) (i : Nat), i < lines.length →
      i < (lineStep (NewLineSplitter 2).linesPerChunk.toNat lines i).2) ∧
    (∀ lines : List (List Char),
      lines.length ≤ indexAfter (NewLineSplitter 2).linesPerChunk.toNat lines lines.length 0) ∧
    (∀ (lines : List (List Char)) (md : List (List Char × List Char)) (extra idx : Nat),
      lineLoop (NewLineSplitter 2).linesPerChunk.toNat lines md (lines.length + extra) 0 idx
        = lineLoop (NewLineSplitter 2).linesPerChunk.toNat lines md lines.length 0 idx) :=
  transform_terminates (NewLineSplitter 2) [⟨"doc".toList, "\n\na\nb".toList, []⟩] (by decide)

end components
